import Mathlib

/-!
# aixlog: the size-based log rotation strategy (`rotation_strategy.hpp`)

A shallow embedding of `Filez` and `rotation_strategy` and the properties of
the rotation engine proved over it.

Conventions of the embedding.

* A `std::string` is a `List Char` (`Str`); one `Char` stands for one byte.
* `size_t` is 64 bits wide, `uint32_t` 32 bits; arithmetic on them is written
  with an explicit `%`.  The powers of two are written out:
  `2^31 = 2147483648`, `2^32 = 4294967296`, `2^64 = 18446744073709551616`.
* A C++ exception is a value of `Exn`; a function that can throw returns
  `Except Exn _`.
* The operating system (`stat`, `readdir`, `rename`, `remove`, `fnmatch`) is
  not part of the repository; it is modelled in the section "Operating system
  model" by executable definitions over a finite table of files.
-/

/-- A byte string (`std::string`). -/
abbrev Str := List Char

/-- The C++ exceptions that the string library raises in this code. -/
inductive Exn where
  | out_of_range
  | invalid_argument
  deriving DecidableEq, Repr

deriving instance DecidableEq for Except

/-! ## The string library -/

/-- The value `std::string::npos` on a 64-bit target, `2^64 - 1`. -/
def npos : Nat := 18446744073709551615

/-- Arithmetic on `size_t` wraps at `2^64`. -/
def size_t (n : Nat) : Nat := n % 18446744073709551616

/-- Arithmetic on `uint32_t` wraps at `2^32`. -/
def uint32_t (n : Nat) : Nat := n % 4294967296

/-- The call `s.find_first_of(c)`: index of the first `c`, or `npos`. -/
def find_first_of (s : Str) (c : Char) : Nat :=
  if c ∈ s then s.indexOf c else npos

/-- The call `s.find_first_not_of(c)`: index of the first byte other than `c`, or `npos`. -/
def find_first_not_of (s : Str) (c : Char) : Nat :=
  if s.all (fun d => d == c) then npos else (s.takeWhile (fun d => d == c)).length

/-- The call `s.find_last_of(c)`: index of the last `c`, or `npos`. -/
def find_last_of (s : Str) (c : Char) : Nat :=
  if c ∈ s then s.length - 1 - s.reverse.indexOf c else npos

/-- The call `s.erase(pos)`: drops everything from `pos` on; throws when `pos > size()`. -/
def erase (s : Str) (pos : Nat) : Except Exn Str :=
  if pos > s.length then .error .out_of_range else .ok (s.take pos)

/-- The call `s.substr(pos)`: the tail from `pos` on; throws when `pos > size()`. -/
def substr (s : Str) (pos : Nat) : Except Exn Str :=
  if pos > s.length then .error .out_of_range else .ok (s.drop pos)

/-- The loop `while(!ret.empty() && ret.back()=='/') ret.pop_back();`. -/
def pop_trailing_slashes (s : Str) : Str :=
  (s.reverse.dropWhile (fun d => d == '/')).reverse

/-- The C `isspace` in the "C" locale. -/
def isspace (c : Char) : Bool :=
  c == ' ' || c == '\t' || c == '\n' || c == '\r' || c.toNat == 11 || c.toNat == 12

/-- Value of a run of decimal digits. -/
def digitsValue (ds : Str) : Nat :=
  ds.foldl (fun acc c => 10 * acc + (c.toNat - 48)) 0

/-- The call `std::stoi(str)` (base 10): leading white space, an optional sign, then the
longest run of decimal digits; `invalid_argument` when there is no digit, `out_of_range`
when the value does not fit an `int`. -/
def stoi (s : Str) : Except Exn Int :=
  let s1 := s.dropWhile isspace
  let neg := s1.head? == some '-'
  let s2 := if s1.head? == some '-' || s1.head? == some '+' then s1.tail else s1
  let ds := s2.takeWhile Char.isDigit
  if ds = [] then .error .invalid_argument
  else
    let v : Int := if neg then - (digitsValue ds : Int) else (digitsValue ds : Int)
    if v < -2147483648 ∨ v > 2147483647 then .error .out_of_range else .ok v

/-- Conversion of an `int` to `uint32_t`. -/
def int_to_uint32 (v : Int) : Nat := (v % 4294967296).toNat

/-- The stream output `os << std::setfill('0') << std::setw(w) << idx` for an unsigned `idx`:
the decimal digits of `idx`, padded on the left with `'0'` to at least `w` characters. -/
def setw_fill0 (w : Nat) (idx : Nat) : Str :=
  List.replicate (w - (Nat.toDigits 10 idx).length) '0' ++ Nat.toDigits 10 idx

/-- The call `c_str()` as seen by a C function: the bytes up to the first NUL. -/
def c_str (s : Str) : Str := s.takeWhile (fun d => d != Char.ofNat 0)

namespace Filez

/-- The method `Filez::dirname_r`. -/
def dirname_r (path : Str) : Except Exn Str :=
  if path = [] ∨ find_first_of path '/' = npos then .ok ['.']
  else
    let ret := pop_trailing_slashes path
    if ret = [] then .ok ['.']
    else erase ret (find_last_of ret '/')

/-- The method `Filez::basename_r`. -/
def basename_r (path : Str) : Except Exn Str :=
  if path = [] then .ok ['.']
  else if find_first_not_of path '/' = npos then .ok ['/']
  else
    let ret := pop_trailing_slashes path
    if ret = [] then .ok ['.']
    else substr ret (size_t (find_last_of ret '/' + 1))

end Filez

namespace rotation_strategy

/-- The constant `rotate_field_width`. -/
def rotate_field_width : Nat := 2

/-- The lambda `make_fn` of `rotate`: `base + "." + <idx, zero-padded to two digits>`. -/
def make_fn (base : Str) (idx : Nat) : Str :=
  base ++ ['.'] ++ setw_fill0 rotate_field_width idx

/-- The index parse of `get_rotation_info`:
`str.substr(str.length()-rotate_field_width)` followed by `std::stoi`, stored in a `uint32_t`. -/
def parse_count (str : Str) : Except Exn Nat := do
  let sfx ← substr str (size_t (str.length + 18446744073709551616 - rotate_field_width))
  let v ← stoi sfx
  pure (int_to_uint32 v)

end rotation_strategy

/-! ## Operating system model

The file system is a finite table from locations to inodes.  A location is a
path split at `'/'`, empty and `.` components removed, together with a flag
telling whether the path was absolute; the working directory and the root are
the locations with no component and always exist as directories.  The model
has no symbolic links and does not resolve `..`. -/

/-- The file-type mask of `st_mode`. -/
def S_IFMT : Nat := 0o170000
/-- Socket. -/
def S_IFSOCK : Nat := 0o140000
/-- Symbolic link. -/
def S_IFLNK : Nat := 0o120000
/-- Regular file. -/
def S_IFREG : Nat := 0o100000
/-- Block device. -/
def S_IFBLK : Nat := 0o060000
/-- Directory. -/
def S_IFDIR : Nat := 0o040000
/-- Character device. -/
def S_IFCHR : Nat := 0o020000
/-- FIFO. -/
def S_IFIFO : Nat := 0o010000

/-- The test macro `S_ISREG`. -/
def S_ISREG (m : Nat) : Bool := m &&& S_IFMT == S_IFREG
/-- The test macro `S_ISDIR`. -/
def S_ISDIR (m : Nat) : Bool := m &&& S_IFMT == S_IFDIR
/-- The test macro `S_ISCHR`. -/
def S_ISCHR (m : Nat) : Bool := m &&& S_IFMT == S_IFCHR
/-- The test macro `S_ISBLK`. -/
def S_ISBLK (m : Nat) : Bool := m &&& S_IFMT == S_IFBLK
/-- The test macro `S_ISFIFO`. -/
def S_ISFIFO (m : Nat) : Bool := m &&& S_IFMT == S_IFIFO
/-- The test macro `S_ISLNK`. -/
def S_ISLNK (m : Nat) : Bool := m &&& S_IFMT == S_IFLNK
/-- The test macro `S_ISSOCK`. -/
def S_ISSOCK (m : Nat) : Bool := m &&& S_IFMT == S_IFSOCK

/-- The `d_type` value of an entry of unknown type. -/
def DT_UNKNOWN : Nat := 0
/-- The `d_type` value of a FIFO. -/
def DT_FIFO : Nat := 1
/-- The `d_type` value of a character device. -/
def DT_CHR : Nat := 2
/-- The `d_type` value of a directory. -/
def DT_DIR : Nat := 4
/-- The `d_type` value of a block device. -/
def DT_BLK : Nat := 6
/-- The `d_type` value of a regular file. -/
def DT_REG : Nat := 8
/-- The `d_type` value of a symbolic link. -/
def DT_LNK : Nat := 10
/-- The `d_type` value of a socket. -/
def DT_SOCK : Nat := 12

/-- The `d_type` that `readdir` reports for an entry whose inode has the given `st_mode`. -/
def IFTODT (m : Nat) : Nat :=
  if S_ISDIR m then DT_DIR
  else if S_ISREG m then DT_REG
  else if S_ISCHR m then DT_CHR
  else if S_ISBLK m then DT_BLK
  else if S_ISFIFO m then DT_FIFO
  else if S_ISLNK m then DT_LNK
  else if S_ISSOCK m then DT_SOCK
  else DT_UNKNOWN

/-- What `stat` reports about a file, and its content (`st_size` is the content length). -/
structure Inode where
  st_mode : Nat
  data : Str
  deriving DecidableEq, Repr

/-- The field `st_size`. -/
def Inode.st_size (i : Inode) : Nat := i.data.length

/-- A location: `(absolute, components)`. -/
abbrev Key := Bool × List Str

/-- The file table. -/
abbrev FS := List (Key × Inode)

/-- Equality of file tables is decidable. -/
instance : DecidableEq FS := inferInstance

/-- Each location holds at most one file. -/
def FS.WF (fs : FS) : Prop := (fs.map Prod.fst).Nodup

instance (fs : FS) : Decidable fs.WF := by unfold FS.WF; infer_instance

/-- Split a path at every `'/'`. -/
def splitSlash : Str → List Str
  | [] => [[]]
  | c :: cs =>
    if c = '/' then [] :: splitSlash cs
    else match splitSlash cs with
      | [] => [[c]]
      | h :: t => (c :: h) :: t

/-- The location a path names. -/
def pathKey (p : Str) : Key :=
  (p.head? == some '/', (splitSlash p).filter (fun c => !(c == []) && !(c == ['.'])))

/-- A path that ends in `/` or `/.` can only name a directory. -/
def needsDir (p : Str) : Bool :=
  (splitSlash p).getLast? == some [] || (splitSlash p).getLast? == some ['.']

/-- The inode at a location; the working directory and the root always exist. -/
def node (fs : FS) (k : Key) : Option Inode :=
  if k.2 = [] then some ⟨S_IFDIR ||| 0o755, []⟩ else fs.lookup k

/-- The location of the directory that holds location `k`. -/
def parentKey (k : Key) : Key := (k.1, k.2.dropLast)

/-- Is there a directory at the location? -/
def dirAt (fs : FS) (k : Key) : Bool :=
  match node fs k with
  | some ino => S_ISDIR ino.st_mode
  | none => false

/-- The system call `stat(path, &st)`: `none` is the failure return `-1`.  It fails for the
empty path, for a location that holds nothing, when the parent location is not a directory,
and when the path demands a directory and the location holds something else. -/
def stat (fs : FS) (path : Str) : Option Inode :=
  if path = [] then none
  else match node fs (pathKey path) with
    | none => none
    | some ino =>
      if !dirAt fs (parentKey (pathKey path)) || (needsDir path && !S_ISDIR ino.st_mode) then none
      else some ino

/-- A directory entry as returned by `readdir`. -/
structure dirent where
  d_name : Str
  d_type : Nat
  deriving DecidableEq, Repr

/-- The name under which location `e` appears in the directory at location `k`, if it is
an immediate child. -/
def childName (k e : Key) : Option Str :=
  if e.1 = k.1 ∧ e.2.dropLast = k.2 then e.2.getLast? else none

/-- The calls `opendir(path)` and `readdir` until exhaustion: `none` when `opendir` returns
`NULL`, else all entries of the directory (in table order, after `.` and `..`). -/
def readdir (fs : FS) (path : Str) : Option (List dirent) :=
  match stat fs path with
  | none => none
  | some ino =>
    if S_ISDIR ino.st_mode then
      some (⟨['.'], DT_DIR⟩ :: ⟨['.', '.'], DT_DIR⟩ ::
        fs.filterMap (fun e => (childName (pathKey path) e.1).map (fun n => ⟨n, IFTODT e.2.st_mode⟩)))
    else none

/-- The system call `rename(old, new)` for a source that is not a directory (the only
sources this code renames); the return code is dropped, as all callers drop it.  The call
fails, leaving the table as it is, when the source does not exist, when the target is a
directory or cannot be one's entry, and when the target's parent is not a directory.
Otherwise the target names the source's inode, replacing what it named before, and the
source name is gone. -/
def rename (fs : FS) (old new : Str) : FS :=
  match stat fs old with
  | none => fs
  | some ino =>
    if S_ISDIR ino.st_mode || new == [] || needsDir new
        || !dirAt fs (parentKey (pathKey new)) || dirAt fs (pathKey new) then fs
    else (pathKey new, ino) ::
      fs.filter (fun e => !(e.1 == pathKey old) && !(e.1 == pathKey new))

/-- The call `std::remove(path)` (`unlink`, or `rmdir` for an empty directory); the return
code is dropped. -/
def remove (fs : FS) (path : Str) : FS :=
  match stat fs path with
  | none => fs
  | some ino =>
    if S_ISDIR ino.st_mode &&
        ((pathKey path).2 == [] || fs.any (fun e => (childName (pathKey path) e.1).isSome)) then fs
    else fs.filter (fun e => !(e.1 == pathKey path))

/-! ### `fnmatch`

The call `fnmatch(pattern, string, 0)` in the "C" locale: `?`, `*`, a backslash
escape and bracket expressions with ranges and `!`/`^` negation.  Character
classes, collating symbols and equivalence classes (`[:alpha:]`, `[.x.]`,
`[=x=]`) are not modelled. -/

/-- One element of a bracket expression. -/
inductive BracketItem where
  | chr (c : Char)
  | range (lo hi : Char)
  deriving DecidableEq, Repr

/-- Compiled pattern element. -/
inductive GlobTok where
  | lit (c : Char)
  | any
  | star
  | set (neg : Bool) (items : List BracketItem)
  | never
  deriving DecidableEq, Repr

/-- Result of scanning a bracket expression. -/
inductive BracketScan where
  | closed (items : List BracketItem) (rest : Str)
  | unterminated
  | nomatch
  deriving DecidableEq, Repr

/-- Scan the items of a bracket expression; `c` is the current character and `p` what
follows it.  The first argument bounds the number of items by the pattern length. -/
def scanBracket : Nat → Char → Str → BracketScan
  | 0, _, _ => .unterminated
  | n + 1, c, p =>
    let step (cold : Char) (p1 : Str) : BracketScan :=
      match p1 with
      | [] => .unterminated
      | c1 :: p2 =>
        if c1 = '-' ∧ p2.head? ≠ some ']' then
          match p2 with
          | [] => .nomatch
          | e :: p3 =>
            let fin (cend : Char) (p4 : Str) : BracketScan :=
              match p4 with
              | [] => .unterminated
              | c2 :: p5 =>
                if c2 = ']' then .closed [.range cold cend] p5
                else match scanBracket n c2 p5 with
                  | .closed its rest => .closed (.range cold cend :: its) rest
                  | r => r
            if e = '\\' then
              match p3 with
              | [] => .nomatch
              | e2 :: p4 => fin e2 p4
            else fin e p3
        else if c1 = ']' then .closed [.chr cold] p2
        else match scanBracket n c1 p2 with
          | .closed its rest => .closed (.chr cold :: its) rest
          | r => r
    if c = '\\' then
      match p with
      | [] => .nomatch
      | c0 :: p1 => step c0 p1
    else step c p

/-- Compile a pattern; the first argument bounds the number of elements by the pattern
length. -/
def tokenize : Nat → Str → List GlobTok
  | 0, _ => []
  | _ + 1, [] => []
  | n + 1, c :: p =>
    if c = '?' then .any :: tokenize n p
    else if c = '*' then .star :: tokenize n p
    else if c = '\\' then
      match p with
      | [] => [.never]
      | d :: p2 => .lit d :: tokenize n p2
    else if c = '[' then
      let neg := p.head? == some '!' || p.head? == some '^'
      let q := if neg then p.tail else p
      match q with
      | [] => .lit '[' :: tokenize n p
      | c0 :: q0 =>
        match scanBracket n c0 q0 with
        | .closed its rest => .set neg its :: tokenize n rest
        | .unterminated => .lit '[' :: tokenize n p
        | .nomatch => [.never]
    else .lit c :: tokenize n p

/-- Does the character belong to the bracket item? -/
def BracketItem.mem (d : Char) : BracketItem → Bool
  | .chr c => c == d
  | .range lo hi => lo.toNat ≤ d.toNat && d.toNat ≤ hi.toNat

/-- Match a compiled pattern against a whole string. -/
def matchToks : List GlobTok → Str → Bool
  | [], s => s.isEmpty
  | .lit c :: ts, s =>
    match s with
    | [] => false
    | d :: s1 => c == d && matchToks ts s1
  | .any :: ts, s =>
    match s with
    | [] => false
    | _ :: s1 => matchToks ts s1
  | .set neg its :: ts, s =>
    match s with
    | [] => false
    | d :: s1 => (its.any (BracketItem.mem d) != neg) && matchToks ts s1
  | .star :: ts, s => s.tails.any (fun t => matchToks ts t)
  | .never :: _, _ => false

/-- The call `fnmatch(pattern, string, 0)`; returns `0` on a match and `FNM_NOMATCH` (`1`)
otherwise. -/
def fnmatch (pattern string : Str) : Nat :=
  if matchToks (tokenize (pattern.length + 1) pattern) string then 0 else 1

/-! ## `Filez` -/

namespace Filez

/-- The enumerator `LT_Files`. -/
def LT_Files : Nat := 0x01
/-- The enumerator `LT_Dirs`. -/
def LT_Dirs : Nat := 0x02
/-- The enumerator `LT_Hidden`. -/
def LT_Hidden : Nat := 0x04
/-- The enumerator `LT_Normal`. -/
def LT_Normal : Nat := LT_Files ||| LT_Dirs
/-- The enumerator `LT_All`. -/
def LT_All : Nat := LT_Files ||| LT_Dirs ||| LT_Hidden

/-- The enumeration `File_Types`. -/
inductive File_Types where
  | FT_None
  | FT_Regular
  | FT_Directory
  | FT_ChrDev
  | FT_BlkDev
  | FT_Fifo
  | FT_Link
  | FT_Socket
  deriving DecidableEq, Repr

/-- The method `Filez::exists`: whether `stat` succeeded, and the `stat` buffer (zeroed by
the `memset` and left so when `stat` fails). -/
def «exists» (fs : FS) (name : Str) : Bool × Inode :=
  match stat fs (c_str name) with
  | some st => (true, st)
  | none => (false, ⟨0, []⟩)

/-- The method `Filez::fexists`: `exists(name, pStat) && (pStat->st_mode & S_IFREG)`. -/
def fexists (fs : FS) (name : Str) : Bool × Inode :=
  ((«exists» fs name).1 && ((«exists» fs name).2.st_mode &&& S_IFREG != 0), («exists» fs name).2)

/-- The method `Filez::dexists`: `exists(name, pStat) && (pStat->st_mode & S_IFDIR)`. -/
def dexists (fs : FS) (name : Str) : Bool × Inode :=
  ((«exists» fs name).1 && ((«exists» fs name).2.st_mode &&& S_IFDIR != 0), («exists» fs name).2)

/-- The method `Filez::getFileType`. -/
def getFileType (fs : FS) (name : Str) : File_Types :=
  if («exists» fs name).1 then
    let m := («exists» fs name).2.st_mode
    if S_ISREG m then .FT_Regular
    else if S_ISDIR m then .FT_Directory
    else if S_ISCHR m then .FT_ChrDev
    else if S_ISBLK m then .FT_BlkDev
    else if S_ISFIFO m then .FT_Fifo
    else if S_ISLNK m then .FT_Link
    else if S_ISSOCK m then .FT_Socket
    else .FT_None
  else .FT_None

/-- The body of the `readdir` loop of `directory_list`: is the entry pushed to `ret`? -/
def listed (Filter : Nat) (mask : Str) (ent : dirent) : Bool :=
  if ent.d_name.head? == some '.' && (Filter &&& LT_Hidden == 0) then false
  else if !(mask == []) && (fnmatch (c_str mask) ent.d_name != 0) then false
  else if ent.d_type == DT_DIR && (Filter &&& LT_Dirs != 0) then true
  else if ent.d_type != DT_DIR && (Filter &&& LT_Files != 0) then true
  else false

/-- The method `Filez::directory_list`. -/
def directory_list (fs : FS) (path : Str) (Filter : Nat) (mask : Str) : List Str :=
  if (dexists fs path).1 then
    match readdir fs (c_str path) with
    | some ents => (ents.filter (listed Filter mask)).map dirent.d_name
    | none => []
  else []

end Filez

/-! ## `rotation_strategy` -/

namespace rotation_strategy

/-- The struct `rotation_info`. -/
structure rotation_info where
  main : Str
  current_log_size : Nat
  rotation_file_list : List Str
  last_count : Nat
  first_count : Nat
  contiguous : Bool
  deriving DecidableEq, Repr

/-- The state after `rotation_info::reset()`. -/
def rotation_info.reset : rotation_info :=
  { main := [], current_log_size := 0, rotation_file_list := [],
    last_count := 0, first_count := 0, contiguous := false }

/-- The call `std::sort(begin, end)` on strings: ascending in the byte-wise lexicographic
order of `std::string::operator<`. -/
def std_sort (l : List Str) : List Str := l.insertionSort (fun a b => a ≤ b)

/-- The glob mask built by `get_rotation_info`: `name + "."` followed by
`rotate_field_width` copies of `"[0-9]"`. -/
def wild (name : Str) : Str :=
  name ++ ['.'] ++ (List.replicate rotate_field_width ['[', '0', '-', '9', ']']).flatten

/-- The block of `get_rotation_info` guarded by `if(!info.rotation_file_list.empty())`:
`last_count` is parsed from `back()`, `first_count` from `front()`, and `contiguous` is
`(last_count - first_count + 1) == size()`, the left side in `uint32_t`, the comparison in
`size_t`. -/
def set_counts (info : rotation_info) : Except Exn rotation_info :=
  match info.rotation_file_list.getLast?, info.rotation_file_list.head? with
  | some back, some front => do
    let last ← parse_count back
    let first ← parse_count front
    pure { info with
      last_count := last, first_count := first,
      contiguous :=
        size_t (uint32_t (uint32_t (last + 4294967296 - first) + 1))
          == info.rotation_file_list.length }
  | _, _ => pure info

/-- The method `rotation_strategy::get_rotation_info`; the result is the value of `info`
at the return, an error is the exception that leaves the method. -/
def get_rotation_info (fs : FS) (name : Str) : Except Exn rotation_info := do
  let dir ← Filez.dirname_r name
  let _ ← Filez.basename_r name
  set_counts
    { rotation_info.reset with
      main := if (Filez.fexists fs name).1 then name else [],
      current_log_size := if (Filez.fexists fs name).1 then (Filez.fexists fs name).2.st_size else 0,
      rotation_file_list :=
        std_sort (Filez.directory_list fs dir Filez.LT_Files (wild name)) }

/-- The fields of the strategy that `rotate` reads. -/
structure Config where
  filename : Str
  rotation_count : Nat
  rotation_size : Nat
  deriving DecidableEq, Repr

/-- How a call ends: it returns, it is left by an exception, or it never returns.  The file
system is the one the call leaves behind. -/
inductive Outcome where
  | returns (fs : FS)
  | throws (e : Exn) (fs : FS)
  | diverges
  deriving DecidableEq, Repr

/-- The file system a call leaves behind, when it ends. -/
def Outcome.fs? : Outcome → Option FS
  | .returns fs => some fs
  | .throws _ fs => some fs
  | .diverges => none

/-- The lambda `do_rotation` of `rotate`.  The first argument bounds the nesting depth of
the recursive calls; `none` means that the bound was reached. -/
def do_rotation (info : rotation_info) : Nat → Nat → Nat → FS → Option FS
  | 0, _, _, _ => none
  | depth + 1, f, s, fs =>
    if make_fn info.main f ∉ info.rotation_file_list then some fs
    else if make_fn info.main s ∈ info.rotation_file_list then
      (do_rotation info depth s (uint32_t (s + 1)) fs).map
        (fun fs1 => rename fs1 (c_str (make_fn info.main f)) (c_str (make_fn info.main s)))
    else some (rename fs (c_str (make_fn info.main f)) (c_str (make_fn info.main s)))

/-- The nesting depth at which `do_rotation` has certainly entered a cycle: during the
descent neither `info` nor the file system changes and the arguments are `uint32_t`, so the
call at depth `2^32 + 1` repeats the first one. -/
def do_rotation_depth : Nat := 4294967297

/-- The pruning loop of `rotate`:
`while(list.size() > rotation_count) { remove(list.back()); list.erase(end-1); }`.
Each iteration shortens the list, so the loop runs at most `list.size()` times, which is
what the first argument counts. -/
def prune_loop (rotation_count : Nat) : Nat → List Str → FS → FS × List Str
  | 0, list, fs => (fs, list)
  | n + 1, list, fs =>
    if list.length > rotation_count then
      match list.getLast? with
      | some back => prune_loop rotation_count n list.dropLast (remove fs (c_str back))
      | none => (fs, list)
    else (fs, list)

/-- The method `rotation_strategy::rotate`. -/
def rotate (cfg : Config) (fs : FS) : Outcome :=
  if cfg.rotation_count = 0 then .returns fs
  else match get_rotation_info fs cfg.filename with
    | .error e => .throws e fs
    | .ok info =>
      if info.main = [] ∨ (cfg.rotation_size > 0 ∧ info.current_log_size < cfg.rotation_size) then
        .returns fs
      else if info.current_log_size ≥ cfg.rotation_size then
        match do_rotation info do_rotation_depth 1 2 fs with
        | none => .diverges
        | some fs1 =>
          let fs2 := rename fs1 (c_str info.main) (c_str (make_fn info.main 1))
          match get_rotation_info fs2 cfg.filename with
          | .error e => .throws e fs2
          | .ok info2 =>
            .returns (prune_loop cfg.rotation_count info2.rotation_file_list.length
              info2.rotation_file_list fs2).1
      else .returns fs

/-! ### The `std::rename` calls of a rotation -/

/-- One call of `std::rename` made by `rotate`: the file system at the moment of the call
and the two arguments. -/
structure RenameCall where
  before : FS
  old : Str
  new : Str
  deriving DecidableEq, Repr

/-- The lambda `do_rotation` of `rotate` once more, with the same control flow as
`do_rotation`; it returns, with the file system, the `std::rename` calls made, in the order
in which they were made. -/
def do_rotation_log (info : rotation_info) : Nat → Nat → Nat → FS → Option (FS × List RenameCall)
  | 0, _, _, _ => none
  | depth + 1, f, s, fs =>
    if make_fn info.main f ∉ info.rotation_file_list then some (fs, [])
    else if make_fn info.main s ∈ info.rotation_file_list then
      (do_rotation_log info depth s (uint32_t (s + 1)) fs).map
        (fun r => (rename r.1 (c_str (make_fn info.main f)) (c_str (make_fn info.main s)),
          r.2 ++ [⟨r.1, c_str (make_fn info.main f), c_str (make_fn info.main s)⟩]))
    else some (rename fs (c_str (make_fn info.main f)) (c_str (make_fn info.main s)),
      [⟨fs, c_str (make_fn info.main f), c_str (make_fn info.main s)⟩])

/-- The renames of a due rotation, lines 323 to 326 of `rotate`: the cascade
`do_rotation(1,2)`, then the rename of the main file to index 1.  The result is the file
system before the pruning and the `std::rename` calls made, in order. -/
def rotate_renames (info : rotation_info) (fs : FS) : Option (FS × List RenameCall) :=
  (do_rotation_log info do_rotation_depth 1 2 fs).map
    (fun r => (rename r.1 (c_str info.main) (c_str (make_fn info.main 1)),
      r.2 ++ [⟨r.1, c_str info.main, c_str (make_fn info.main 1)⟩]))

end rotation_strategy

/-! ## Vocabulary of the statements -/

/-- The pattern characters of `fnmatch`. -/
def isGlobMeta (c : Char) : Bool := c == '*' || c == '?' || c == '[' || c == '\\'

/-- A byte that may occur in an ordinary file name: not the separator, not NUL and not a
pattern character of `fnmatch`. -/
def ordinaryChar (c : Char) : Bool := c != '/' && c != Char.ofNat 0 && !isGlobMeta c

/-- An ordinary file name of the working directory: not empty, not hidden (no leading
`.`), without `/`, NUL and pattern characters, and of a length that `size_t` can hold
together with the suffix. -/
def ordinaryName (name : Str) : Bool :=
  name.head?.isSome && name.head? != some '.' && name.all ordinaryChar
    && decide (name.length + 3 < 18446744073709551616)

/-- A base path without NUL and without pattern characters of `fnmatch`, short enough for
`size_t` to hold the length of its backup names. -/
def patternFree (name : Str) : Bool :=
  name.all (fun c => c != Char.ofNat 0 && !isGlobMeta c)
    && decide (name.length + 3 < 18446744073709551616)

/-- A path that names an entry of the working directory by its bare name. -/
def simplePath (p : Str) : Prop := p ≠ [] ∧ p ≠ ['.'] ∧ '/' ∉ p ∧ Char.ofNat 0 ∉ p

/-- A decimal digit. -/
def isDigit (c : Char) : Bool := 48 ≤ c.toNat && c.toNat ≤ 57

/-- The two-character, zero-padded decimal rendering of an index below 100, as the
filename convention words it: the tens digit, then the units digit. -/
def two_digits (i : Nat) : Str := [Char.ofNat (48 + i / 10), Char.ofNat (48 + i % 10)]

/-- Something other than a directory stands at the path. -/
def fileAt (fs : FS) (p : Str) : Bool :=
  match stat fs p with
  | some t => !S_ISDIR t.st_mode
  | none => false

/-- No directory stands at the path. -/
def noDirAt (fs : FS) (p : Str) : Bool :=
  match stat fs p with
  | some t => !S_ISDIR t.st_mode
  | none => true

/-- The indices `i < 100` for which something stands at `make_fn name i`, ascending. -/
def present (fs : FS) (name : Str) : List Nat :=
  (List.range 100).filter (fun i => (stat fs (rotation_strategy.make_fn name i)).isSome)

/-! ## The sink between two rotations -/

/-- What the sink does between two rotations: it opens the main file, creating it when it
is absent (as it is after a rotation) and replacing it otherwise, and writes its log lines;
`data` is the content the file has when the next rotation starts. -/
def write_main (fs : FS) (name : Str) (data : Str) : FS :=
  (pathKey (c_str name), ⟨S_IFREG ||| 0o644, data⟩) ::
    fs.filter (fun e => !(e.1 == pathKey (c_str name)))

/-- A run of the sink: for each content in turn, the main file is written with it and
`rotate` is called.  The run ends in `none` if a call of `rotate` does not return. -/
def rotations (cfg : rotation_strategy.Config) : List Str → FS → Option FS
  | [], fs => some fs
  | data :: rest, fs =>
    match rotation_strategy.rotate cfg (write_main fs cfg.filename data) with
    | .returns fs2 => rotations cfg rest fs2
    | _ => none

/-- The state of the backups after the contents `hist` (newest first) have been rotated
out under retention count `r`: the backups present are exactly `.01 … .min(|hist|, r)`,
backup `i` holds the `i`-th newest content, and no directory stands at index 100. -/
def backups_hold (fs : FS) (name : Str) (r : Nat) (hist : List Str) : Prop :=
  fs.WF ∧
  (∀ i, i < 100 →
    ((stat fs (rotation_strategy.make_fn name i)).isSome = true ↔
      1 ≤ i ∧ i ≤ min hist.length r)) ∧
  (∀ i, 1 ≤ i → i ≤ min hist.length r →
    ∃ t, stat fs (rotation_strategy.make_fn name i) = some t ∧ S_ISDIR t.st_mode = false ∧
      hist[i - 1]? = some t.data) ∧
  (∀ t, stat fs (rotation_strategy.make_fn name 100) = some t → S_ISDIR t.st_mode = false)

/-! ## Sample file tables -/

/-- A regular file with the given content. -/
def regular (data : String) : Inode := ⟨S_IFREG ||| 0o644, data.toList⟩

/-- A FIFO. -/
def fifo : Inode := ⟨S_IFIFO ||| 0o644, []⟩

/-- A directory. -/
def directory : Inode := ⟨S_IFDIR ||| 0o755, []⟩

/-- An entry of the working directory. -/
def cwd_entry (n : String) (ino : Inode) : Key × Inode := ((false, [n.toList]), ino)

/-- An entry of a subdirectory of the working directory. -/
def sub_entry (d n : String) (ino : Inode) : Key × Inode := ((false, [d.toList, n.toList]), ino)

/-- The base path of the example program. -/
def rotation_log : Str := "rotation.log".toList

/-- A working directory with the main file and the backups 01, 02, 03. -/
def fs_three_backups : FS :=
  [cwd_entry "rotation.log" (regular "main"), cwd_entry "rotation.log.01" (regular "one"),
   cwd_entry "rotation.log.02" (regular "two"), cwd_entry "rotation.log.03" (regular "three")]

/-- A working directory with the main file and the backups 01 to 06. -/
def fs_six_backups : FS :=
  [cwd_entry "rotation.log" (regular "main"), cwd_entry "rotation.log.01" (regular "one"),
   cwd_entry "rotation.log.02" (regular "two"), cwd_entry "rotation.log.03" (regular "three"),
   cwd_entry "rotation.log.04" (regular "four"), cwd_entry "rotation.log.05" (regular "five"),
   cwd_entry "rotation.log.06" (regular "six")]

/-- A working directory with the main file and the backups 01 and 03 (02 is missing). -/
def fs_gap : FS :=
  [cwd_entry "rotation.log" (regular "main"), cwd_entry "rotation.log.01" (regular "one"),
   cwd_entry "rotation.log.03" (regular "three")]

/-- A working directory with the main file, two backups, two files whose names only
resemble a backup name, and a directory at index 07. -/
def fs_mixed : FS :=
  [cwd_entry "rotation.log" (regular "main"), cwd_entry "rotation.log.01" (regular "one"),
   cwd_entry "rotation.log.02" (regular "two"), cwd_entry "rotation.log.012" (regular "x"),
   cwd_entry "rotation.log.3" (regular "y"), cwd_entry "rotation.log.07" directory]

/-- A working directory with the main file and a file at index 00. -/
def fs_index_zero : FS :=
  [cwd_entry "rotation.log" (regular "main"), cwd_entry "rotation.log.00" (regular "zero")]

/-- A working directory with the main file and a FIFO at index 01. -/
def fs_fifo_backup : FS :=
  [cwd_entry "rotation.log" (regular "main"), cwd_entry "rotation.log.01" fifo]

/-- A working directory with the main file and a directory at index 01. -/
def fs_directory_at_one : FS :=
  [cwd_entry "rotation.log" (regular "main"), cwd_entry "rotation.log.01" directory]

/-- A working directory with a hidden main file and its backup 01. -/
def fs_hidden : FS :=
  [cwd_entry ".rotation.log" (regular "main"), cwd_entry ".rotation.log.01" (regular "one")]

/-- A working directory with a hidden main file and its backups 01 and 02. -/
def fs_hidden_two : FS :=
  [cwd_entry ".rotation.log" (regular "main"), cwd_entry ".rotation.log.01" (regular "one"),
   cwd_entry ".rotation.log.02" (regular "two")]

/-- A working directory with a hidden main file and its backups 01 and 03. -/
def fs_hidden_gap : FS :=
  [cwd_entry ".rotation.log" (regular "main"), cwd_entry ".rotation.log.01" (regular "one"),
   cwd_entry ".rotation.log.03" (regular "three")]

/-- A working directory with a main file whose name holds a bracket expression, and its
backup 01. -/
def fs_bracket : FS :=
  [cwd_entry "app[1].log" (regular "main"), cwd_entry "app[1].log.01" (regular "one")]

/-- A working directory with a main file whose name ends in an unclosed `[`, and a file
`x.5`. -/
def fs_open_bracket : FS :=
  [cwd_entry "x[" (regular "main"), cwd_entry "x.5" (regular "other")]

/-- A working directory with the subdirectory `logs`, which holds a main file and its
backup 01. -/
def fs_subdirectory : FS :=
  [cwd_entry "logs" directory, sub_entry "logs" "rotation.log" (regular "main"),
   sub_entry "logs" "rotation.log.01" (regular "one")]

/-- A Unix-domain socket. -/
def socket : Inode := ⟨S_IFSOCK ||| 0o755, []⟩

/-- A block device. -/
def block_device : Inode := ⟨S_IFBLK ||| 0o660, []⟩

/-- A working directory with a socket and a block device. -/
def fs_special : FS := [cwd_entry "log.sock" socket, cwd_entry "sda" block_device]

/-- An entry of the root directory. -/
def root_entry (n : String) (ino : Inode) : Key × Inode := ((true, [n.toList]), ino)

/-- A root directory that holds a main file and its backup 01. -/
def fs_root : FS :=
  [root_entry "app.log" (regular "main"), root_entry "app.log.01" (regular "one")]

/-- A working directory with the main file and all the backups 01 to 99. -/
def fs_full : FS :=
  cwd_entry "rotation.log" (regular "main") ::
    (List.range 99).map
      (fun i => ((false, [rotation_strategy.make_fn rotation_log (i + 1)]), regular "old"))

/-- A working directory with the main file, the backup 01 and a directory at index 02. -/
def fs_directory_at_two : FS :=
  [cwd_entry "rotation.log" (regular "main"), cwd_entry "rotation.log.01" (regular "one"),
   cwd_entry "rotation.log.02" directory]

/-- A working directory with the main file, all the backups 01 to 99 and a file
`rotation.log.100`. -/
def fs_full_hundred : FS :=
  cwd_entry "rotation.log.100" (regular "hundred") :: fs_full

/-- An inventory that lists, for the main file `main`, the backup name of every index a
`uint32_t` can take: `make_fn(main, 0)`, …, `make_fn(main, 2^32 - 1)`. -/
def every_index_listed (main : Str) : rotation_strategy.rotation_info :=
  { rotation_strategy.rotation_info.reset with
    main := main,
    rotation_file_list := (List.range 4294967296).map (rotation_strategy.make_fn main) }

/-- The base path `*[`, a file name of two pattern characters. -/
def star_bracket : Str := "*[".toList

/-- A working directory with the main file `*[` and a backup `make_fn("*[", s)` for every
index `s` a `uint32_t` can take.  The table has `2^32 + 1` entries; the proofs about it
reason on `List.range` and never unfold it by evaluation. -/
@[irreducible] def fs_every_index : FS :=
  ((false, [star_bracket]), regular "main") ::
    (List.range 4294967296).map
      (fun s => ((false, [rotation_strategy.make_fn star_bracket s]), regular "old"))

/-! # Theorems -/

/-! ## Strings -/

open rotation_strategy

theorem setw_fill0_lt_100 : ∀ i, i < 100 →
    (setw_fill0 2 i).length = 2 ∧ (setw_fill0 2 i).all isDigit = true := by decide!

theorem setw_fill0_100 : setw_fill0 2 100 = ['1', '0', '0'] := by decide!

theorem setw_fill0_inj : ∀ i, i < 101 → ∀ j, j < 101 → setw_fill0 2 i = setw_fill0 2 j → i = j := by
  decide!

theorem isDigit_ordinaryChar (c : Char) (h : isDigit c = true) : ordinaryChar c = true ∧ c ≠ '.' := by
  have h1 : c = Char.ofNat c.toNat := (Char.ofNat_toNat c).symm
  simp only [isDigit, Bool.and_eq_true, decide_eq_true_eq] at h
  obtain ⟨h2, h3⟩ := h
  generalize c.toNat = n at h1 h2 h3
  subst h1
  interval_cases n <;> decide

theorem c_str_eq (p : Str) (h : Char.ofNat 0 ∉ p) : c_str p = p := by
  unfold c_str
  rw [List.takeWhile_eq_self_iff]
  intro c hc
  simp only [bne_iff_ne, ne_eq]
  rintro rfl
  exact h hc

theorem splitSlash_eq (p : Str) (h : '/' ∉ p) : splitSlash p = [p] := by
  induction p with
  | nil => rfl
  | cons c cs ih =>
    have hc : c ≠ '/' := fun e => h (e ▸ List.mem_cons_self _ _)
    have hcs : '/' ∉ cs := fun e => h (List.mem_cons_of_mem _ e)
    simp [splitSlash, hc, ih hcs]

theorem pathKey_simple (p : Str) (h : simplePath p) : pathKey p = (false, [p]) := by
  obtain ⟨h1, h2, h3, _⟩ := h
  unfold pathKey
  rw [splitSlash_eq p h3]
  have : p.head? ≠ some '/' := by
    cases p with
    | nil => simp
    | cons c cs =>
      simp only [List.head?_cons, ne_eq, Option.some.injEq]
      rintro rfl
      exact h3 (List.mem_cons_self _ _)
  simp [h1, h2, this]

theorem needsDir_simple (p : Str) (h : simplePath p) : needsDir p = false := by
  obtain ⟨h1, h2, h3, _⟩ := h
  unfold needsDir
  rw [splitSlash_eq p h3]
  simp [h1, h2]

theorem dirAt_cwd (fs : FS) : dirAt fs (false, []) = true := by
  simp [dirAt, node]; decide

theorem stat_simple (fs : FS) (p : Str) (h : simplePath p) :
    stat fs p = fs.lookup (false, [p]) := by
  unfold stat
  rw [pathKey_simple p h, needsDir_simple p h]
  simp only [h.1, if_false, node, parentKey, List.dropLast_single]
  have := dirAt_cwd fs
  cases hl : List.lookup (false, [p]) fs <;> simp [this]

theorem ordinaryName_iff (name : Str) :
    ordinaryName name = true ↔
      name ≠ [] ∧ name.head? ≠ some '.' ∧ (∀ c ∈ name, ordinaryChar c = true) ∧
        name.length + 3 < 18446744073709551616 := by
  cases name with
  | nil => simp [ordinaryName]
  | cons c cs => simp [ordinaryName, and_assoc]

theorem ordinaryChar_ne (c : Char) (h : ordinaryChar c = true) :
    c ≠ '/' ∧ c ≠ Char.ofNat 0 ∧ isGlobMeta c = false := by
  simpa [ordinaryChar, and_assoc] using h

theorem make_fn_eq (name : Str) (i : Nat) :
    make_fn name i = name ++ '.' :: setw_fill0 2 i := by
  simp [make_fn, rotate_field_width]

theorem setw_fill0_chars (i : Nat) (hi : i < 101) :
    ∀ c ∈ setw_fill0 2 i, isDigit c = true := by
  rcases Nat.lt_succ_iff_lt_or_eq.mp hi with h | h
  · have := (setw_fill0_lt_100 i h).2
    simpa [List.all_eq_true] using this
  · subst h; rw [setw_fill0_100]; decide

theorem make_fn_chars (name : Str) (hn : ordinaryName name = true) (i : Nat) (hi : i < 101) :
    ∀ c ∈ make_fn name i, ordinaryChar c = true := by
  obtain ⟨_, _, h3, _⟩ := (ordinaryName_iff name).mp hn
  intro c hc
  rw [make_fn_eq, List.mem_append, List.mem_cons] at hc
  rcases hc with hc | rfl | hc
  · exact h3 c hc
  · decide
  · exact (isDigit_ordinaryChar c (setw_fill0_chars i hi c hc)).1

theorem simplePath_of_chars (p : Str) (h1 : p ≠ []) (h2 : p.head? ≠ some '.')
    (h3 : ∀ c ∈ p, ordinaryChar c = true) : simplePath p := by
  refine ⟨h1, ?_, ?_, ?_⟩
  · rintro rfl; simp at h2
  · intro h; exact (ordinaryChar_ne _ (h3 _ h)).1 rfl
  · intro h; exact (ordinaryChar_ne _ (h3 _ h)).2.1 rfl

theorem simplePath_name (name : Str) (hn : ordinaryName name = true) : simplePath name := by
  obtain ⟨h1, h2, h3, _⟩ := (ordinaryName_iff name).mp hn
  exact simplePath_of_chars name h1 h2 h3

theorem make_fn_head (name : Str) (hn : ordinaryName name = true) (i : Nat) :
    (make_fn name i).head? ≠ some '.' := by
  obtain ⟨h1, h2, _, _⟩ := (ordinaryName_iff name).mp hn
  rw [make_fn_eq]
  cases name with
  | nil => exact absurd rfl h1
  | cons c cs => simpa using h2

theorem simplePath_make_fn (name : Str) (hn : ordinaryName name = true) (i : Nat) (hi : i < 101) :
    simplePath (make_fn name i) := by
  apply simplePath_of_chars _ _ (make_fn_head name hn i) (make_fn_chars name hn i hi)
  rw [make_fn_eq]; simp

theorem make_fn_ne_name (name : Str) (i : Nat) : make_fn name i ≠ name := by
  rw [make_fn_eq]
  intro h
  have := congrArg List.length h
  simp at this

theorem make_fn_inj (name : Str) (i j : Nat) (hi : i < 101) (hj : j < 101)
    (h : make_fn name i = make_fn name j) : i = j := by
  rw [make_fn_eq, make_fn_eq] at h
  have h2 := List.append_cancel_left h
  simp only [List.cons.injEq, true_and] at h2
  exact setw_fill0_inj i hi j hj h2

/-! ## The glob mask -/

theorem tokenize_lit (name sfx : Str) (h : ∀ c ∈ name, isGlobMeta c = false) (m : Nat) :
    tokenize (name.length + m) (name ++ sfx) = name.map GlobTok.lit ++ tokenize m sfx := by
  induction name with
  | nil => simp
  | cons c cs ih =>
    have hc := h c (List.mem_cons_self _ _)
    simp only [isGlobMeta, Bool.or_eq_false_iff, beq_eq_false_iff_ne, ne_eq] at hc
    obtain ⟨⟨⟨h1, h2⟩, h3⟩, h4⟩ := hc
    have ih2 := ih (fun d hd => h d (List.mem_cons_of_mem _ hd))
    rw [List.length_cons, Nat.succ_add, List.cons_append]
    simp only [tokenize, h1, h2, h3, h4, if_false, List.map_cons, List.cons_append]
    rw [ih2]

theorem tokenize_digits : tokenize 12 ['.', '[', '0', '-', '9', ']', '[', '0', '-', '9', ']'] =
    [.lit '.', .set false [.range '0' '9'], .set false [.range '0' '9']] := by decide!

theorem matchToks_lit (name : Str) (ts : List GlobTok) (s : Str) :
    matchToks (name.map GlobTok.lit ++ ts) s = true ↔ ∃ t, s = name ++ t ∧ matchToks ts t = true := by
  induction name generalizing s with
  | nil => simp
  | cons c cs ih =>
    cases s with
    | nil => simp [matchToks]
    | cons d s1 =>
      simp only [List.map_cons, List.cons_append, matchToks, Bool.and_eq_true, beq_iff_eq,
        List.append_eq, ih, List.cons.injEq]
      constructor
      · rintro ⟨rfl, t, rfl, ht⟩; exact ⟨t, ⟨rfl, rfl⟩, ht⟩
      · rintro ⟨t, ⟨rfl, rfl⟩, ht⟩; exact ⟨rfl, t, rfl, ht⟩

theorem matchToks_digits (t : Str) :
    matchToks [.lit '.', .set false [.range '0' '9'], .set false [.range '0' '9']] t = true ↔
      ∃ d1 d2, isDigit d1 = true ∧ isDigit d2 = true ∧ t = ['.', d1, d2] := by
  have hd : ∀ d : Char, ('0'.toNat ≤ d.toNat ∧ d.toNat ≤ '9'.toNat) ↔ isDigit d = true := by
    intro d; simp [isDigit]
  match t with
  | [] => simp [matchToks]
  | [a] => simp [matchToks]
  | [a, b] => simp [matchToks]
  | [a, b, c] =>
    simp only [matchToks, BracketItem.mem, List.any_cons, List.any_nil, Bool.or_false,
      Bool.and_eq_true, beq_iff_eq, bne_iff_ne, ne_eq, Bool.not_eq_false, decide_eq_true_eq,
      List.isEmpty_nil, and_true, hd]
    constructor
    · rintro ⟨rfl, hb, hc⟩; exact ⟨b, c, hb, hc, rfl⟩
    · rintro ⟨d1, d2, h1, h2, h⟩
      simp only [List.cons.injEq, and_true] at h
      obtain ⟨rfl, rfl, rfl⟩ := h
      exact ⟨rfl, h1, h2⟩
  | a :: b :: c :: d :: r =>
    simp [matchToks]

theorem wild_eq (name : Str) :
    wild name = name ++ ['.', '[', '0', '-', '9', ']', '[', '0', '-', '9', ']'] := by
  simp [wild, rotate_field_width, List.replicate]

theorem fnmatch_wild (name s : Str) (h : ∀ c ∈ name, isGlobMeta c = false) :
    fnmatch (wild name) s = 0 ↔
      ∃ d1 d2, isDigit d1 = true ∧ isDigit d2 = true ∧ s = name ++ ['.', d1, d2] := by
  unfold fnmatch
  rw [wild_eq, List.length_append]
  have : name.length + [ '.', '[', '0', '-', '9', ']', '[', '0', '-', '9', ']'].length + 1
      = name.length + 12 := rfl
  rw [this, tokenize_lit name _ h 12, tokenize_digits]
  have hb : ∀ b : Bool, (if b = true then 0 else 1) = 0 ↔ b = true := by
    intro b; cases b <;> simp
  rw [hb, matchToks_lit]
  simp only [matchToks_digits]
  constructor
  · rintro ⟨t, rfl, d1, d2, h1, h2, rfl⟩; exact ⟨d1, d2, h1, h2, rfl⟩
  · rintro ⟨d1, d2, h1, h2, rfl⟩; exact ⟨_, rfl, d1, d2, h1, h2, rfl⟩

theorem two_digits_iff (t : Str) :
    (∃ d1 d2, isDigit d1 = true ∧ isDigit d2 = true ∧ t = [d1, d2]) ↔
      ∃ i, i < 100 ∧ t = setw_fill0 2 i := by
  constructor
  · rintro ⟨d1, d2, h1, h2, rfl⟩
    have e1 : d1 = Char.ofNat d1.toNat := (Char.ofNat_toNat d1).symm
    have e2 : d2 = Char.ofNat d2.toNat := (Char.ofNat_toNat d2).symm
    simp only [isDigit, Bool.and_eq_true, decide_eq_true_eq] at h1 h2
    obtain ⟨a1, b1⟩ := h1
    obtain ⟨a2, b2⟩ := h2
    generalize d1.toNat = n1 at e1 a1 b1
    generalize d2.toNat = n2 at e2 a2 b2
    subst e1 e2
    refine ⟨10 * (n1 - 48) + (n2 - 48), by omega, ?_⟩
    interval_cases n1 <;> interval_cases n2 <;> decide!
  · rintro ⟨i, hi, rfl⟩
    obtain ⟨hl, hd⟩ := setw_fill0_lt_100 i hi
    match h : setw_fill0 2 i, hl, hd with
    | [a, b], _, hd =>
      simp only [List.all_cons, List.all_nil, Bool.and_true, Bool.and_eq_true] at hd
      exact ⟨a, b, hd.1, hd.2, rfl⟩

theorem fnmatch_wild_iff (name s : Str) (h : ∀ c ∈ name, isGlobMeta c = false) :
    fnmatch (wild name) s = 0 ↔ ∃ i, i < 100 ∧ s = make_fn name i := by
  rw [fnmatch_wild name s h]
  constructor
  · rintro ⟨d1, d2, h1, h2, rfl⟩
    obtain ⟨i, hi, e⟩ := (two_digits_iff [d1, d2]).mp ⟨d1, d2, h1, h2, rfl⟩
    exact ⟨i, hi, by rw [make_fn_eq, ← e]⟩
  · rintro ⟨i, hi, rfl⟩
    obtain ⟨d1, d2, h1, h2, e⟩ := (two_digits_iff (setw_fill0 2 i)).mpr ⟨i, hi, rfl⟩
    exact ⟨d1, d2, h1, h2, by rw [make_fn_eq, e]⟩

/-! ## The file table -/

theorem lookup_eq_some_iff (fs : FS) (hwf : fs.WF) (k : Key) (v : Inode) :
    fs.lookup k = some v ↔ (k, v) ∈ fs := by
  induction fs with
  | nil => simp
  | cons e es ih =>
    obtain ⟨k1, v1⟩ := e
    have hwf2 : (List.map Prod.fst es).Nodup ∧ k1 ∉ List.map Prod.fst es := by
      have := hwf; simp only [FS.WF, List.map_cons, List.nodup_cons] at this; exact ⟨this.2, this.1⟩
    by_cases hk : k = k1
    · subst hk
      simp only [List.lookup_cons, beq_self_eq_true, Option.some.injEq, List.mem_cons, Prod.mk.injEq,
        true_and]
      constructor
      · intro h; exact Or.inl h.symm
      · rintro (h | h)
        · exact h.symm
        · exact absurd (List.mem_map_of_mem Prod.fst h) hwf2.2
    · have hk2 : (k == k1) = false := by simpa using hk
      simp only [List.lookup_cons, hk2, List.mem_cons, Prod.mk.injEq, hk, false_and, false_or]
      exact ih hwf2.1

theorem stat_dot (fs : FS) : stat fs ['.'] = some ⟨S_IFDIR ||| 0o755, []⟩ := by
  have h1 : pathKey ['.'] = (false, []) := by decide
  have h2 : needsDir ['.'] = true := by decide
  have h3 : S_ISDIR (S_IFDIR ||| 0o755) = true := by decide
  simp [stat, h1, h2, node, parentKey, dirAt, h3]

theorem dexists_dot (fs : FS) : (Filez.dexists fs ['.']).1 = true := by
  have h0 : c_str ['.'] = ['.'] := by decide
  have h3 : (S_IFDIR ||| 0o755) &&& S_IFDIR ≠ 0 := by decide
  simp [Filez.dexists, Filez.exists, h0, stat_dot, h3]

theorem readdir_dot (fs : FS) :
    readdir fs ['.'] = some (⟨['.'], DT_DIR⟩ :: ⟨['.', '.'], DT_DIR⟩ ::
      fs.filterMap (fun e => (childName (false, []) e.1).map (fun n => ⟨n, IFTODT e.2.st_mode⟩))) := by
  have h1 : pathKey ['.'] = (false, []) := by decide
  have h3 : S_ISDIR (S_IFDIR ||| 0o755) = true := by decide
  simp [readdir, stat_dot, h1, h3]

theorem childName_cwd (k : Key) (n : Str) : childName (false, []) k = some n ↔ k = (false, [n]) := by
  obtain ⟨a, l⟩ := k
  unfold childName
  constructor
  · intro h
    split at h
    · rename_i hc
      obtain ⟨h1, h2⟩ := hc
      simp only at h1 h2 h
      match l, h2, h with
      | [x], _, h => simp at h; subst h; subst h1; rfl
      | x :: y :: r, h2, _ => simp at h2
    · exact absurd h (by simp)
  · intro h
    cases h
    simp

theorem IFTODT_eq_DT_DIR (m : Nat) : IFTODT m = DT_DIR ↔ S_ISDIR m = true := by
  unfold IFTODT
  by_cases h : S_ISDIR m = true
  · simp [h]
  · have h2 : S_ISDIR m = false := by simpa using h
    rw [h2]
    simp only [Bool.false_eq_true, if_false, iff_false]
    repeat' split
    all_goals decide

theorem listed_files (n : Str) (m : Nat) (mask : Str) (hm : mask ≠ []) :
    Filez.listed Filez.LT_Files mask ⟨n, IFTODT m⟩ = true ↔
      n.head? ≠ some '.' ∧ fnmatch (c_str mask) n = 0 ∧ S_ISDIR m = false := by
  have h1 : (Filez.LT_Files &&& Filez.LT_Hidden == 0) = true := by decide
  have h2 : (Filez.LT_Files &&& Filez.LT_Dirs != 0) = false := by decide
  have h3 : (Filez.LT_Files &&& Filez.LT_Files != 0) = true := by decide
  have h4 : (mask == []) = false := by simpa using hm
  have h5 := IFTODT_eq_DT_DIR m
  unfold Filez.listed
  simp only [h1, h2, h3, h4, Bool.and_true, Bool.and_false, Bool.not_false, Bool.true_and]
  by_cases a : n.head? = some '.'
  · simp [a]
  · by_cases b : fnmatch (c_str mask) n = 0
    · by_cases c : S_ISDIR m = true
      · simp [a, b, c, h5.mpr c]
      · have c2 : IFTODT m ≠ DT_DIR := fun e => c (h5.mp e)
        simp [a, b, c, c2]
    · simp [a, b]

theorem wild_ne_nil (name : Str) : wild name ≠ [] := by
  rw [wild_eq]; simp

theorem c_str_wild (name : Str) (hn : ordinaryName name = true) : c_str (wild name) = wild name := by
  apply c_str_eq
  rw [wild_eq]
  obtain ⟨_, _, h3, _⟩ := (ordinaryName_iff name).mp hn
  intro h
  rcases List.mem_append.mp h with h | h
  · exact (ordinaryChar_ne _ (h3 _ h)).2.1 rfl
  · revert h; decide

theorem not_glob_of_ordinary (name : Str) (hn : ordinaryName name = true) :
    ∀ c ∈ name, isGlobMeta c = false := by
  obtain ⟨_, _, h3, _⟩ := (ordinaryName_iff name).mp hn
  intro c hc
  exact (ordinaryChar_ne _ (h3 _ hc)).2.2

theorem directory_list_dot (fs : FS) (mask : Str) :
    Filez.directory_list fs ['.'] Filez.LT_Files mask =
      ((fs.filterMap (fun e => (childName (false, []) e.1).map
        (fun n => (⟨n, IFTODT e.2.st_mode⟩ : dirent)))).filter
          (Filez.listed Filez.LT_Files mask)).map dirent.d_name := by
  have h0 : c_str ['.'] = ['.'] := by decide
  have hh : (Filez.LT_Files &&& Filez.LT_Hidden == 0) = true := by decide
  have h1 : ∀ t, Filez.listed Filez.LT_Files mask ⟨['.'], t⟩ = false := by
    intro t; simp [Filez.listed, hh]
  have h2 : ∀ t, Filez.listed Filez.LT_Files mask ⟨['.', '.'], t⟩ = false := by
    intro t; simp [Filez.listed, hh]
  simp only [Filez.directory_list, dexists_dot, if_true, h0, readdir_dot]
  rw [List.filter_cons_of_neg (by simp [h1]), List.filter_cons_of_neg (by simp [h2])]

theorem mem_inventory (fs : FS) (hwf : fs.WF) (name : Str) (hn : ordinaryName name = true)
    (e : Str) :
    e ∈ Filez.directory_list fs ['.'] Filez.LT_Files (wild name) ↔
      ∃ i, i < 100 ∧ e = make_fn name i ∧
        ∃ ino, fs.lookup (false, [e]) = some ino ∧ S_ISDIR ino.st_mode = false := by
  rw [directory_list_dot]
  simp only [List.mem_map, List.mem_filter, List.mem_filterMap, Option.map_eq_some']
  constructor
  · rintro ⟨d, ⟨⟨⟨k, ino⟩, hmem, n, hch, rfl⟩, hl⟩, rfl⟩
    simp only at hch hl ⊢
    rw [childName_cwd] at hch
    subst hch
    rw [listed_files _ _ _ (wild_ne_nil name), c_str_wild name hn,
      fnmatch_wild_iff name _ (not_glob_of_ordinary name hn)] at hl
    obtain ⟨_, ⟨i, hi, he⟩, hd⟩ := hl
    exact ⟨i, hi, he, ino, (lookup_eq_some_iff fs hwf _ _).mpr hmem, hd⟩
  · rintro ⟨i, hi, rfl, ino, hlk, hd⟩
    refine ⟨⟨make_fn name i, IFTODT ino.st_mode⟩, ⟨⟨((false, [make_fn name i]), ino),
      (lookup_eq_some_iff fs hwf _ _).mp hlk, make_fn name i, (childName_cwd _ _).mpr rfl, rfl⟩, ?_⟩,
      rfl⟩
    rw [listed_files _ _ _ (wild_ne_nil name), c_str_wild name hn,
      fnmatch_wild_iff name _ (not_glob_of_ordinary name hn)]
    exact ⟨make_fn_head name hn i, ⟨i, hi, rfl⟩, hd⟩

theorem nodup_inventory (fs : FS) (hwf : fs.WF) (mask : Str) :
    (Filez.directory_list fs ['.'] Filez.LT_Files mask).Nodup := by
  rw [directory_list_dot]
  have h1 : fs.Pairwise (fun a b => a.1 ≠ b.1) := by
    have := hwf
    unfold FS.WF List.Nodup at this
    exact List.pairwise_map.mp this
  have h2 : (fs.filterMap (fun e => (childName (false, []) e.1).map
      (fun n => (⟨n, IFTODT e.2.st_mode⟩ : dirent)))).Pairwise
        (fun a b => a.d_name ≠ b.d_name) := by
    rw [List.pairwise_filterMap]
    refine h1.imp ?_
    intro a b hab x hx y hy
    simp only [Option.mem_def, Option.map_eq_some'] at hx hy
    obtain ⟨n, hn, rfl⟩ := hx
    obtain ⟨n2, hn2, rfl⟩ := hy
    simp only
    rintro rfl
    rw [childName_cwd] at hn hn2
    exact hab (hn.trans hn2.symm)
  unfold List.Nodup
  rw [List.pairwise_map]
  exact h2.filter _

/-! ## The inventory of an ordinary name -/

theorem dirname_r_plain (name : Str) (h : '/' ∉ name) : Filez.dirname_r name = .ok ['.'] := by
  simp [Filez.dirname_r, find_first_of, h]

theorem pop_trailing_slashes_plain (name : Str) (h : '/' ∉ name) :
    pop_trailing_slashes name = name := by
  unfold pop_trailing_slashes
  cases hr : name.reverse with
  | nil => simp at hr; subst hr; rfl
  | cons c cs =>
    have hc : c ≠ '/' := by
      rintro rfl
      apply h
      have : '/' ∈ name.reverse := by rw [hr]; exact List.mem_cons_self _ _
      simpa using this
    rw [List.dropWhile_cons_of_neg (by simpa using hc), ← hr, List.reverse_reverse]

theorem basename_r_plain (name : Str) (h : '/' ∉ name) (h0 : name ≠ []) :
    Filez.basename_r name = .ok name := by
  have h1 : find_first_not_of name '/' ≠ npos := by
    cases name with
    | nil => exact absurd rfl h0
    | cons c cs =>
      have hc : c ≠ '/' := fun e => h (e ▸ List.mem_cons_self _ _)
      have ht : List.takeWhile (fun d => d == '/') (c :: cs) = [] :=
        List.takeWhile_cons_of_neg (by simpa using hc)
      simp [find_first_not_of, hc, ht, npos]
  have h2 : size_t (find_last_of name '/' + 1) = 0 := by
    simp [find_last_of, h]; decide
  simp [Filez.basename_r, h0, h1, pop_trailing_slashes_plain name h, h2, substr]

theorem stoi_two_digits : ∀ i, i < 100 →
    (stoi (setw_fill0 2 i)).map int_to_uint32 = .ok i := by decide!

theorem parse_count_make_fn (name : Str) (hl : name.length + 3 < 18446744073709551616) (i : Nat) (hi : i < 100) :
    parse_count (make_fn name i) = .ok i := by
  have h2 := (setw_fill0_lt_100 i hi).1
  have hlen : (make_fn name i).length = name.length + 3 := by
    rw [make_fn_eq]; simp [h2]
  have hs : size_t ((make_fn name i).length + 18446744073709551616 - rotate_field_width) = name.length + 1 := by
    rw [hlen]; unfold size_t rotate_field_width; omega
  have hd : List.drop (name.length + 1) (make_fn name i) = setw_fill0 2 i := by
    rw [make_fn_eq]
    have : name ++ '.' :: setw_fill0 2 i = (name ++ ['.']) ++ setw_fill0 2 i := by simp
    rw [this, List.drop_left' (by simp)]
  have h3 := stoi_two_digits i hi
  have hsub : substr (make_fn name i) (name.length + 1) = .ok (setw_fill0 2 i) := by
    unfold substr
    rw [hlen, if_neg (by omega), hd]
  unfold parse_count
  rw [hs, hsub]
  cases hst : stoi (setw_fill0 2 i) with
  | error e => rw [hst] at h3; cases h3
  | ok v =>
    rw [hst] at h3
    have h4 : int_to_uint32 v = i := Except.ok.inj h3
    show (stoi (setw_fill0 2 i) >>= fun v => (pure (int_to_uint32 v) : Except Exn Nat)) = _
    rw [hst]
    exact congrArg Except.ok h4

theorem mem_std_sort (l : List Str) (e : Str) : e ∈ std_sort l ↔ e ∈ l :=
  (List.perm_insertionSort _ l).mem_iff

theorem Except_bind_ok {α β : Type} (a : α) (f : α → Except Exn β) :
    (Except.ok a >>= f) = f a := rfl

theorem set_counts_ok (info : rotation_info)
    (h : ∀ e ∈ info.rotation_file_list, ∃ i, parse_count e = .ok i) :
    ∃ info2, set_counts info = .ok info2 ∧ info2.main = info.main ∧
      info2.current_log_size = info.current_log_size ∧
      info2.rotation_file_list = info.rotation_file_list := by
  unfold set_counts
  cases hb : info.rotation_file_list.getLast? with
  | none => exact ⟨_, rfl, rfl, rfl, rfl⟩
  | some back =>
    cases hf : info.rotation_file_list.head? with
    | none => exact ⟨_, rfl, rfl, rfl, rfl⟩
    | some front =>
      obtain ⟨i, hi⟩ := h back (List.mem_of_getLast?_eq_some hb)
      obtain ⟨j, hj⟩ := h front (List.mem_of_mem_head? hf)
      simp only [hi, hj, Except_bind_ok]
      exact ⟨_, rfl, rfl, rfl, rfl⟩

theorem get_rotation_info_ordinary (fs : FS) (hwf : fs.WF) (name : Str)
    (hn : ordinaryName name = true) :
    ∃ info, get_rotation_info fs name = .ok info ∧
      info.main = (if (Filez.fexists fs name).1 then name else []) ∧
      info.current_log_size =
        (if (Filez.fexists fs name).1 then (Filez.fexists fs name).2.st_size else 0) ∧
      info.rotation_file_list =
        std_sort (Filez.directory_list fs ['.'] Filez.LT_Files (wild name)) := by
  have hsp := simplePath_name name hn
  obtain ⟨h0, _, _, hlen⟩ := (ordinaryName_iff name).mp hn
  unfold get_rotation_info
  rw [dirname_r_plain name hsp.2.2.1, Except_bind_ok, basename_r_plain name hsp.2.2.1 h0,
    Except_bind_ok]
  apply set_counts_ok
  intro e he
  rw [mem_std_sort, mem_inventory fs hwf name hn] at he
  obtain ⟨i, hi, rfl, _⟩ := he
  exact ⟨i, parse_count_make_fn name hlen i hi⟩

/-! ## `rename` and `remove` on entries of the working directory -/

theorem lookup_filter_ne (fs : FS) (a b k : Key) :
    (fs.filter (fun e => !(e.1 == a) && !(e.1 == b))).lookup k =
      if k = a ∨ k = b then none else fs.lookup k := by
  induction fs with
  | nil => simp
  | cons e es ih =>
    obtain ⟨k1, v1⟩ := e
    by_cases h1 : k1 = a ∨ k1 = b
    · have hf : (!(k1 == a) && !(k1 == b)) = false := by
        rcases h1 with h | h <;> simp [h]
      rw [List.filter_cons_of_neg (by simpa using hf), ih]
      by_cases h2 : k = a ∨ k = b
      · simp [h2]
      · have : (k == k1) = false := by
          simp only [beq_eq_false_iff_ne, ne_eq]
          rintro rfl
          exact h2 h1
        simp [h2, List.lookup_cons, this]
    · have hf : (!(k1 == a) && !(k1 == b)) = true := by
        simp only [not_or] at h1
        simp [h1.1, h1.2]
      rw [List.filter_cons_of_pos (by simpa using hf)]
      by_cases h3 : k = k1
      · subst h3
        simp [List.lookup_cons, h1]
      · have : (k == k1) = false := by simpa using h3
        simp only [List.lookup_cons, this, ih]

theorem WF_filter (fs : FS) (hwf : fs.WF) (p : Key × Inode → Bool) : FS.WF (fs.filter p) := by
  unfold FS.WF at *
  exact hwf.sublist ((List.filter_sublist fs).map Prod.fst)

theorem not_mem_keys_filter (fs : FS) (a b : Key) :
    b ∉ (fs.filter (fun e => !(e.1 == a) && !(e.1 == b))).map Prod.fst := by
  simp only [List.mem_map, List.mem_filter, not_exists, not_and]
  rintro ⟨k, v⟩ ⟨_, h⟩ rfl
  simp at h

theorem WF_rename (fs : FS) (hwf : fs.WF) (a b : Str) : (rename fs a b).WF := by
  unfold rename
  split
  · exact hwf
  · split
    · exact hwf
    · unfold FS.WF
      rw [List.map_cons, List.nodup_cons]
      exact ⟨not_mem_keys_filter fs _ _, WF_filter fs hwf _⟩

theorem WF_remove (fs : FS) (hwf : fs.WF) (a : Str) : (remove fs a).WF := by
  unfold remove
  split
  · exact hwf
  · split
    · exact hwf
    · exact WF_filter fs hwf _

theorem dirAt_simple (fs : FS) (p : Str) :
    dirAt fs (false, [p]) = true ↔ ∃ t, fs.lookup (false, [p]) = some t ∧ S_ISDIR t.st_mode = true := by
  unfold dirAt node
  simp only [List.cons_ne_nil, if_false]
  cases fs.lookup (false, [p]) <;> simp

theorem rename_simple (fs : FS) (a b : Str) (ha : simplePath a) (hb : simplePath b) (ino : Inode)
    (h1 : stat fs a = some ino) (h2 : S_ISDIR ino.st_mode = false)
    (h3 : ∀ t, stat fs b = some t → S_ISDIR t.st_mode = false) :
    rename fs a b = ((false, [b]), ino) ::
      fs.filter (fun e => !(e.1 == (false, [a])) && !(e.1 == (false, [b]))) := by
  have h4 : dirAt fs (false, [b]) = false := by
    cases hd : dirAt fs (false, [b]) with
    | false => rfl
    | true =>
      obtain ⟨t, ht, hdir⟩ := (dirAt_simple fs b).mp hd
      rw [← stat_simple fs b hb] at ht
      rw [h3 t ht] at hdir
      cases hdir
  have h5 : (b == []) = false := by simpa using hb.1
  unfold rename
  rw [h1]
  simp only [h2, h5, needsDir_simple b hb, pathKey_simple b hb, pathKey_simple a ha, parentKey,
    List.dropLast_single, dirAt_cwd, h4, Bool.or_self, Bool.not_true, Bool.false_eq_true, if_false]

theorem stat_rename (fs : FS) (a b p : Str) (ha : simplePath a) (hb : simplePath b)
    (hp : simplePath p) (ino : Inode)
    (h1 : stat fs a = some ino) (h2 : S_ISDIR ino.st_mode = false)
    (h3 : ∀ t, stat fs b = some t → S_ISDIR t.st_mode = false) :
    stat (rename fs a b) p = if p = b then some ino else if p = a then none else stat fs p := by
  rw [rename_simple fs a b ha hb ino h1 h2 h3, stat_simple _ p hp, stat_simple _ p hp]
  by_cases e1 : p = b
  · subst e1; simp [List.lookup_cons]
  · have : ((false, [p]) == ((false, [b]) : Key)) = false := by simpa using e1
    rw [List.lookup_cons, this, lookup_filter_ne]
    by_cases e2 : p = a
    · subst e2; simp [e1]
    · simp [e1, e2]

theorem stat_remove (fs : FS) (q p : Str) (hq : simplePath q) (hp : simplePath p)
    (h : ∀ t, stat fs q = some t → S_ISDIR t.st_mode = false) :
    stat (remove fs q) p = if p = q then none else stat fs p := by
  unfold remove
  cases hs : stat fs q with
  | none =>
    by_cases e : p = q
    · subst e; simp [hs]
    · simp [e]
  | some t =>
    have ht := h t hs
    simp only [ht, Bool.false_and, Bool.false_eq_true, if_false, pathKey_simple q hq]
    rw [stat_simple _ p hp, stat_simple _ p hp]
    have := lookup_filter_ne fs (false, [q]) (false, [q]) (false, [p])
    simp only [Bool.and_self, or_self] at this
    rw [this]
    by_cases e : p = q
    · simp [e]
    · simp [e]

/-! ## The cascade -/

theorem c_str_make_fn (name : Str) (hn : ordinaryName name = true) (i : Nat) (hi : i < 101) :
    c_str (make_fn name i) = make_fn name i :=
  c_str_eq _ (simplePath_make_fn name hn i hi).2.2.2

theorem uint32_t_small (n : Nat) (h : n < 4294967296) : uint32_t n = n := by
  unfold uint32_t; omega

theorem do_rotation_run (name : Str) (hn : ordinaryName name = true) (info : rotation_info)
    (hmain : info.main = name) (g : Nat) (hg : g ≤ 99)
    (hout : make_fn name (g + 1) ∉ info.rotation_file_list) :
    ∀ (n f depth : Nat) (fs : FS), f + n = g → n < depth →
      (∀ i, f ≤ i → i ≤ g → make_fn name i ∈ info.rotation_file_list) →
      (∀ i, f ≤ i → i ≤ g →
        ∃ ino, stat fs (make_fn name i) = some ino ∧ S_ISDIR ino.st_mode = false) →
      (∀ t, stat fs (make_fn name (g + 1)) = some t → S_ISDIR t.st_mode = false) →
      ∃ fs2, do_rotation info depth f (f + 1) fs = some fs2 ∧ (fs.WF → fs2.WF) ∧
        (∀ i, f ≤ i → i ≤ g → stat fs2 (make_fn name (i + 1)) = stat fs (make_fn name i)) ∧
        stat fs2 (make_fn name f) = none ∧
        (∀ p, simplePath p → (∀ i, f ≤ i → i ≤ g + 1 → p ≠ make_fn name i) →
          stat fs2 p = stat fs p) := by
  intro n
  induction n with
  | zero =>
    intro f depth fs hfg hd hin hfile htgt
    have hfg2 : f = g := by omega
    subst hfg2
    obtain ⟨d, rfl⟩ : ∃ d, depth = d + 1 := ⟨depth - 1, by omega⟩
    obtain ⟨ino, hino, hdir⟩ := hfile f le_rfl le_rfl
    have hsf := simplePath_make_fn name hn f (by omega)
    have hsf1 := simplePath_make_fn name hn (f + 1) (by omega)
    have hne : make_fn name f ≠ make_fn name (f + 1) := fun e => by
      have := make_fn_inj name f (f + 1) (by omega) (by omega) e; omega
    refine ⟨rename fs (make_fn name f) (make_fn name (f + 1)), ?_, ?_, ?_, ?_, ?_⟩
    · unfold do_rotation
      rw [hmain, if_neg (not_not.mpr (hin f le_rfl le_rfl)), if_neg hout,
        c_str_make_fn name hn f (by omega), c_str_make_fn name hn (f + 1) (by omega)]
    · intro hwf; exact WF_rename fs hwf _ _
    · intro i hi1 hi2
      have : i = f := by omega
      subst this
      rw [stat_rename fs _ _ _ hsf hsf1 hsf1 ino hino hdir htgt, if_pos rfl, hino]
    · rw [stat_rename fs _ _ _ hsf hsf1 hsf ino hino hdir htgt, if_neg hne, if_pos rfl]
    · intro p hp hpn
      rw [stat_rename fs _ _ _ hsf hsf1 hp ino hino hdir htgt,
        if_neg (hpn (f + 1) (by omega) (by omega)), if_neg (hpn f le_rfl (by omega))]
  | succ n ih =>
    intro f depth fs hfg hd hin hfile htgt
    obtain ⟨d, rfl⟩ : ∃ d, depth = d + 1 := ⟨depth - 1, by omega⟩
    obtain ⟨ino, hino, hdir⟩ := hfile f le_rfl (by omega)
    have hsf := simplePath_make_fn name hn f (by omega)
    have hsf1 := simplePath_make_fn name hn (f + 1) (by omega)
    have hne : make_fn name f ≠ make_fn name (f + 1) := fun e => by
      have := make_fn_inj name f (f + 1) (by omega) (by omega) e; omega
    obtain ⟨fs1, hrun, hwf1, hshift, hgone, hrest⟩ :=
      ih (f + 1) d fs (by omega) (by omega)
        (fun i h1 h2 => hin i (by omega) h2) (fun i h1 h2 => hfile i (by omega) h2) htgt
    have hsrc : stat fs1 (make_fn name f) = some ino := by
      rw [hrest _ hsf, hino]
      intro i h1 h2 e
      have := make_fn_inj name f i (by omega) (by omega) e; omega
    have htgt1 : ∀ t, stat fs1 (make_fn name (f + 1)) = some t → S_ISDIR t.st_mode = false := by
      intro t ht; rw [hgone] at ht; cases ht
    refine ⟨rename fs1 (make_fn name f) (make_fn name (f + 1)), ?_, ?_, ?_, ?_, ?_⟩
    · unfold do_rotation
      rw [hmain, if_neg (not_not.mpr (hin f le_rfl (by omega))),
        if_pos (hin (f + 1) (by omega) (by omega)), uint32_t_small _ (by omega), hrun,
        c_str_make_fn name hn f (by omega), c_str_make_fn name hn (f + 1) (by omega)]
      rfl
    · intro hwf; exact WF_rename fs1 (hwf1 hwf) _ _
    · intro i hi1 hi2
      have hsi := simplePath_make_fn name hn (i + 1) (by omega)
      rw [stat_rename fs1 _ _ _ hsf hsf1 hsi ino hsrc hdir htgt1]
      by_cases e : i = f
      · subst e; rw [if_pos rfl, hino]
      · have e1 : make_fn name (i + 1) ≠ make_fn name (f + 1) := fun h => by
          have := make_fn_inj name _ _ (by omega) (by omega) h; omega
        have e2 : make_fn name (i + 1) ≠ make_fn name f := fun h => by
          have := make_fn_inj name _ _ (by omega) (by omega) h; omega
        rw [if_neg e1, if_neg e2]
        exact hshift i (by omega) hi2
    · rw [stat_rename fs1 _ _ _ hsf hsf1 hsf ino hsrc hdir htgt1, if_neg hne, if_pos rfl]
    · intro p hp hpn
      rw [stat_rename fs1 _ _ _ hsf hsf1 hp ino hsrc hdir htgt1,
        if_neg (hpn (f + 1) (by omega) (by omega)), if_neg (hpn f le_rfl (by omega))]
      exact hrest p hp (fun i h1 h2 => hpn i (by omega) h2)

/-! ## The order of the backup names -/

theorem append_lt_append_iff (p a b : Str) : p ++ a < p ++ b ↔ a < b := by
  induction p with
  | nil => simp
  | cons c cs ih =>
    rw [List.cons_append, List.cons_append]
    exact (List.Lex.cons_iff).trans ih

theorem append_le_append_iff (p a b : Str) : p ++ a ≤ p ++ b ↔ a ≤ b := by
  rw [← not_lt, ← not_lt, append_lt_append_iff]

theorem suffix_le : ∀ i, i < 100 → ∀ j, j < 100 → i ≤ j →
    ('.' :: setw_fill0 2 i : Str) ≤ '.' :: setw_fill0 2 j := by decide!

theorem make_fn_le (name : Str) (i j : Nat) (hi : i < 100) (hj : j < 100) (hij : i ≤ j) :
    make_fn name i ≤ make_fn name j := by
  rw [make_fn_eq, make_fn_eq, append_le_append_iff]
  exact suffix_le i hi j hj hij

theorem mem_inventory_stat (fs : FS) (hwf : fs.WF) (name : Str) (hn : ordinaryName name = true)
    (e : Str) :
    e ∈ Filez.directory_list fs ['.'] Filez.LT_Files (wild name) ↔
      ∃ i, i < 100 ∧ e = make_fn name i ∧
        ∃ ino, stat fs (make_fn name i) = some ino ∧ S_ISDIR ino.st_mode = false := by
  rw [mem_inventory fs hwf name hn]
  constructor
  · rintro ⟨i, hi, rfl, ino, h1, h2⟩
    exact ⟨i, hi, rfl, ino, by rw [stat_simple _ _ (simplePath_make_fn name hn i (by omega)), h1], h2⟩
  · rintro ⟨i, hi, rfl, ino, h1, h2⟩
    exact ⟨i, hi, rfl, ino, by rw [← stat_simple _ _ (simplePath_make_fn name hn i (by omega)), h1], h2⟩

theorem mem_present (fs : FS) (name : Str) (i : Nat) :
    i ∈ present fs name ↔ i < 100 ∧ (stat fs (make_fn name i)).isSome = true := by
  simp [present]

theorem present_sorted (fs : FS) (name : Str) : (present fs name).Pairwise (· < ·) :=
  (List.pairwise_lt_range 100).filter _

theorem present_map_sorted (fs : FS) (name : Str) :
    ((present fs name).map (make_fn name)).Sorted (· ≤ ·) := by
  unfold List.Sorted
  rw [List.pairwise_map]
  refine (present_sorted fs name).imp_of_mem ?_
  intro a b ha hb hab
  exact make_fn_le name a b ((mem_present fs name a).mp ha).1 ((mem_present fs name b).mp hb).1
    (Nat.le_of_lt hab)

theorem present_map_nodup (fs : FS) (name : Str) :
    ((present fs name).map (make_fn name)).Nodup := by
  apply List.Nodup.map_on _ (present_sorted fs name).nodup
  intro a ha b hb e
  exact make_fn_inj name a b (by have := ((mem_present fs name a).mp ha).1; omega)
    (by have := ((mem_present fs name b).mp hb).1; omega) e

theorem inventory_eq (fs : FS) (hwf : fs.WF) (name : Str) (hn : ordinaryName name = true)
    (hnd : ∀ i, i < 100 → ∀ t, stat fs (make_fn name i) = some t → S_ISDIR t.st_mode = false) :
    std_sort (Filez.directory_list fs ['.'] Filez.LT_Files (wild name)) =
      (present fs name).map (make_fn name) := by
  apply List.eq_of_perm_of_sorted (r := (· ≤ ·)) _ (List.sorted_insertionSort _ _)
    (present_map_sorted fs name)
  rw [List.perm_ext_iff_of_nodup
    ((List.perm_insertionSort _ _).nodup_iff.mpr (nodup_inventory fs hwf _))
    (present_map_nodup fs name)]
  intro e
  rw [(List.perm_insertionSort _ _).mem_iff, mem_inventory_stat fs hwf name hn, List.mem_map]
  constructor
  · rintro ⟨i, hi, rfl, ino, h1, _⟩
    exact ⟨i, (mem_present fs name i).mpr ⟨hi, by rw [h1]; rfl⟩, rfl⟩
  · rintro ⟨i, hi, rfl⟩
    obtain ⟨h1, h2⟩ := (mem_present fs name i).mp hi
    obtain ⟨ino, hino⟩ := Option.isSome_iff_exists.mp h2
    exact ⟨i, h1, rfl, ino, hino, hnd i h1 ino hino⟩

/-! ## The pruning loop -/

theorem prune_loop_stat (r : Nat) :
    ∀ (n : Nat) (L : List Str) (fs : FS), L.length - r ≤ n →
      (∀ e ∈ L, simplePath e ∧ ∀ t, stat fs e = some t → S_ISDIR t.st_mode = false) →
      (fs.WF → (prune_loop r n L fs).1.WF) ∧
      ∀ p, simplePath p →
        stat (prune_loop r n L fs).1 p = if p ∈ L.drop r then none else stat fs p := by
  intro n
  induction n with
  | zero =>
    intro L fs hn _
    have : L.drop r = [] := List.drop_eq_nil_of_le (by omega)
    simp [prune_loop, this]
  | succ n ih =>
    intro L fs hn hL
    unfold prune_loop
    by_cases hlen : L.length > r
    · rw [if_pos hlen]
      cases hb : L.getLast? with
      | none =>
        rw [List.getLast?_eq_none_iff] at hb
        subst hb; simp at hlen
      | some back =>
        have hLeq : L.dropLast ++ [back] = L := List.dropLast_append_getLast? back hb
        have hback := hL back (List.mem_of_getLast?_eq_some hb)
        have hc : c_str back = back := c_str_eq back hback.1.2.2.2
        simp only [hc]
        have hstat1 : ∀ p, simplePath p →
            stat (remove fs back) p = if p = back then none else stat fs p :=
          fun p hp => stat_remove fs back p hback.1 hp hback.2
        have hL1 : ∀ e ∈ L.dropLast, simplePath e ∧
            ∀ t, stat (remove fs back) e = some t → S_ISDIR t.st_mode = false := by
          intro e he
          have hLe := hL e (List.mem_of_mem_dropLast he)
          refine ⟨hLe.1, ?_⟩
          intro t ht
          rw [hstat1 e hLe.1] at ht
          by_cases e1 : e = back
          · rw [if_pos e1] at ht; cases ht
          · rw [if_neg e1] at ht; exact hLe.2 t ht
        have hdl : L.dropLast.length = L.length - 1 := List.length_dropLast L
        obtain ⟨ihwf, ihstat⟩ := ih L.dropLast (remove fs back) (by omega) hL1
        refine ⟨fun hwf => ihwf (WF_remove fs hwf back), ?_⟩
        intro p hp
        rw [ihstat p hp, hstat1 p hp]
        have hdrop : L.drop r = L.dropLast.drop r ++ [back] := by
          conv_lhs => rw [← hLeq]
          exact List.drop_append_of_le_length (by omega)
        rw [hdrop]
        by_cases e1 : p ∈ L.dropLast.drop r
        · simp [e1]
        · by_cases e2 : p = back
          · simp [e1, e2]
          · simp [e1, e2]
    · rw [if_neg hlen]
      have : L.drop r = [] := List.drop_eq_nil_of_le (by omega)
      simp [this]

/-! ## The paths through `rotate` -/

theorem rotate_disabled (cfg : Config) (fs : FS) (h : cfg.rotation_count = 0) :
    rotate cfg fs = .returns fs := by
  unfold rotate
  rw [if_pos h]

theorem rotate_throws (cfg : Config) (fs : FS) (e : Exn) (hc : cfg.rotation_count ≠ 0)
    (h : get_rotation_info fs cfg.filename = .error e) :
    rotate cfg fs = .throws e fs := by
  unfold rotate
  rw [if_neg hc, h]

theorem rotate_not_due (cfg : Config) (fs : FS) (info : rotation_info)
    (hc : cfg.rotation_count ≠ 0)
    (h : get_rotation_info fs cfg.filename = .ok info)
    (hno : info.main = [] ∨ (cfg.rotation_size > 0 ∧ info.current_log_size < cfg.rotation_size)) :
    rotate cfg fs = .returns fs := by
  unfold rotate
  rw [if_neg hc, h]
  simp only []
  rw [if_pos hno]

theorem rotate_due (cfg : Config) (fs fs1 : FS) (info info2 : rotation_info)
    (hc : cfg.rotation_count ≠ 0)
    (h1 : get_rotation_info fs cfg.filename = .ok info)
    (hmain : info.main ≠ [])
    (hsize : cfg.rotation_size ≤ info.current_log_size)
    (hrot : do_rotation info do_rotation_depth 1 2 fs = some fs1)
    (h2 : get_rotation_info (rename fs1 (c_str info.main) (c_str (make_fn info.main 1)))
      cfg.filename = .ok info2) :
    rotate cfg fs = .returns (prune_loop cfg.rotation_count info2.rotation_file_list.length
      info2.rotation_file_list
      (rename fs1 (c_str info.main) (c_str (make_fn info.main 1)))).1 := by
  unfold rotate
  rw [if_neg hc, h1]
  simp only []
  rw [if_neg (by rintro (h | ⟨_, h⟩); exact hmain h; omega), if_pos hsize, hrot]
  simp only []
  rw [h2]

theorem not_dir_of_IFREG (m : Nat) (h : m &&& S_IFREG ≠ 0) : S_ISDIR m = false := by
  cases hd : S_ISDIR m with
  | false => rfl
  | true =>
    exfalso
    apply h
    have h1 : m &&& S_IFMT = S_IFDIR := by simpa [S_ISDIR] using hd
    have h2 : S_IFREG = S_IFMT &&& S_IFREG := by decide
    rw [h2, ← Nat.land_assoc, h1]
    decide

theorem fexists_of_stat (fs : FS) (name : Str) (ino : Inode) (h : stat fs (c_str name) = some ino) :
    Filez.fexists fs name = (ino.st_mode &&& S_IFREG != 0, ino) := by
  simp [Filez.fexists, Filez.exists, h]

theorem fexists_true (fs : FS) (name : Str) (h : (Filez.fexists fs name).1 = true) :
    ∃ ino, stat fs (c_str name) = some ino ∧ ino.st_mode &&& S_IFREG ≠ 0 ∧
      (Filez.fexists fs name).2 = ino := by
  cases hs : stat fs (c_str name) with
  | none => simp [Filez.fexists, Filez.exists, hs] at h
  | some ino =>
    rw [fexists_of_stat fs name ino hs] at h ⊢
    exact ⟨ino, rfl, by simpa using h, rfl⟩

theorem mem_sorted_inventory (fs : FS) (hwf : fs.WF) (name : Str) (hn : ordinaryName name = true)
    (i : Nat) (hi : i < 101) :
    make_fn name i ∈ std_sort (Filez.directory_list fs ['.'] Filez.LT_Files (wild name)) ↔
      i < 100 ∧ ∃ ino, stat fs (make_fn name i) = some ino ∧ S_ISDIR ino.st_mode = false := by
  rw [mem_std_sort, mem_inventory_stat fs hwf name hn]
  constructor
  · rintro ⟨j, hj, e, ino, h1, h2⟩
    have := make_fn_inj name i j hi (by omega) e
    subst this
    exact ⟨hj, ino, h1, h2⟩
  · rintro ⟨h, ino, h1, h2⟩
    exact ⟨i, h, rfl, ino, h1, h2⟩

theorem exists_run (P : Nat → Prop) (h : ¬ P 100) :
    ∃ g, g ≤ 99 ∧ (∀ i, 1 ≤ i → i ≤ g → P i) ∧ ¬ P (g + 1) := by
  classical
  have hex : ∃ g, ¬ P (g + 1) := ⟨99, h⟩
  refine ⟨Nat.find hex, ?_, ?_, Nat.find_spec hex⟩
  · exact Nat.find_min' hex h
  · intro i h1 h2
    have := Nat.find_min hex (m := i - 1) (by omega)
    rw [not_not] at this
    have e : i - 1 + 1 = i := by omega
    rwa [e] at this

theorem do_rotation_unlisted (info : rotation_info) (d f s : Nat) (fs : FS)
    (h : make_fn info.main f ∉ info.rotation_file_list) :
    do_rotation info (d + 1) f s fs = some fs := by
  unfold do_rotation
  rw [if_pos h]

theorem rotate_ordinary_full (name : Str) (hn : ordinaryName name = true) (fs : FS) (hwf : fs.WF)
    (r size : Nat) (hr : r ≠ 0) (ino : Inode)
    (hmain : stat fs name = some ino) (hreg : ino.st_mode &&& S_IFREG ≠ 0)
    (hdue : size ≤ ino.st_size)
    (hnd : ∀ i, i < 100 → ∀ t, stat fs (make_fn name i) = some t → S_ISDIR t.st_mode = false)
    (h100 : (∀ i, 1 ≤ i → i ≤ 99 → (stat fs (make_fn name i)).isSome = true) →
      ∀ t, stat fs (make_fn name 100) = some t → S_ISDIR t.st_mode = false) :
    ∃ g fs2 fs3, g ≤ 99 ∧
      (∀ i, 1 ≤ i → i ≤ g → (stat fs (make_fn name i)).isSome = true) ∧
      (g < 99 → stat fs (make_fn name (g + 1)) = none) ∧
      fs2.WF ∧ stat fs2 name = none ∧ stat fs2 (make_fn name 1) = some ino ∧
      (∀ i, 1 ≤ i → i ≤ g → stat fs2 (make_fn name (i + 1)) = stat fs (make_fn name i)) ∧
      (∀ p, simplePath p → p ≠ name → (∀ i, 1 ≤ i → i ≤ g + 1 → p ≠ make_fn name i) →
        stat fs2 p = stat fs p) ∧
      rotate ⟨name, r, size⟩ fs = .returns fs3 ∧ fs3.WF ∧
      (∀ p, simplePath p →
        stat fs3 p =
          if p ∈ ((present fs2 name).map (make_fn name)).drop r then none else stat fs2 p) ∧
      ∃ info fs1 info2, get_rotation_info fs name = .ok info ∧ info.main = name ∧
        (∀ i, 1 ≤ i → i ≤ g → make_fn name i ∈ info.rotation_file_list) ∧
        make_fn name (g + 1) ∉ info.rotation_file_list ∧
        do_rotation info do_rotation_depth 1 2 fs = some fs1 ∧
        stat fs1 name = some ino ∧ stat fs1 (make_fn name 1) = none ∧
        fs2 = rename fs1 name (make_fn name 1) ∧
        get_rotation_info fs2 name = .ok info2 ∧
        fs3 = (prune_loop r info2.rotation_file_list.length info2.rotation_file_list fs2).1 := by
  have hsn := simplePath_name name hn
  have hcs : c_str name = name := c_str_eq name hsn.2.2.2
  have hfe : Filez.fexists fs name = (true, ino) := by
    rw [fexists_of_stat fs name ino (by rw [hcs]; exact hmain)]
    simp [hreg]
  have hdir : S_ISDIR ino.st_mode = false := not_dir_of_IFREG _ hreg
  -- the first inventory
  obtain ⟨info, hinfo, hm, hsz, hl⟩ := get_rotation_info_ordinary fs hwf name hn
  rw [hfe] at hm hsz
  simp only [if_true] at hm hsz
  have hmemL : ∀ i, i < 101 → (make_fn name i ∈ info.rotation_file_list ↔
      i < 100 ∧ ∃ t, stat fs (make_fn name i) = some t ∧ S_ISDIR t.st_mode = false) := by
    intro i hi; rw [hl]; exact mem_sorted_inventory fs hwf name hn i hi
  obtain ⟨g, hg, hin, hout⟩ := exists_run (fun i => make_fn name i ∈ info.rotation_file_list)
    (fun h => by have := ((hmemL 100 (by omega)).mp h).1; omega)
  have hfile : ∀ i, 1 ≤ i → i ≤ g →
      ∃ t, stat fs (make_fn name i) = some t ∧ S_ISDIR t.st_mode = false :=
    fun i h1 h2 => ((hmemL i (by omega)).mp (hin i h1 h2)).2
  have htgt0 : ∀ t, stat fs (make_fn name (g + 1)) = some t → S_ISDIR t.st_mode = false := by
    by_cases hg2 : g < 99
    · exact hnd (g + 1) (by omega)
    · have e : g = 99 := by omega
      subst e
      exact h100 (fun i h1 h2 => by obtain ⟨t, ht, _⟩ := hfile i h1 h2; rw [ht]; rfl)
  have hnext : g < 99 → stat fs (make_fn name (g + 1)) = none := by
    intro hg2
    cases hs : stat fs (make_fn name (g + 1)) with
    | none => rfl
    | some t =>
      exact absurd ((hmemL (g + 1) (by omega)).mpr ⟨by omega, t, hs, hnd _ (by omega) t hs⟩) hout
  -- the cascade
  have hcasc : ∃ fs1, do_rotation info do_rotation_depth 1 2 fs = some fs1 ∧ fs1.WF ∧
      (∀ i, 1 ≤ i → i ≤ g → stat fs1 (make_fn name (i + 1)) = stat fs (make_fn name i)) ∧
      stat fs1 (make_fn name 1) = none ∧
      (∀ p, simplePath p → (∀ i, 1 ≤ i → i ≤ g + 1 → p ≠ make_fn name i) →
        stat fs1 p = stat fs p) := by
    by_cases hg0 : g = 0
    · subst hg0
      refine ⟨fs, ?_, hwf, fun i h1 h2 => by omega, hnext (by omega), fun p _ _ => rfl⟩
      have : do_rotation_depth = 4294967296 + 1 := rfl
      rw [this]
      exact do_rotation_unlisted info _ 1 2 fs (by rw [hm]; exact hout)
    · obtain ⟨fs1, h1, h2, h3, h4, h5⟩ := do_rotation_run name hn info hm g hg hout (g - 1) 1
        do_rotation_depth fs (by omega) (by unfold do_rotation_depth; omega) hin hfile htgt0
      exact ⟨fs1, h1, h2 hwf, h3, h4, h5⟩
  obtain ⟨fs1, hrot, hwf1, hshift, hone, hrest⟩ := hcasc
  -- the rename of the main file
  have hs1 := simplePath_make_fn name hn 1 (by omega)
  have hmain1 : stat fs1 name = some ino := by
    rw [hrest name hsn (fun i _ _ => (make_fn_ne_name name i).symm)]; exact hmain
  have htgt : ∀ t, stat fs1 (make_fn name 1) = some t → S_ISDIR t.st_mode = false := by
    intro t ht; rw [hone] at ht; cases ht
  have hstat2 : ∀ p, simplePath p → stat (rename fs1 name (make_fn name 1)) p =
      if p = make_fn name 1 then some ino else if p = name then none else stat fs1 p :=
    fun p hp => stat_rename fs1 name (make_fn name 1) p hsn hs1 hp ino hmain1 hdir htgt
  have hwf2 : (rename fs1 name (make_fn name 1)).WF := WF_rename fs1 hwf1 _ _
  have hshift2 : ∀ i, 1 ≤ i → i ≤ g →
      stat (rename fs1 name (make_fn name 1)) (make_fn name (i + 1)) = stat fs (make_fn name i) := by
    intro i h1 h2
    rw [hstat2 _ (simplePath_make_fn name hn (i + 1) (by omega)),
      if_neg (fun e => by have := make_fn_inj name _ _ (by omega) (by omega) e; omega),
      if_neg (make_fn_ne_name name _)]
    exact hshift i h1 h2
  have hrest2 : ∀ p, simplePath p → p ≠ name → (∀ i, 1 ≤ i → i ≤ g + 1 → p ≠ make_fn name i) →
      stat (rename fs1 name (make_fn name 1)) p = stat fs p := by
    intro p hp h1 h2
    rw [hstat2 p hp, if_neg (h2 1 le_rfl (by omega)), if_neg h1]
    exact hrest p hp h2
  have hnd2 : ∀ i, i < 100 → ∀ t, stat (rename fs1 name (make_fn name 1)) (make_fn name i) = some t →
      S_ISDIR t.st_mode = false := by
    intro i hi t ht
    by_cases e1 : i = 1
    · subst e1
      rw [hstat2 _ hs1, if_pos rfl] at ht
      cases ht; exact hdir
    · by_cases e2 : 2 ≤ i ∧ i ≤ g + 1
      · have := hshift2 (i - 1) (by omega) (by omega)
        have e3 : i - 1 + 1 = i := by omega
        rw [e3, ht] at this
        exact hnd (i - 1) (by omega) t this.symm
      · rw [hrest2 _ (simplePath_make_fn name hn i (by omega)) (make_fn_ne_name name i)
          (fun j h1 h2 e => by
            have := make_fn_inj name _ _ (by omega) (by omega) e; omega)] at ht
        exact hnd i (by omega) t ht
  -- the second inventory and the pruning
  obtain ⟨info2, hinfo2, _, _, hl2⟩ :=
    get_rotation_info_ordinary (rename fs1 name (make_fn name 1)) hwf2 name hn
  rw [inventory_eq _ hwf2 name hn hnd2] at hl2
  have hprune := prune_loop_stat r info2.rotation_file_list.length info2.rotation_file_list
    (rename fs1 name (make_fn name 1)) (by omega) (by
      intro e he
      rw [hl2, List.mem_map] at he
      obtain ⟨i, hi, rfl⟩ := he
      have hi2 := ((mem_present _ name i).mp hi).1
      exact ⟨simplePath_make_fn name hn i (by omega), hnd2 i hi2⟩)
  refine ⟨g, rename fs1 name (make_fn name 1), _, hg,
    fun i h1 h2 => by obtain ⟨t, ht, _⟩ := hfile i h1 h2; rw [ht]; rfl,
    hnext, hwf2, ?_, ?_, hshift2, hrest2, ?_, hprune.1 hwf2, ?_,
    info, fs1, info2, hinfo, hm, hin, hout, hrot, hmain1, hone, rfl, hinfo2, rfl⟩
  · rw [hstat2 name hsn, if_neg (make_fn_ne_name name 1).symm, if_pos rfl]
  · rw [hstat2 _ hs1, if_pos rfl]
  · have := rotate_due ⟨name, r, size⟩ fs fs1 info info2 hr hinfo (by rw [hm]; exact hsn.1)
      (by rw [hsz]; exact hdue) hrot
      (by rw [hm, hcs, c_str_make_fn name hn 1 (by omega)]; exact hinfo2)
    rw [hm, hcs, c_str_make_fn name hn 1 (by omega)] at this
    exact this
  · intro p hp
    rw [hprune.2 p hp, hl2]

theorem rotate_ordinary (name : Str) (hn : ordinaryName name = true) (fs : FS) (hwf : fs.WF)
    (r size : Nat) (hr : r ≠ 0) (ino : Inode)
    (hmain : stat fs name = some ino) (hreg : ino.st_mode &&& S_IFREG ≠ 0)
    (hdue : size ≤ ino.st_size)
    (hnd : ∀ i, i < 100 → ∀ t, stat fs (make_fn name i) = some t → S_ISDIR t.st_mode = false)
    (h100 : (∀ i, 1 ≤ i → i ≤ 99 → (stat fs (make_fn name i)).isSome = true) →
      ∀ t, stat fs (make_fn name 100) = some t → S_ISDIR t.st_mode = false) :
    ∃ g fs2 fs3, g ≤ 99 ∧
      (∀ i, 1 ≤ i → i ≤ g → (stat fs (make_fn name i)).isSome = true) ∧
      (g < 99 → stat fs (make_fn name (g + 1)) = none) ∧
      fs2.WF ∧ stat fs2 name = none ∧ stat fs2 (make_fn name 1) = some ino ∧
      (∀ i, 1 ≤ i → i ≤ g → stat fs2 (make_fn name (i + 1)) = stat fs (make_fn name i)) ∧
      (∀ p, simplePath p → p ≠ name → (∀ i, 1 ≤ i → i ≤ g + 1 → p ≠ make_fn name i) →
        stat fs2 p = stat fs p) ∧
      rotate ⟨name, r, size⟩ fs = .returns fs3 ∧ fs3.WF ∧
      (∀ p, simplePath p →
        stat fs3 p =
          if p ∈ ((present fs2 name).map (make_fn name)).drop r then none else stat fs2 p) := by
  obtain ⟨g, fs2, fs3, h1, h2, h3, h4, h5, h6, h7, h8, h9, h10, h11, _⟩ :=
    rotate_ordinary_full name hn fs hwf r size hr ino hmain hreg hdue hnd h100
  exact ⟨g, fs2, fs3, h1, h2, h3, h4, h5, h6, h7, h8, h9, h10, h11⟩

theorem present_pruned (name : Str) (hn : ordinaryName name = true) (fs2 fs3 : FS) (r : Nat)
    (h : ∀ p, simplePath p →
      stat fs3 p =
        if p ∈ ((present fs2 name).map (make_fn name)).drop r then none else stat fs2 p) :
    present fs3 name = (present fs2 name).take r := by
  have hs2 := present_sorted fs2 name
  have hnd2 : (present fs2 name).Nodup := hs2.nodup
  apply List.eq_of_perm_of_sorted (r := (· ≤ ·)) _
    ((present_sorted fs3 name).imp Nat.le_of_lt)
    (((hs2.sublist (List.take_sublist r _))).imp Nat.le_of_lt)
  rw [List.perm_ext_iff_of_nodup (present_sorted fs3 name).nodup
    (hnd2.sublist (List.take_sublist r _))]
  intro i
  rw [mem_present]
  have hsplit : (present fs2 name).take r ++ (present fs2 name).drop r = present fs2 name :=
    List.take_append_drop r _
  have hdisj : ∀ j, j ∈ (present fs2 name).take r → j ∈ (present fs2 name).drop r → False := by
    intro j h1 h2
    rw [← hsplit] at hnd2
    exact (List.nodup_append.mp hnd2).2.2 h1 h2
  constructor
  · rintro ⟨hi, hsome⟩
    rw [h _ (simplePath_make_fn name hn i (by omega))] at hsome
    by_cases hm : make_fn name i ∈ ((present fs2 name).map (make_fn name)).drop r
    · rw [if_pos hm] at hsome; cases hsome
    · rw [if_neg hm] at hsome
      have hi2 : i ∈ present fs2 name := (mem_present fs2 name i).mpr ⟨hi, hsome⟩
      rw [← hsplit, List.mem_append] at hi2
      rcases hi2 with h1 | h1
      · exact h1
      · exact absurd (by rw [← List.map_drop]; exact List.mem_map_of_mem _ h1) hm
  · intro hi
    have hi2 : i ∈ present fs2 name := List.mem_of_mem_take hi
    obtain ⟨h1, h2⟩ := (mem_present fs2 name i).mp hi2
    refine ⟨h1, ?_⟩
    rw [h _ (simplePath_make_fn name hn i (by omega)), if_neg, h2]
    rw [← List.map_drop, List.mem_map]
    rintro ⟨j, hj, e⟩
    have hj2 := ((mem_present fs2 name j).mp (List.mem_of_mem_drop hj)).1
    have := make_fn_inj name j i (by omega) (by omega) e
    subst this
    exact hdisj j hi hj

theorem take_range_one (r m : Nat) : (List.range' 1 m).take r = List.range' 1 (min r m) := by
  by_cases h : r ≤ m
  · have e : List.range' 1 m = List.range' 1 r ++ List.range' (1 + r) (m - r) :=
      List.range'_eq_append_iff.mpr ⟨r, h, rfl, rfl⟩
    rw [e, List.take_left' (by simp), Nat.min_eq_left h]
  · rw [List.take_of_length_le (by simp; omega), Nat.min_eq_right (by omega)]

theorem sorted_eq_range_one (l : List Nat) (m : Nat) (hs : l.Pairwise (· < ·))
    (hm : ∀ i, i ∈ l ↔ 1 ≤ i ∧ i ≤ m) : l = List.range' 1 m := by
  apply List.eq_of_perm_of_sorted (r := (· ≤ ·)) _ (hs.imp Nat.le_of_lt)
    ((List.pairwise_lt_range' 1 m).imp Nat.le_of_lt)
  rw [List.perm_ext_iff_of_nodup hs.nodup (List.pairwise_lt_range' 1 m).nodup]
  intro i
  rw [hm, List.mem_range'_1]
  omega

theorem rotate_exact (name : Str) (hn : ordinaryName name = true) (fs : FS) (hwf : fs.WF)
    (r size : Nat) (hr : r ≠ 0) (ino : Inode)
    (hmain : stat fs name = some ino) (hreg : ino.st_mode &&& S_IFREG ≠ 0)
    (hdue : size ≤ ino.st_size) (k : Nat) (hk : k ≤ 99)
    (hin : ∀ i, 1 ≤ i → i ≤ k →
      ∃ t, stat fs (make_fn name i) = some t ∧ S_ISDIR t.st_mode = false)
    (hout : ∀ i, i < 100 → ¬(1 ≤ i ∧ i ≤ k) → stat fs (make_fn name i) = none)
    (h100 : ∀ t, stat fs (make_fn name 100) = some t → S_ISDIR t.st_mode = false) :
    ∃ fs3, rotate ⟨name, r, size⟩ fs = .returns fs3 ∧ fs3.WF ∧ stat fs3 name = none ∧
      (∀ i, i < 100 →
        ((stat fs3 (make_fn name i)).isSome = true ↔ 1 ≤ i ∧ i ≤ min r (min (k + 1) 99))) ∧
      stat fs3 (make_fn name 1) = some ino ∧
      (∀ i, 1 ≤ i → i + 1 ≤ min r (min (k + 1) 99) →
        stat fs3 (make_fn name (i + 1)) = stat fs (make_fn name i)) ∧
      (∀ t, stat fs3 (make_fn name 100) = some t → S_ISDIR t.st_mode = false) ∧
      (∀ p, simplePath p → p ≠ name → (∀ i, i < 101 → p ≠ make_fn name i) →
        stat fs3 p = stat fs p) := by
  have hnd : ∀ i, i < 100 → ∀ t, stat fs (make_fn name i) = some t → S_ISDIR t.st_mode = false := by
    intro i hi t ht
    by_cases h : 1 ≤ i ∧ i ≤ k
    · obtain ⟨t2, ht2, hd⟩ := hin i h.1 h.2
      rw [ht2] at ht; cases ht; exact hd
    · rw [hout i hi h] at ht; cases ht
  obtain ⟨g, fs2, fs3, hg, hpres, hnext, hwf2, hname2, hone2, hshift2, hrest2, hrot, hwf3, hstat3⟩ :=
    rotate_ordinary name hn fs hwf r size hr ino hmain hreg hdue hnd (fun _ => h100)
  have hgk : g = k := by
    rcases Nat.lt_trichotomy g k with h | h | h
    · have h1 := hnext (by omega)
      obtain ⟨t, ht, _⟩ := hin (g + 1) (by omega) (by omega)
      rw [h1] at ht; cases ht
    · exact h
    · have h1 := hpres (k + 1) (by omega) (by omega)
      rw [hout (k + 1) (by omega) (by omega)] at h1
      cases h1
  subst hgk
  have hsn := simplePath_name name hn
  -- the backups after the cascade
  have hp2 : present fs2 name = List.range' 1 (min (g + 1) 99) := by
    apply sorted_eq_range_one _ _ (present_sorted fs2 name)
    intro i
    rw [mem_present]
    constructor
    · rintro ⟨hi, hsome⟩
      by_contra hc
      have hi0 : i = 0 ∨ g + 1 < i := by omega
      rw [hrest2 _ (simplePath_make_fn name hn i (by omega)) (make_fn_ne_name name i)
        (fun j h1 h2 e => by
          have := make_fn_inj name _ _ (by omega) (by omega) e; omega),
        hout i hi (by omega)] at hsome
      cases hsome
    · rintro ⟨h1, h2⟩
      refine ⟨by omega, ?_⟩
      by_cases e1 : i = 1
      · subst e1; rw [hone2]; rfl
      · have := hshift2 (i - 1) (by omega) (by omega)
        have e3 : i - 1 + 1 = i := by omega
        rw [e3] at this
        rw [this]
        obtain ⟨t, ht, _⟩ := hin (i - 1) (by omega) (by omega)
        rw [ht]; rfl
  have hp3 : present fs3 name = List.range' 1 (min r (min (g + 1) 99)) := by
    rw [present_pruned name hn fs2 fs3 r hstat3, hp2, take_range_one]
  have hkeep : ∀ i, i < 101 → (i < 100 → 1 ≤ i ∧ i ≤ min r (min (g + 1) 99)) →
      stat fs3 (make_fn name i) = stat fs2 (make_fn name i) := by
    intro i hi h
    rw [hstat3 _ (simplePath_make_fn name hn i hi), if_neg]
    rw [hp2, ← List.map_drop, List.mem_map]
    rintro ⟨j, hj, e⟩
    have hj1 := List.mem_range'_1.mp (List.mem_of_mem_drop hj)
    have := make_fn_inj name j i (by omega) hi e
    subst this
    have hj3 : j ∈ present fs3 name := by
      rw [hp3, List.mem_range'_1]; have := h (by omega); omega
    rw [present_pruned name hn fs2 fs3 r hstat3, hp2] at hj3
    have hnd2 : (List.range' 1 (min (g + 1) 99)).Nodup := (List.pairwise_lt_range' 1 _).nodup
    rw [← List.take_append_drop r (List.range' 1 (min (g + 1) 99))] at hnd2
    exact (List.nodup_append.mp hnd2).2.2 hj3 hj
  refine ⟨fs3, hrot, hwf3, ?_, ?_, ?_, ?_, ?_, ?_⟩
  · rw [hstat3 name hsn, if_neg, hname2]
    rw [List.mem_drop_iff_getElem]
    rintro ⟨j, hj, e⟩
    rw [List.getElem_map] at e
    exact make_fn_ne_name name _ e
  · intro i hi
    have := mem_present fs3 name i
    rw [hp3, List.mem_range'_1] at this
    constructor
    · intro h; have := this.mpr ⟨hi, h⟩; omega
    · intro h; exact (this.mp (by omega)).2
  · rw [hkeep 1 (by omega) (fun _ => by omega), hone2]
  · intro i h1 h2
    rw [hkeep (i + 1) (by omega) (fun _ => by omega)]
    exact hshift2 i h1 (by omega)
  · intro t ht
    rw [hkeep 100 (by omega) (fun h => by omega)] at ht
    by_cases e : g = 99
    · subst e
      rw [hshift2 99 (by omega) le_rfl] at ht
      exact hnd 99 (by omega) t ht
    · rw [hrest2 _ (simplePath_make_fn name hn 100 (by omega)) (make_fn_ne_name name _)
        (fun j h1 h2 e => by
          have := make_fn_inj name _ _ (by omega) (by omega) e; omega)] at ht
      exact h100 t ht
  · intro p hp h1 h2
    rw [hstat3 p hp, if_neg, hrest2 p hp h1 (fun i _ _ => h2 i (by omega))]
    rw [← List.map_drop, List.mem_map]
    rintro ⟨j, hj, e⟩
    have hj2 := ((mem_present fs2 name j).mp (List.mem_of_mem_drop hj)).1
    exact h2 j (by omega) e.symm

theorem two_digits_eq : ∀ i, i < 100 → setw_fill0 2 i = two_digits i := by decide!

theorem Except_bind_error {α β : Type} (e : Exn) (f : α → Except Exn β) :
    ((Except.error e : Except Exn α) >>= f) = Except.error e := rfl

theorem fileAt_iff (fs : FS) (p : Str) :
    fileAt fs p = true ↔ ∃ t, stat fs p = some t ∧ S_ISDIR t.st_mode = false := by
  unfold fileAt
  cases stat fs p <;> simp

theorem noDirAt_iff (fs : FS) (p : Str) :
    noDirAt fs p = true ↔ ∀ t, stat fs p = some t → S_ISDIR t.st_mode = false := by
  unfold noDirAt
  cases stat fs p <;> simp

theorem main_of_fexists (fs : FS) (name : Str) (hn : ordinaryName name = true)
    (h : (Filez.fexists fs name).1 = true) :
    ∃ ino, stat fs name = some ino ∧ ino.st_mode &&& S_IFREG ≠ 0 ∧
      (Filez.fexists fs name).2 = ino := by
  have := fexists_true fs name h
  rwa [c_str_eq name (simplePath_name name hn).2.2.2] at this

theorem head_of_sorted (l : List Nat) (hs : l.Pairwise (· < ·)) (h0 : 0 ∉ l) (h1 : 1 ∈ l) :
    ∃ rest, l = 1 :: rest := by
  cases l with
  | nil => cases h1
  | cons x rest =>
    have hx : x ≠ 0 := fun e => h0 (e ▸ List.mem_cons_self _ _)
    rcases List.mem_cons.mp h1 with e | e
    · exact ⟨rest, by rw [e]⟩
    · have := (List.pairwise_cons.mp hs).1 1 e
      omega

/-! ## A run of rotations -/

theorem rotations_cons (cfg : Config) (data : Str) (rest : List Str) (fs fs2 : FS)
    (h : rotate cfg (write_main fs cfg.filename data) = .returns fs2) :
    rotations cfg (data :: rest) fs = rotations cfg rest fs2 := by
  rw [rotations, h]

theorem filter_key_ne (fs : FS) (k : Key) :
    fs.filter (fun e => !(e.1 == k)) = fs.filter (fun e => !(e.1 == k) && !(e.1 == k)) := by
  congr 1
  funext e
  rw [Bool.and_self]

theorem WF_write_main (fs : FS) (hwf : fs.WF) (name data : Str) : (write_main fs name data).WF := by
  unfold write_main FS.WF
  rw [List.map_cons, List.nodup_cons, filter_key_ne]
  exact ⟨not_mem_keys_filter fs _ _, WF_filter fs hwf _⟩

theorem stat_write_main (fs : FS) (name data p : Str) (hn : simplePath name) (hp : simplePath p) :
    stat (write_main fs name data) p =
      if p = name then some ⟨S_IFREG ||| 0o644, data⟩ else stat fs p := by
  unfold write_main
  rw [filter_key_ne, c_str_eq name hn.2.2.2, pathKey_simple name hn, stat_simple _ p hp,
    stat_simple _ p hp, List.lookup_cons, lookup_filter_ne]
  by_cases e : p = name
  · subst e; simp
  · have : ((false, [p]) == ((false, [name]) : Key)) = false := by simpa using e
    rw [this]
    simp [e]

theorem backups_hold_step (name : Str) (hn : ordinaryName name = true) (r size : Nat)
    (hr1 : 1 ≤ r) (hr2 : r < 100) (fs : FS) (hist : List Str)
    (hinv : backups_hold fs name r hist) (c : Str) (hc : size ≤ c.length) :
    ∃ fs2, rotate ⟨name, r, size⟩ (write_main fs name c) = .returns fs2 ∧
      backups_hold fs2 name r (c :: hist) := by
  obtain ⟨hwf, hpres, hcont, h100⟩ := hinv
  have hsn := simplePath_name name hn
  have hw : ∀ i, i < 101 →
      stat (write_main fs name c) (make_fn name i) = stat fs (make_fn name i) := by
    intro i hi
    rw [stat_write_main fs name c _ hsn (simplePath_make_fn name hn i hi),
      if_neg (make_fn_ne_name name i)]
  have hmain : stat (write_main fs name c) name = some ⟨S_IFREG ||| 0o644, c⟩ := by
    rw [stat_write_main fs name c _ hsn hsn, if_pos rfl]
  have hreg : (⟨S_IFREG ||| 0o644, c⟩ : Inode).st_mode &&& S_IFREG ≠ 0 := by
    show (S_IFREG ||| 0o644) &&& S_IFREG ≠ 0
    decide
  have hdir : S_ISDIR (⟨S_IFREG ||| 0o644, c⟩ : Inode).st_mode = false := by
    show S_ISDIR (S_IFREG ||| 0o644) = false
    decide
  obtain ⟨fs3, h1, h2, _, h4, h5, h6, h7, _⟩ := rotate_exact name hn (write_main fs name c)
    (WF_write_main fs hwf name c) r size (by omega) ⟨S_IFREG ||| 0o644, c⟩ hmain hreg hc
    (min hist.length r) (by omega)
    (fun i a b => by
      obtain ⟨t, ht, hd, _⟩ := hcont i a b
      exact ⟨t, by rw [hw i (by omega), ht], hd⟩)
    (fun i a b => by
      rw [hw i (by omega)]
      cases hs : stat fs (make_fn name i) with
      | none => rfl
      | some t => exact absurd ((hpres i a).mp (by rw [hs]; rfl)) b)
    (fun t ht => by rw [hw 100 (by omega)] at ht; exact h100 t ht)
  have hmin : min r (min (min hist.length r + 1) 99) = min (c :: hist).length r := by
    simp only [List.length_cons]; omega
  rw [hmin] at h4 h6
  refine ⟨fs3, h1, h2, h4, ?_, h7⟩
  intro i a b
  by_cases e : i = 1
  · subst e
    exact ⟨_, h5, hdir, by simp⟩
  · obtain ⟨j, rfl⟩ : ∃ j, i = j + 1 := ⟨i - 1, by omega⟩
    have hb : j ≤ min hist.length r := by simp only [List.length_cons] at b; omega
    obtain ⟨t, ht, hd, hh⟩ := hcont j (by omega) hb
    refine ⟨t, by rw [h6 j (by omega) b, hw j (by omega), ht], hd, ?_⟩
    obtain ⟨m, rfl⟩ : ∃ m, j = m + 1 := ⟨j - 1, by omega⟩
    simpa using hh

theorem backups_hold_run (name : Str) (hn : ordinaryName name = true) (r size : Nat)
    (hr1 : 1 ≤ r) (hr2 : r < 100) :
    ∀ (contents : List Str) (fs : FS) (hist : List Str), backups_hold fs name r hist →
      (∀ c ∈ contents, size ≤ c.length) →
      ∃ fs2, rotations ⟨name, r, size⟩ contents fs = some fs2 ∧
        backups_hold fs2 name r (contents.reverse ++ hist) := by
  intro contents
  induction contents with
  | nil => intro fs hist h _; exact ⟨fs, rfl, by simpa using h⟩
  | cons c rest ih =>
    intro fs hist h hc
    obtain ⟨fs1, h1, h2⟩ := backups_hold_step name hn r size hr1 hr2 fs hist h c
      (hc c (List.mem_cons_self _ _))
    obtain ⟨fs2, h3, h4⟩ := ih fs1 (c :: hist) h2 (fun d hd => hc d (List.mem_cons_of_mem _ hd))
    refine ⟨fs2, ?_, ?_⟩
    · rw [rotations_cons ⟨name, r, size⟩ c rest fs fs1 h1, h3]
    · rw [List.reverse_cons, List.append_assoc]
      exact h4

/-! ## Base paths with a directory part -/

theorem splitSlash_append (p sfx : Str) (h : '/' ∉ sfx) :
    ∃ init last, splitSlash p = init ++ [last] ∧ splitSlash (p ++ sfx) = init ++ [last ++ sfx] := by
  induction p with
  | nil => exact ⟨[], [], rfl, by simpa using splitSlash_eq sfx h⟩
  | cons c cs ih =>
    obtain ⟨init, last, h1, h2⟩ := ih
    by_cases hc : c = '/'
    · refine ⟨[] :: init, last, ?_, ?_⟩
      · simp [splitSlash, hc, h1]
      · simp [splitSlash, hc, h2]
    · cases init with
      | nil =>
        refine ⟨[], c :: last, ?_, ?_⟩
        · simp [splitSlash, hc, h1]
        · simp [splitSlash, hc, h2]
      | cons h0 t0 =>
        refine ⟨(c :: h0) :: t0, last, ?_, ?_⟩
        · simp [splitSlash, hc, h1]
        · simp [splitSlash, hc, h2]

theorem pathKey_suffix (name : Str) (h0 : name ≠ []) (hnd : needsDir name = false) :
    ∃ a I l, pathKey name = (a, I ++ [l]) ∧
      ∀ sfx, sfx ≠ [] → '/' ∉ sfx →
        pathKey (name ++ sfx) = (a, I ++ [l ++ sfx]) ∧ needsDir (name ++ sfx) = false ∧
          l ++ sfx ≠ l := by
  obtain ⟨init, last, h1, _⟩ := splitSlash_append name [] (by simp)
  have hl : last ≠ [] ∧ last ≠ ['.'] := by
    unfold needsDir at hnd
    rw [h1] at hnd
    simpa using hnd
  refine ⟨name.head? == some '/',
    init.filter (fun c => !(c == []) && !(c == ['.'])), last, ?_, ?_⟩
  · unfold pathKey
    rw [h1]
    simp [hl.1, hl.2]
  · intro sfx hs1 hs2
    obtain ⟨init2, last2, h3, h4⟩ := splitSlash_append name sfx hs2
    rw [h1] at h3
    obtain ⟨e1, e2⟩ := List.append_inj' h3 rfl
    simp only [List.cons.injEq, and_true] at e2
    subst e1 e2
    have hne : last ++ sfx ≠ [] := by simp [hs1]
    have hne2 : last ++ sfx ≠ ['.'] := by
      intro e
      have := congrArg List.length e
      have a1 : 0 < last.length := List.length_pos.mpr hl.1
      have a2 : 0 < sfx.length := List.length_pos.mpr hs1
      simp at this
      omega
    refine ⟨?_, ?_, ?_⟩
    · unfold pathKey
      rw [h4]
      have hh : (name ++ sfx).head? = name.head? := by
        cases name with
        | nil => exact absurd rfl h0
        | cons c cs => rfl
      rw [hh]
      simp [hne, hne2]
    · unfold needsDir
      rw [h4]
      simp [hne, hne2]
    · intro e
      exact hs1 (by simpa using e)

theorem splitSlash_ne_nil (p : Str) : splitSlash p ≠ [] := by
  cases p with
  | nil => simp [splitSlash]
  | cons c cs =>
    by_cases hc : c = '/'
    · simp [splitSlash, hc]
    · cases hs : splitSlash cs <;> simp [splitSlash, hc, hs]

theorem splitSlash_slash (p : Str) : splitSlash (p ++ ['/']) = splitSlash p ++ [[]] := by
  induction p with
  | nil => rfl
  | cons c cs ih =>
    by_cases hc : c = '/'
    · simp [splitSlash, hc, ih]
    · cases hs : splitSlash cs with
      | nil => exact absurd hs (splitSlash_ne_nil cs)
      | cons h0 t0 => simp [splitSlash, hc, ih, hs]

theorem needsDir_of_trailing_slash (name : Str) (h : name.getLast? = some '/') :
    needsDir name = true := by
  have e := List.dropLast_append_getLast? '/' h
  rw [← e]
  unfold needsDir
  rw [splitSlash_slash]
  simp

theorem stat_some (fs : FS) (p : Str) (ino : Inode) (h : stat fs p = some ino) :
    p ≠ [] ∧ node fs (pathKey p) = some ino ∧ dirAt fs (parentKey (pathKey p)) = true ∧
      (needsDir p = true → S_ISDIR ino.st_mode = true) := by
  unfold stat at h
  by_cases h0 : p = []
  · rw [if_pos h0] at h; cases h
  · rw [if_neg h0] at h
    cases hn : node fs (pathKey p) with
    | none => rw [hn] at h; cases h
    | some t =>
      rw [hn] at h
      simp only at h
      split at h
      · cases h
      · rename_i hc
        cases h
        simp only [Bool.or_eq_true, Bool.not_eq_true', Bool.and_eq_true, not_or, not_and,
          Bool.not_eq_false] at hc
        exact ⟨h0, rfl, by simpa using hc.1, hc.2⟩

theorem stat_congr (fs fs2 : FS) (p : Str)
    (h1 : node fs2 (pathKey p) = node fs (pathKey p))
    (h2 : dirAt fs2 (parentKey (pathKey p)) = dirAt fs (parentKey (pathKey p))) :
    stat fs2 p = stat fs p := by
  unfold stat
  rw [h1, h2]

theorem node_put (fs : FS) (ka kb : Key) (ino : Inode) (K : Key) :
    node ((kb, ino) :: fs.filter (fun e => !(e.1 == ka) && !(e.1 == kb))) K =
      if K.2 = [] then some ⟨S_IFDIR ||| 0o755, []⟩
      else if K = kb then some ino else if K = ka then none else fs.lookup K := by
  unfold node
  by_cases h0 : K.2 = []
  · rw [if_pos h0, if_pos h0]
  · rw [if_neg h0, if_neg h0, List.lookup_cons, lookup_filter_ne]
    by_cases h1 : K = kb
    · subst h1; simp
    · have : (K == kb) = false := by simpa using h1
      rw [this]
      by_cases h2 : K = ka
      · subst h2; simp [h1]
      · simp [h1, h2]

theorem rename_cases (fs : FS) (a b : Str) :
    rename fs a b = fs ∨
      ∃ ino, stat fs a = some ino ∧ S_ISDIR ino.st_mode = false ∧
        dirAt fs (pathKey b) = false ∧
        rename fs a b = (pathKey b, ino) ::
          fs.filter (fun e => !(e.1 == pathKey a) && !(e.1 == pathKey b)) := by
  unfold rename
  cases hs : stat fs a with
  | none => exact Or.inl rfl
  | some ino =>
    simp only
    split
    · exact Or.inl rfl
    · rename_i hc
      simp only [Bool.or_eq_true, not_or, Bool.not_eq_true, Bool.not_eq_true',
        Bool.not_eq_false] at hc
      exact Or.inr ⟨ino, rfl, hc.1.1.1.1, hc.2, rfl⟩

theorem node_rename_other (fs : FS) (a b : Str) (K : Key) (h1 : K ≠ pathKey a)
    (h2 : K ≠ pathKey b) : node (rename fs a b) K = node fs K := by
  rcases rename_cases fs a b with h | ⟨ino, _, _, _, h⟩
  · rw [h]
  · rw [h, node_put]
    unfold node
    by_cases h0 : K.2 = []
    · rw [if_pos h0, if_pos h0]
    · rw [if_neg h0, if_neg h0, if_neg h2, if_neg h1]

theorem dirAt_rename (fs : FS) (a b : Str) (K : Key) :
    dirAt (rename fs a b) K = dirAt fs K := by
  rcases rename_cases fs a b with h | ⟨ino, hs, hd, ht, h⟩
  · rw [h]
  · by_cases h2 : K = pathKey b
    · subst h2
      rw [ht]
      unfold dirAt
      rw [h, node_put]
      by_cases h0 : (pathKey b).2 = []
      · exfalso
        unfold dirAt node at ht
        rw [if_pos h0] at ht
        revert ht; decide
      · rw [if_neg h0, if_pos rfl]; exact hd
    · by_cases h1 : K = pathKey a
      · subst h1
        obtain ⟨_, hn, _, _⟩ := stat_some fs a ino hs
        unfold dirAt
        rw [hn, h, node_put]
        by_cases h0 : (pathKey a).2 = []
        · exfalso
          unfold node at hn
          rw [if_pos h0] at hn
          cases hn
          revert hd; decide
        · rw [if_neg h0, if_neg h2, if_pos rfl]; exact hd.symm
      · unfold dirAt
        rw [node_rename_other fs a b K h1 h2]

theorem stat_rename_other (fs : FS) (a b p : Str) (h1 : pathKey p ≠ pathKey a)
    (h2 : pathKey p ≠ pathKey b) : stat (rename fs a b) p = stat fs p :=
  stat_congr fs _ p (node_rename_other fs a b _ h1 h2) (dirAt_rename fs a b _)

theorem stat_rename_source (fs : FS) (a b : Str) (ino : Inode) (h : stat fs a = some ino)
    (hd : S_ISDIR ino.st_mode = false) (hb : b ≠ []) (hbn : needsDir b = false)
    (hp : dirAt fs (parentKey (pathKey b)) = true) (ht : dirAt fs (pathKey b) = false)
    (hne : pathKey a ≠ pathKey b) : stat (rename fs a b) a = none := by
  obtain ⟨_, hn, _, _⟩ := stat_some fs a ino h
  have h0 : (pathKey a).2 ≠ [] := by
    intro h0
    unfold node at hn
    rw [if_pos h0] at hn
    cases hn
    revert hd; decide
  have hr : rename fs a b = (pathKey b, ino) ::
      fs.filter (fun e => !(e.1 == pathKey a) && !(e.1 == pathKey b)) := by
    have hb2 : (b == []) = false := by simpa using hb
    unfold rename
    rw [h]
    simp only [hd, hb2, hbn, hp, ht, Bool.or_self, Bool.not_true, Bool.false_eq_true, if_false]
  unfold stat
  rw [hr, node_put, if_neg h0, if_neg hne, if_pos rfl]
  split <;> rfl

theorem node_remove_some (fs : FS) (q : Str) (K : Key) (x : Inode)
    (h : node (remove fs q) K = some x) : node fs K = some x := by
  unfold remove at h
  cases hs : stat fs q with
  | none => rw [hs] at h; exact h
  | some t =>
    rw [hs] at h
    simp only at h
    split at h
    · exact h
    · unfold node at h ⊢
      by_cases h0 : K.2 = []
      · rw [if_pos h0] at h ⊢; exact h
      · rw [if_neg h0] at h ⊢
        have := lookup_filter_ne fs (pathKey q) (pathKey q) K
        simp only [Bool.and_self, or_self] at this
        rw [this] at h
        by_cases e : K = pathKey q
        · rw [if_pos e] at h; cases h
        · rw [if_neg e] at h; exact h

theorem stat_remove_none (fs : FS) (q p : Str) (h : stat fs p = none) :
    stat (remove fs q) p = none := by
  cases hs : stat (remove fs q) p with
  | none => rfl
  | some x =>
    exfalso
    obtain ⟨h0, h1, h2, h3⟩ := stat_some _ p x hs
    have h1b := node_remove_some fs q _ x h1
    have h2b : dirAt fs (parentKey (pathKey p)) = true := by
      unfold dirAt at h2 ⊢
      cases hn : node (remove fs q) (parentKey (pathKey p)) with
      | none => rw [hn] at h2; cases h2
      | some y =>
        rw [hn] at h2
        rw [node_remove_some fs q _ y hn]
        exact h2
    unfold stat at h
    rw [if_neg h0, h1b] at h
    simp only [h2b, Bool.not_true, Bool.false_or] at h
    split at h
    · rename_i hc
      simp only [Bool.and_eq_true, Bool.not_eq_true'] at hc
      rw [h3 hc.1] at hc
      cases hc.2
    · cases h

theorem prune_loop_none (r : Nat) (p : Str) :
    ∀ (n : Nat) (L : List Str) (fs : FS), stat fs p = none →
      stat (prune_loop r n L fs).1 p = none := by
  intro n
  induction n with
  | zero => intro L fs h; exact h
  | succ n ih =>
    intro L fs h
    unfold prune_loop
    split
    · cases L.getLast? with
      | none => exact h
      | some back => exact ih _ _ (stat_remove_none fs _ p h)
    · exact h

/-! ## The inventory of a base path without pattern characters -/

theorem fnmatch_of_mem_directory_list (fs : FS) (path mask e : Str) (Filter : Nat)
    (hm : mask ≠ []) (h : e ∈ Filez.directory_list fs path Filter mask) :
    fnmatch (c_str mask) e = 0 := by
  unfold Filez.directory_list at h
  split at h
  · cases hr : readdir fs (c_str path) with
    | none => rw [hr] at h; cases h
    | some ents =>
      rw [hr] at h
      simp only [List.mem_map, List.mem_filter] at h
      obtain ⟨d, ⟨_, hl⟩, rfl⟩ := h
      unfold Filez.listed at hl
      have hm2 : (mask == []) = false := by simpa using hm
      by_cases hf : fnmatch (c_str mask) d.d_name = 0
      · exact hf
      · have hf2 : (fnmatch (c_str mask) d.d_name != 0) = true := by simpa using hf
        simp [hm2, hf2] at hl
  · cases h

theorem basename_r_ok (name : Str) : ∃ b, Filez.basename_r name = .ok b := by
  unfold Filez.basename_r
  split
  · exact ⟨_, rfl⟩
  · split
    · exact ⟨_, rfl⟩
    · simp only
      split
      · exact ⟨_, rfl⟩
      · unfold substr
        rw [if_neg]
        · exact ⟨_, rfl⟩
        · unfold find_last_of size_t
          split
          · have := Nat.mod_le ((pop_trailing_slashes name).length - 1 -
              List.indexOf '/' (pop_trailing_slashes name).reverse + 1) 18446744073709551616
            have hpos : 0 < (pop_trailing_slashes name).length := by
              rename_i hmem
              exact List.length_pos_of_mem hmem
            omega
          · simp [npos]

theorem pop_trailing_slashes_id (name : Str) (h : name.getLast? ≠ some '/') :
    pop_trailing_slashes name = name := by
  unfold pop_trailing_slashes
  cases hr : name.reverse with
  | nil => simp at hr; subst hr; rfl
  | cons c cs =>
    have hc : c ≠ '/' := by
      rintro rfl
      apply h
      rw [← List.reverse_reverse name, hr]
      simp
    rw [List.dropWhile_cons_of_neg (by simpa using hc), ← hr, List.reverse_reverse]

theorem dirname_r_ok (name : Str) (h : name.getLast? ≠ some '/') :
    ∃ d, Filez.dirname_r name = .ok d := by
  unfold Filez.dirname_r
  split
  · exact ⟨_, rfl⟩
  · rename_i hc
    simp only [not_or] at hc
    rw [pop_trailing_slashes_id name h]
    simp only
    rw [if_neg hc.1]
    unfold erase
    rw [if_neg]
    · exact ⟨_, rfl⟩
    · have hmem : '/' ∈ name := by
        by_contra hm
        exact hc.2 (by simp [find_first_of, hm])
      unfold find_last_of
      rw [if_pos hmem]
      omega

theorem set_counts_fields (info info2 : rotation_info) (h : set_counts info = .ok info2) :
    info2.main = info.main ∧ info2.current_log_size = info.current_log_size ∧
      info2.rotation_file_list = info.rotation_file_list := by
  unfold set_counts at h
  cases hb : info.rotation_file_list.getLast? with
  | none => rw [hb] at h; cases h; exact ⟨rfl, rfl, rfl⟩
  | some back =>
    cases hf : info.rotation_file_list.head? with
    | none => rw [hb, hf] at h; cases h; exact ⟨rfl, rfl, rfl⟩
    | some front =>
      rw [hb, hf] at h
      simp only at h
      cases h1 : parse_count back with
      | error e => rw [h1, Except_bind_error] at h; cases h
      | ok v =>
        rw [h1, Except_bind_ok] at h
        cases h2 : parse_count front with
        | error e => rw [h2, Except_bind_error] at h; cases h
        | ok w =>
          rw [h2, Except_bind_ok] at h
          cases h
          exact ⟨rfl, rfl, rfl⟩

theorem get_rotation_info_fields (fs : FS) (name : Str) (info : rotation_info)
    (h : get_rotation_info fs name = .ok info) :
    info.main = (if (Filez.fexists fs name).1 then name else []) ∧
      info.current_log_size =
        (if (Filez.fexists fs name).1 then (Filez.fexists fs name).2.st_size else 0) := by
  unfold get_rotation_info at h
  cases h1 : Filez.dirname_r name with
  | error e => rw [h1, Except_bind_error] at h; cases h
  | ok d =>
    rw [h1, Except_bind_ok] at h
    cases h2 : Filez.basename_r name with
    | error e => rw [h2, Except_bind_error] at h; cases h
    | ok b =>
      rw [h2, Except_bind_ok] at h
      obtain ⟨a1, a2, _⟩ := set_counts_fields _ _ h
      exact ⟨a1, a2⟩

theorem patternFree_iff (name : Str) :
    patternFree name = true ↔
      (∀ c ∈ name, c ≠ Char.ofNat 0 ∧ isGlobMeta c = false) ∧
        name.length + 3 < 18446744073709551616 := by
  simp [patternFree]

theorem get_rotation_info_patternFree (fs : FS) (name : Str) (hpf : patternFree name = true)
    (hs : name.getLast? ≠ some '/') :
    ∃ info, get_rotation_info fs name = .ok info ∧
      ∀ e ∈ info.rotation_file_list, ∃ i, i < 100 ∧ e = make_fn name i := by
  obtain ⟨hc, hlen⟩ := (patternFree_iff name).mp hpf
  obtain ⟨d, hd⟩ := dirname_r_ok name hs
  obtain ⟨b, hb⟩ := basename_r_ok name
  have hcw : c_str (wild name) = wild name := by
    apply c_str_eq
    rw [wild_eq]
    intro h
    rcases List.mem_append.mp h with h | h
    · exact (hc _ h).1 rfl
    · revert h; decide
  have hmem : ∀ e ∈ std_sort (Filez.directory_list fs d Filez.LT_Files (wild name)),
      ∃ i, i < 100 ∧ e = make_fn name i := by
    intro e he
    rw [mem_std_sort] at he
    have := fnmatch_of_mem_directory_list fs d (wild name) e _ (wild_ne_nil name) he
    rw [hcw] at this
    exact (fnmatch_wild_iff name e (fun c h => (hc c h).2)).mp this
  obtain ⟨info, h1, _, _, h4⟩ := set_counts_ok
    { rotation_info.reset with
      main := if (Filez.fexists fs name).1 then name else [],
      current_log_size :=
        if (Filez.fexists fs name).1 then (Filez.fexists fs name).2.st_size else 0,
      rotation_file_list := std_sort (Filez.directory_list fs d Filez.LT_Files (wild name)) }
    (fun e he => by
      obtain ⟨i, hi, rfl⟩ := hmem e he
      exact ⟨i, parse_count_make_fn name hlen i hi⟩)
  refine ⟨info, ?_, ?_⟩
  · unfold get_rotation_info
    rw [hd, Except_bind_ok, hb, Except_bind_ok]
    exact h1
  · intro e he
    rw [h4] at he
    exact hmem e he

theorem do_rotation_general (name : Str) (info : rotation_info) (hmain : info.main = name)
    (hL : ∀ e ∈ info.rotation_file_list, ∃ i, i < 100 ∧ e = make_fn name i) (P : FS → Prop)
    (hP : ∀ fs i, 1 ≤ i → i < 100 → P fs →
      P (rename fs (c_str (make_fn name i)) (c_str (make_fn name (i + 1))))) :
    ∀ (n f depth : Nat) (fs : FS), f + n = 100 → n < depth → 1 ≤ f → P fs →
      ∃ fs2, do_rotation info depth f (f + 1) fs = some fs2 ∧ P fs2 := by
  intro n
  induction n with
  | zero =>
    intro f depth fs hf hd _ hp
    obtain ⟨d, rfl⟩ : ∃ d, depth = d + 1 := ⟨depth - 1, by omega⟩
    have : f = 100 := by omega
    subst this
    refine ⟨fs, do_rotation_unlisted info d 100 _ fs ?_, hp⟩
    rw [hmain]
    intro h
    obtain ⟨i, hi, e⟩ := hL _ h
    have := make_fn_inj name 100 i (by omega) (by omega) e
    omega
  | succ n ih =>
    intro f depth fs hf hd h1 hp
    obtain ⟨d, rfl⟩ : ∃ d, depth = d + 1 := ⟨depth - 1, by omega⟩
    unfold do_rotation
    rw [hmain]
    by_cases a : make_fn name f ∈ info.rotation_file_list
    · rw [if_neg (not_not.mpr a)]
      by_cases b : make_fn name (f + 1) ∈ info.rotation_file_list
      · rw [if_pos b, uint32_t_small _ (by omega)]
        obtain ⟨fs1, h2, h3⟩ := ih (f + 1) d fs (by omega) (by omega) (by omega) hp
        rw [h2]
        exact ⟨_, rfl, hP fs1 f h1 (by omega) h3⟩
      · rw [if_neg b]
        exact ⟨_, rfl, hP fs f h1 (by omega) hp⟩
    · rw [if_pos a]
      exact ⟨fs, rfl, hp⟩

theorem rotate_unchanged (name : Str) (fs : FS) (r size : Nat)
    (h : (Filez.fexists fs name).1 = false ∨
      (0 < size ∧ (Filez.fexists fs name).2.st_size < size)) :
    (rotate ⟨name, r, size⟩ fs).fs? = some fs := by
  by_cases hr : r = 0
  · rw [rotate_disabled _ fs (by exact hr)]; rfl
  · cases hi : get_rotation_info fs name with
    | error e => rw [rotate_throws ⟨name, r, size⟩ fs e hr hi]; rfl
    | ok info =>
      obtain ⟨h1, h2⟩ := get_rotation_info_fields fs name info hi
      rw [rotate_not_due ⟨name, r, size⟩ fs info hr hi]
      · rfl
      · cases hf : (Filez.fexists fs name).1 with
        | false => rw [hf] at h1; exact Or.inl (by simpa using h1)
        | true =>
          rw [hf] at h h2
          rcases h with h | h
          · cases h
          · simp only [if_true] at h2
            exact Or.inr ⟨h.1, by rw [h2]; exact h.2⟩

theorem rotate_main_gone (name : Str) (fs : FS) (r size : Nat) (hr : r ≠ 0)
    (hpf : patternFree name = true)
    (hmain : (Filez.fexists fs name).1 = true)
    (hdue : size ≤ (Filez.fexists fs name).2.st_size)
    (hnd : noDirAt fs (make_fn name 1) = true) :
    ∃ fs2, rotate ⟨name, r, size⟩ fs = .returns fs2 ∧ stat fs2 name = none := by
  obtain ⟨hc, hlen⟩ := (patternFree_iff name).mp hpf
  have hcs : c_str name = name := c_str_eq name (fun h => (hc _ h).1 rfl)
  obtain ⟨ino, hino, hreg, he⟩ := fexists_true fs name hmain
  rw [hcs] at hino
  rw [he] at hdue
  have hdir : S_ISDIR ino.st_mode = false := not_dir_of_IFREG _ hreg
  obtain ⟨h0, hnode, hpar, hneeds⟩ := stat_some fs name ino hino
  have hnd0 : needsDir name = false := by
    cases hx : needsDir name with
    | false => rfl
    | true => rw [hneeds hx] at hdir; cases hdir
  have hslash : name.getLast? ≠ some '/' := by
    intro hs
    rw [needsDir_of_trailing_slash name hs] at hnd0
    cases hnd0
  -- the locations of the backup names
  obtain ⟨a, I, l, hk, hsfx⟩ := pathKey_suffix name h0 hnd0
  have hsuf : ∀ i, i < 101 → ('.' :: setw_fill0 2 i : Str) ≠ [] ∧ '/' ∉ ('.' :: setw_fill0 2 i : Str) ∧
      Char.ofNat 0 ∉ ('.' :: setw_fill0 2 i : Str) := by
    intro i hi
    refine ⟨by simp, ?_, ?_⟩
    · intro h
      rcases List.mem_cons.mp h with h | h
      · revert h; decide
      · exact (ordinaryChar_ne _ (isDigit_ordinaryChar _ (setw_fill0_chars i hi _ h)).1).1 rfl
    · intro h
      rcases List.mem_cons.mp h with h | h
      · revert h; decide
      · exact (ordinaryChar_ne _ (isDigit_ordinaryChar _ (setw_fill0_chars i hi _ h)).1).2.1 rfl
  have hkey : ∀ i, i < 101 → pathKey (make_fn name i) = (a, I ++ [l ++ '.' :: setw_fill0 2 i]) := by
    intro i hi
    rw [make_fn_eq]
    exact (hsfx _ (hsuf i hi).1 (hsuf i hi).2.1).1
  have hcfn : ∀ i, i < 101 → c_str (make_fn name i) = make_fn name i := by
    intro i hi
    apply c_str_eq
    rw [make_fn_eq]
    intro h
    rcases List.mem_append.mp h with h | h
    · exact (hc _ h).1 rfl
    · exact (hsuf i hi).2.2 h
  have hkne : ∀ i, i < 101 → pathKey name ≠ pathKey (make_fn name i) := by
    intro i hi e
    rw [hk, hkey i hi] at e
    simp only [Prod.mk.injEq, true_and] at e
    have e2 := (List.append_inj' e rfl).2
    simp only [List.cons.injEq, and_true] at e2
    exact (hsfx _ (hsuf i hi).1 (hsuf i hi).2.1).2.2 e2.symm
  -- the first inventory
  obtain ⟨info, hinfo, hL⟩ := get_rotation_info_patternFree fs name hpf hslash
  obtain ⟨hm, hsz⟩ := get_rotation_info_fields fs name info hinfo
  rw [hmain] at hm hsz
  simp only [if_true] at hm hsz
  rw [he] at hsz
  -- the cascade leaves the main file and the directories alone
  obtain ⟨fs1, hrot, hmain1, hdirs⟩ := do_rotation_general name info hm hL
    (fun x => stat x name = some ino ∧ ∀ K, dirAt x K = dirAt fs K)
    (fun x i h1 h2 hx => by
      rw [hcfn i (by omega), hcfn (i + 1) (by omega)]
      refine ⟨?_, fun K => ?_⟩
      · rw [stat_rename_other x _ _ name (hkne i (by omega)) (hkne (i + 1) (by omega))]
        exact hx.1
      · rw [dirAt_rename, hx.2 K])
    99 1 do_rotation_depth fs (by omega) (by unfold do_rotation_depth; omega) le_rfl
    ⟨hino, fun _ => rfl⟩
  -- the rename of the main file
  have hpar1 : parentKey (pathKey (make_fn name 1)) = parentKey (pathKey name) := by
    rw [hkey 1 (by omega), hk]
    simp [parentKey]
  have htgt : dirAt fs (pathKey (make_fn name 1)) = false := by
    cases hx : dirAt fs (pathKey (make_fn name 1)) with
    | false => rfl
    | true =>
      exfalso
      unfold dirAt at hx
      cases hn1 : node fs (pathKey (make_fn name 1)) with
      | none => rw [hn1] at hx; cases hx
      | some t =>
        rw [hn1] at hx
        have hst : stat fs (make_fn name 1) = some t := by
          unfold stat
          rw [if_neg (by rw [make_fn_eq]; simp), hn1, hpar1, hpar]
          simp only [Bool.not_true, Bool.false_or]
          rw [make_fn_eq, (hsfx _ (hsuf 1 (by omega)).1 (hsuf 1 (by omega)).2.1).2.1]
          simp
        have := (noDirAt_iff _ _).mp hnd t hst
        simp only [this] at hx
        cases hx
  have hgone : stat (rename fs1 name (make_fn name 1)) name = none :=
    stat_rename_source fs1 name (make_fn name 1) ino hmain1 hdir (by rw [make_fn_eq]; simp)
      (by rw [make_fn_eq]; exact (hsfx _ (hsuf 1 (by omega)).1 (hsuf 1 (by omega)).2.1).2.1)
      (by rw [hdirs, hpar1]; exact hpar) (by rw [hdirs]; exact htgt) (hkne 1 (by omega))
  -- the second inventory and the pruning
  obtain ⟨info2, hinfo2, _⟩ :=
    get_rotation_info_patternFree (rename fs1 name (make_fn name 1)) name hpf hslash
  have := rotate_due ⟨name, r, size⟩ fs fs1 info info2 hr hinfo (by rw [hm]; exact h0)
    (by rw [hsz]; exact hdue) hrot (by rw [hm, hcs, hcfn 1 (by omega)]; exact hinfo2)
  rw [hm, hcs, hcfn 1 (by omega)] at this
  exact ⟨_, this, prune_loop_none r name _ _ _ hgone⟩

/-! ## Trailing separators -/

theorem pop_trailing_slashes_append (p : Str) (n : Nat) :
    pop_trailing_slashes (p ++ List.replicate n '/') = pop_trailing_slashes p := by
  unfold pop_trailing_slashes
  congr 1
  rw [List.reverse_append, List.reverse_replicate]
  induction n with
  | zero => rfl
  | succ k ih =>
    rw [List.replicate_succ, List.cons_append, List.dropWhile_cons_of_pos (by simp)]
    exact ih

theorem find_first_of_ne_npos (p : Str) (h : '/' ∈ p) (hl : p.length < npos) :
    find_first_of p '/' ≠ npos := by
  unfold find_first_of
  rw [if_pos h]
  have := List.indexOf_lt_length.2 h
  omega

theorem find_first_not_of_ne_npos (p : Str) (h : ∃ c ∈ p, c ≠ '/') (hl : p.length < npos) :
    find_first_not_of p '/' ≠ npos := by
  unfold find_first_not_of
  obtain ⟨c, hc, hne⟩ := h
  rw [if_neg (by
    intro hall
    rw [List.all_eq_true] at hall
    exact hne (by simpa using hall c hc))]
  have := (List.takeWhile_sublist (fun d => d == '/') (l := p)).length_le
  omega

/-- Where the stripping works: when the path still holds a separator after its trailing
separators are removed, appended separators do not change the result of `dirname_r`. -/
theorem dirname_r_append_slashes (p : Str) (n : Nat) (h : '/' ∈ pop_trailing_slashes p)
    (hl : p.length + n < npos) :
    Filez.dirname_r (p ++ List.replicate n '/') = Filez.dirname_r p := by
  have hp : '/' ∈ p := by
    unfold pop_trailing_slashes at h
    have h1 : '/' ∈ p.reverse.dropWhile (fun d => d == '/') := by simpa using h
    have h2 := (List.dropWhile_sublist (fun d => d == '/') (l := p.reverse)).subset h1
    simpa using h2
  have hq : '/' ∈ p ++ List.replicate n '/' := List.mem_append_left _ hp
  have e1 : ¬(p = [] ∨ find_first_of p '/' = npos) := by
    rintro (e | e)
    · subst e; simp at hp
    · exact find_first_of_ne_npos p hp (by omega) e
  have e2 : ¬(p ++ List.replicate n '/' = [] ∨
      find_first_of (p ++ List.replicate n '/') '/' = npos) := by
    rintro (e | e)
    · rw [e] at hq; simp at hq
    · exact find_first_of_ne_npos _ hq (by simp; omega) e
  unfold Filez.dirname_r
  rw [if_neg e1, if_neg e2]
  simp only [pop_trailing_slashes_append]

/-- Appended separators do not change the result of `basename_r`. -/
theorem basename_r_append_slashes (p : Str) (n : Nat) (h : ∃ c ∈ p, c ≠ '/')
    (hl : p.length + n < npos) :
    Filez.basename_r (p ++ List.replicate n '/') = Filez.basename_r p := by
  obtain ⟨c, hc, hne⟩ := h
  have e1 : p ≠ [] := by rintro rfl; simp at hc
  have e2 : p ++ List.replicate n '/' ≠ [] := by simp [e1]
  have e3 := find_first_not_of_ne_npos p ⟨c, hc, hne⟩ (by omega)
  have e4 := find_first_not_of_ne_npos (p ++ List.replicate n '/')
    ⟨c, List.mem_append_left _ hc, hne⟩ (by simp; omega)
  unfold Filez.basename_r
  rw [if_neg e1, if_neg e2, if_neg e3, if_neg e4]
  simp only [pop_trailing_slashes_append]

/-! ## The type queries -/

theorem fexists_of_regular (m : Nat) (h : S_ISREG m = true) : m &&& S_IFREG ≠ 0 := by
  have h1 : m &&& S_IFMT = S_IFREG := by simpa [S_ISREG] using h
  have h2 : S_IFREG = S_IFMT &&& S_IFREG := by decide
  rw [h2, ← Nat.land_assoc, h1]
  decide

theorem dexists_of_directory (m : Nat) (h : S_ISDIR m = true) : m &&& S_IFDIR ≠ 0 := by
  have h1 : m &&& S_IFMT = S_IFDIR := by simpa [S_ISDIR] using h
  have h2 : S_IFDIR = S_IFMT &&& S_IFDIR := by decide
  rw [h2, ← Nat.land_assoc, h1]
  decide

/-! ## The parent of an entry of the root directory -/

theorem dirname_r_root_entry (name : Str) (h0 : name ≠ []) (hs : '/' ∉ name) :
    Filez.dirname_r ('/' :: name) = .ok [] := by
  have h1 : find_first_of ('/' :: name) '/' ≠ npos := by
    simp [find_first_of, npos]
  have h2 : pop_trailing_slashes ('/' :: name) = '/' :: name := by
    apply pop_trailing_slashes_id
    cases name with
    | nil => exact absurd rfl h0
    | cons c cs =>
      rw [List.getLast?_cons_cons]
      intro h
      exact hs (List.mem_of_getLast?_eq_some h)
  have h3 : find_last_of ('/' :: name) '/' = 0 := by
    have hr : '/' ∉ name.reverse := by simpa using hs
    simp [find_last_of, List.indexOf_append_of_not_mem hr]
  unfold Filez.dirname_r
  rw [if_neg (by
    rintro (h | h)
    · cases h
    · exact h1 h)]
  simp only [h2, h3, erase]
  simp

/-! ## The indices of a sorted inventory -/
theorem exists_indices (name : Str) :
    ∀ L : List Str, (∀ e ∈ L, ∃ i, i < 100 ∧ e = make_fn name i) →
      ∃ J : List Nat, L = J.map (make_fn name) ∧ ∀ i ∈ J, i < 100 := by
  intro L
  induction L with
  | nil => intro _; exact ⟨[], rfl, by simp⟩
  | cons e es ih =>
    intro h
    obtain ⟨i, hi, rfl⟩ := h e (List.mem_cons_self _ _)
    obtain ⟨J, rfl, hJ⟩ := ih (fun x hx => h x (List.mem_cons_of_mem _ hx))
    refine ⟨i :: J, rfl, ?_⟩
    intro j hj
    rcases List.mem_cons.mp hj with rfl | hj
    · exact hi
    · exact hJ j hj

theorem sorted_indices (name : Str) (L : List Str)
    (hform : ∀ e ∈ L, ∃ i, i < 100 ∧ e = make_fn name i) (hnd : L.Nodup) :
    ∃ I : List Nat, std_sort L = I.map (make_fn name) ∧ I.Pairwise (· < ·) ∧
      (∀ i ∈ I, i < 100) ∧ I.length = L.length := by
  obtain ⟨J, rfl, hJ⟩ := exists_indices name L hform
  have hJnd : J.Nodup := List.Nodup.of_map _ hnd
  have hperm : (J.insertionSort (· ≤ ·)).Perm J := List.perm_insertionSort _ _
  have hsorted : (J.insertionSort (· ≤ ·)).Sorted (· ≤ ·) := List.sorted_insertionSort _ _
  have hlt : (J.insertionSort (· ≤ ·)).Pairwise (· < ·) :=
    (hsorted.lt_of_le (hperm.nodup_iff.mpr hJnd))
  have hI : ∀ i ∈ J.insertionSort (· ≤ ·), i < 100 := fun i hi => hJ i (hperm.mem_iff.mp hi)
  refine ⟨J.insertionSort (· ≤ ·), ?_, hlt, hI, by simp⟩
  apply List.eq_of_perm_of_sorted (r := (· ≤ ·)) _ (List.sorted_insertionSort _ _)
  · unfold List.Sorted
    rw [List.pairwise_map]
    refine hlt.imp_of_mem ?_
    intro a b ha hb hab
    exact make_fn_le name a b (hI a ha) (hI b hb) (Nat.le_of_lt hab)
  · exact (List.perm_insertionSort _ _).trans (hperm.symm.map _)

theorem ascending_bounds (I : List Nat) (hp : I.Pairwise (· < ·)) (a b : Nat)
    (ha : I.head? = some a) (hb : I.getLast? = some b) :
    (∀ i ∈ I, a ≤ i ∧ i ≤ b) ∧ a ≤ b ∧ a ∈ I ∧ b ∈ I := by
  have hain : a ∈ I := List.mem_of_mem_head? ha
  have hbin : b ∈ I := List.mem_of_getLast?_eq_some hb
  have h1 : ∀ i ∈ I, a ≤ i := by
    cases I with
    | nil => cases ha
    | cons x t =>
      simp only [List.head?_cons, Option.some.injEq] at ha
      subst ha
      intro i hi
      rcases List.mem_cons.mp hi with rfl | hi
      · exact le_refl _
      · exact Nat.le_of_lt (List.rel_of_pairwise_cons hp hi)
  have h2 : ∀ i ∈ I, i ≤ b := by
    have hI := List.dropLast_append_getLast? b hb
    rw [← hI] at hp ⊢
    intro i hi
    rcases List.mem_append.mp hi with hi | hi
    · exact Nat.le_of_lt ((List.pairwise_append.mp hp).2.2 i hi b (by simp))
    · simp at hi; omega
  exact ⟨fun i hi => ⟨h1 i hi, h2 i hi⟩, h1 b hbin, hain, hbin⟩

theorem no_gap_iff (I : List Nat) (hp : I.Pairwise (· < ·)) (a b : Nat)
    (ha : I.head? = some a) (hb : I.getLast? = some b) :
    (∀ j, a ≤ j → j ≤ b → j ∈ I) ↔ b - a + 1 = I.length := by
  obtain ⟨hbd, hab, _, _⟩ := ascending_bounds I hp a b ha hb
  have hnd : I.Nodup := hp.imp (fun h => Nat.ne_of_lt h)
  have hsub : I.toFinset ⊆ Finset.Icc a b := by
    intro x hx
    rw [List.mem_toFinset] at hx
    exact Finset.mem_Icc.mpr (hbd x hx)
  have hcard : I.toFinset.card = I.length := List.toFinset_card_of_nodup hnd
  have hIcc : (Finset.Icc a b).card = b - a + 1 := by rw [Nat.card_Icc]; omega
  constructor
  · intro h
    have : Finset.Icc a b ⊆ I.toFinset := by
      intro x hx
      obtain ⟨h1, h2⟩ := Finset.mem_Icc.mp hx
      exact List.mem_toFinset.mpr (h x h1 h2)
    rw [← hIcc, ← hcard, Finset.Subset.antisymm hsub this]
  · intro h j h1 h2
    have := Finset.eq_of_subset_of_card_le hsub (by rw [hIcc, hcard, h])
    rw [← List.mem_toFinset, this]
    exact Finset.mem_Icc.mpr ⟨h1, h2⟩
theorem contiguous_arith (a b : Nat) (hab : a ≤ b) (hb : b < 100) :
    size_t (uint32_t (uint32_t (b + 4294967296 - a) + 1)) = b - a + 1 := by
  unfold size_t uint32_t
  omega

theorem set_counts_sorted (info : rotation_info) (name : Str)
    (hlen : name.length + 3 < 18446744073709551616) (I : List Nat) (a b : Nat)
    (hI : info.rotation_file_list = I.map (make_fn name)) (hlt : ∀ i ∈ I, i < 100)
    (ha : I.head? = some a) (hb : I.getLast? = some b) (hab : a ≤ b) :
    set_counts info = .ok { info with
      last_count := b, first_count := a, contiguous := decide (b - a + 1 = I.length) } := by
  have hbl : b < 100 := hlt b (List.mem_of_getLast?_eq_some hb)
  have hal : a < 100 := hlt a (List.mem_of_mem_head? ha)
  have h1 : info.rotation_file_list.getLast? = some (make_fn name b) := by
    rw [hI, List.getLast?_map, hb]; rfl
  have h2 : info.rotation_file_list.head? = some (make_fn name a) := by
    rw [hI, List.head?_map, ha]; rfl
  have h3 : info.rotation_file_list.length = I.length := by rw [hI, List.length_map]
  unfold set_counts
  rw [h1, h2]
  simp only [parse_count_make_fn name hlen b hbl, parse_count_make_fn name hlen a hal,
    Except_bind_ok, contiguous_arith a b hab hbl, h3]
  rfl
theorem childName_inj (k e1 e2 : Key) (n : Str) (h1 : childName k e1 = some n)
    (h2 : childName k e2 = some n) : e1 = e2 := by
  have key : ∀ e : Key, childName k e = some n → e = (k.1, k.2 ++ [n]) := by
    intro e h
    unfold childName at h
    split_ifs at h with hc
    obtain ⟨ha, hb⟩ := hc
    have := List.dropLast_append_getLast? n h
    rw [hb] at this
    exact Prod.ext ha this.symm
  rw [key e1 h1, key e2 h2]

theorem nodup_directory_list (fs : FS) (hwf : fs.WF) (path mask : Str) :
    (Filez.directory_list fs path Filez.LT_Files mask).Nodup := by
  have hh : (Filez.LT_Files &&& Filez.LT_Hidden == 0) = true := by decide
  have h1 : ∀ t, Filez.listed Filez.LT_Files mask ⟨['.'], t⟩ = false := by
    intro t; simp [Filez.listed, hh]
  have h2 : ∀ t, Filez.listed Filez.LT_Files mask ⟨['.', '.'], t⟩ = false := by
    intro t; simp [Filez.listed, hh]
  have hp : fs.Pairwise (fun a b => a.1 ≠ b.1) := by
    have := hwf
    unfold FS.WF List.Nodup at this
    exact List.pairwise_map.mp this
  unfold Filez.directory_list
  split_ifs
  · cases hr : readdir fs (c_str path) with
    | none => exact List.nodup_nil
    | some ents =>
      simp only
      unfold readdir at hr
      cases hs : stat fs (c_str path) with
      | none => rw [hs] at hr; cases hr
      | some ino =>
        rw [hs] at hr
        simp only at hr
        split_ifs at hr
        cases hr
        rw [List.filter_cons_of_neg (by simp [h1]), List.filter_cons_of_neg (by simp [h2])]
        unfold List.Nodup
        rw [List.pairwise_map]
        apply List.Pairwise.filter
        rw [List.pairwise_filterMap]
        refine hp.imp ?_
        intro a b hab x hx y hy
        simp only [Option.mem_def, Option.map_eq_some'] at hx hy
        obtain ⟨n, hn, rfl⟩ := hx
        obtain ⟨n2, hn2, rfl⟩ := hy
        simp only
        rintro rfl
        exact hab (childName_inj _ _ _ _ hn hn2)
  · exact List.nodup_nil

theorem get_rotation_info_two_digit (fs : FS) (name dir : Str)
    (hdir : Filez.dirname_r name = .ok dir) (hlen : name.length + 3 < 18446744073709551616)
    (hform : ∀ e ∈ Filez.directory_list fs dir Filez.LT_Files (wild name),
      ∃ i, i < 100 ∧ e = make_fn name i)
    (hnd : (Filez.directory_list fs dir Filez.LT_Files (wild name)).Nodup) :
    ∃ info I, get_rotation_info fs name = .ok info ∧
      info.rotation_file_list = I.map (make_fn name) ∧ I.Pairwise (· < ·) ∧
      (∀ i ∈ I, i < 100) ∧
      I.length = (Filez.directory_list fs dir Filez.LT_Files (wild name)).length ∧
      (I = [] → info.first_count = 0 ∧ info.last_count = 0 ∧ info.contiguous = false) ∧
      (∀ a b, I.head? = some a → I.getLast? = some b →
        info.first_count = a ∧ info.last_count = b ∧
          info.contiguous = decide (b - a + 1 = I.length)) := by
  obtain ⟨I, hI, hp, hlt, hlenI⟩ := sorted_indices name _ hform hnd
  obtain ⟨bn, hbn⟩ := basename_r_ok name
  have hget : get_rotation_info fs name = set_counts
      { rotation_info.reset with
        main := if (Filez.fexists fs name).1 then name else [],
        current_log_size :=
          if (Filez.fexists fs name).1 then (Filez.fexists fs name).2.st_size else 0,
        rotation_file_list :=
          std_sort (Filez.directory_list fs dir Filez.LT_Files (wild name)) } := by
    unfold get_rotation_info
    rw [hdir, Except_bind_ok, hbn, Except_bind_ok]
  cases hh : I.head? with
  | none =>
    have hnil : I = [] := List.head?_eq_none_iff.mp hh
    subst hnil
    have hsc : get_rotation_info fs name = .ok
        { rotation_info.reset with
          main := if (Filez.fexists fs name).1 then name else [],
          current_log_size :=
            if (Filez.fexists fs name).1 then (Filez.fexists fs name).2.st_size else 0,
          rotation_file_list :=
            std_sort (Filez.directory_list fs dir Filez.LT_Files (wild name)) } := by
      rw [hget]
      unfold set_counts
      rw [show (std_sort (Filez.directory_list fs dir Filez.LT_Files (wild name))).getLast? = none
        from by rw [hI]; rfl]
      rfl
    refine ⟨_, [], hsc, hI, hp, hlt, hlenI, fun _ => ⟨rfl, rfl, rfl⟩, ?_⟩
    intro a b ha; cases ha
  | some a =>
    cases hl : I.getLast? with
    | none =>
      rw [List.getLast?_eq_none_iff] at hl
      subst hl; cases hh
    | some b =>
      obtain ⟨_, hab, _, _⟩ := ascending_bounds I hp a b hh hl
      refine ⟨_, I, hget.trans (set_counts_sorted _ name hlen I a b hI hlt hh hl hab), hI, hp,
        hlt, hlenI, ?_, ?_⟩
      · rintro rfl; cases hh
      · intro a2 b2 ha2 hb2
        rw [hh] at ha2; rw [hl] at hb2
        cases ha2; cases hb2
        exact ⟨rfl, rfl, rfl⟩

/-! ## The run of backups and the files beyond it -/


theorem rotate_run (name : Str) (hn : ordinaryName name = true) (fs : FS) (hwf : fs.WF)
    (r size g : Nat) (hr : r ≠ 0)
    (hmain : (Filez.fexists fs name).1 = true)
    (hdue : size ≤ (Filez.fexists fs name).2.st_size)
    (hnd : ∀ i, i ≤ 100 → noDirAt fs (make_fn name i) = true)
    (hg : g ≤ 99)
    (hrun : ∀ i, 1 ≤ i → i ≤ g → fileAt fs (make_fn name i) = true)
    (hgap : g < 99 → stat fs (make_fn name (g + 1)) = none) :
    ∃ ino fs2 fs3, stat fs name = some ino ∧ S_ISDIR ino.st_mode = false ∧
      fs2.WF ∧ stat fs2 name = none ∧ stat fs2 (make_fn name 1) = some ino ∧
      (∀ i, 1 ≤ i → i ≤ g → stat fs2 (make_fn name (i + 1)) = stat fs (make_fn name i)) ∧
      (∀ p, simplePath p → p ≠ name → (∀ i, 1 ≤ i → i ≤ g + 1 → p ≠ make_fn name i) →
        stat fs2 p = stat fs p) ∧
      rotate ⟨name, r, size⟩ fs = .returns fs3 ∧ fs3.WF ∧
      (∀ p, simplePath p →
        stat fs3 p =
          if p ∈ ((present fs2 name).map (make_fn name)).drop r then none else stat fs2 p) := by
  obtain ⟨ino, hino, hreg, he⟩ := main_of_fexists fs name hn hmain
  rw [he] at hdue
  obtain ⟨g2, fs2, fs3, hg2, hpres, hnext, hwf2, hname2, hone2, hshift2, hrest2, hrot, hwf3, hstat3⟩ :=
    rotate_ordinary name hn fs hwf r size hr ino hino hreg hdue
      (fun i hi => (noDirAt_iff _ _).mp (hnd i (by omega)))
      (fun _ => (noDirAt_iff _ _).mp (hnd 100 le_rfl))
  have hgg : g2 = g := by
    rcases Nat.lt_trichotomy g2 g with h | h | h
    · have h1 := hnext (by omega)
      obtain ⟨t, ht, _⟩ := (fileAt_iff _ _).mp (hrun (g2 + 1) (by omega) (by omega))
      rw [h1] at ht; cases ht
    · exact h
    · have h1 := hpres (g + 1) (by omega) (by omega)
      rw [hgap (by omega)] at h1
      cases h1
  subst hgg
  exact ⟨ino, fs2, fs3, hino, not_dir_of_IFREG _ hreg, hwf2, hname2, hone2, hshift2, hrest2,
    hrot, hwf3, hstat3⟩

theorem mem_drop_ascending (j : Nat) :
    ∀ (P : List Nat) (r : Nat), P.Pairwise (· < ·) → j ∈ P →
      (j ∈ P.drop r ↔ r < (P.filter (fun i => decide (i ≤ j))).length) := by
  intro P
  induction P with
  | nil => intro r _ h; cases h
  | cons x t ih =>
    intro r hp hj
    have hx : ∀ y ∈ t, x < y := fun y hy => List.rel_of_pairwise_cons hp hy
    cases r with
    | zero =>
      simp only [List.drop_zero, hj, true_iff]
      exact List.length_pos_of_mem (List.mem_filter.mpr ⟨hj, by simp⟩)
    | succ r =>
      rw [List.drop_succ_cons]
      rcases List.mem_cons.mp hj with rfl | hjt
      · have h1 : j ∉ t.drop r := fun h => Nat.lt_irrefl _ (hx j (List.mem_of_mem_drop h))
        have h2 : t.filter (fun i => decide (i ≤ j)) = [] := by
          rw [List.filter_eq_nil_iff]
          intro y hy
          have := hx y hy
          simp only [decide_eq_true_eq]; omega
        simp [h1, h2]
      · have hxj : x ≤ j := Nat.le_of_lt (hx j hjt)
        rw [ih r (List.Pairwise.of_cons hp) hjt,
          List.filter_cons_of_pos (by simpa using hxj), List.length_cons]
        omega

theorem length_filter_insert (P P2 : List Nat) (hP : P.Nodup) (hP2 : P2.Nodup) (a j : Nat)
    (ha : a ∉ P) (haj : a ≤ j) (h : ∀ i, i ∈ P2 ↔ i ∈ P ∨ i = a) :
    (P2.filter (fun i => decide (i ≤ j))).length =
      (P.filter (fun i => decide (i ≤ j))).length + 1 := by
  have e1 := List.toFinset_card_of_nodup (hP.filter (fun i => decide (i ≤ j)))
  have e2 := List.toFinset_card_of_nodup (hP2.filter (fun i => decide (i ≤ j)))
  have e3 : (P2.filter (fun i => decide (i ≤ j))).toFinset =
      insert a (P.filter (fun i => decide (i ≤ j))).toFinset := by
    ext i
    simp only [List.mem_toFinset, List.mem_filter, decide_eq_true_eq, Finset.mem_insert, h]
    constructor
    · rintro ⟨h1 | h1, h2⟩
      · exact Or.inr ⟨h1, h2⟩
      · exact Or.inl h1
    · rintro (h1 | ⟨h1, h2⟩)
      · exact ⟨Or.inr h1, h1 ▸ haj⟩
      · exact ⟨Or.inl h1, h2⟩
  have e4 : a ∉ (P.filter (fun i => decide (i ≤ j))).toFinset := by
    simp only [List.mem_toFinset, List.mem_filter, not_and]
    intro h1; exact absurd h1 ha
  rw [← e1, ← e2, e3, Finset.card_insert_of_not_mem e4]

theorem present_after_cascade (name : Str) (hn : ordinaryName name = true) (fs fs2 : FS)
    (g : Nat) (hg : g < 99) (ino : Inode)
    (hrun : ∀ i, 1 ≤ i → i ≤ g → fileAt fs (make_fn name i) = true)
    (hone : stat fs2 (make_fn name 1) = some ino)
    (hshift : ∀ i, 1 ≤ i → i ≤ g → stat fs2 (make_fn name (i + 1)) = stat fs (make_fn name i))
    (hrest : ∀ p, simplePath p → p ≠ name → (∀ i, 1 ≤ i → i ≤ g + 1 → p ≠ make_fn name i) →
      stat fs2 p = stat fs p) (i : Nat) (hi : 1 ≤ i ∧ i ≤ g → i ∈ present fs name) :
    i ∈ present fs2 name ↔ (i ∈ present fs name ∧ i ≠ g + 1) ∨ i = g + 1 := by
  have hsome : ∀ k, 1 ≤ k → k ≤ g → (stat fs (make_fn name k)).isSome = true := by
    intro k h1 h2
    obtain ⟨t, ht, _⟩ := (fileAt_iff _ _).mp (hrun k h1 h2)
    rw [ht]; rfl
  have hin : ∀ k, 1 ≤ k → k ≤ g + 1 → (stat fs2 (make_fn name k)).isSome = true := by
    intro k h1 h2
    by_cases e : k = 1
    · subst e; rw [hone]; rfl
    · have := hshift (k - 1) (by omega) (by omega)
      rw [show k - 1 + 1 = k from by omega] at this
      rw [this]
      exact hsome (k - 1) (by omega) (by omega)
  have hsame : ∀ k, k < 100 → ¬(1 ≤ k ∧ k ≤ g + 1) →
      stat fs2 (make_fn name k) = stat fs (make_fn name k) := by
    intro k hk hnot
    exact hrest _ (simplePath_make_fn name hn k (by omega)) (make_fn_ne_name name k)
      (fun j h1 h2 e => by
        have := make_fn_inj name _ _ (by omega) (by omega) e; omega)
  rw [mem_present, mem_present]
  by_cases e1 : 1 ≤ i ∧ i ≤ g + 1
  · have h1 := hin i e1.1 e1.2
    constructor
    · intro _
      by_cases e2 : i = g + 1
      · exact Or.inr e2
      · have := (mem_present fs name i).mp (hi ⟨e1.1, by omega⟩)
        exact Or.inl ⟨this, e2⟩
    · intro _; exact ⟨by omega, h1⟩
  · constructor
    · rintro ⟨h1, h2⟩
      rw [hsame i h1 e1] at h2
      exact Or.inl ⟨⟨h1, h2⟩, by omega⟩
    · rintro (⟨⟨h1, h2⟩, _⟩ | h)
      · rw [hsame i h1 e1]; exact ⟨h1, h2⟩
      · omega

/-! ## Names with a digit suffix -/

theorem simplePath_digit_suffix (name : Str) (hn : ordinaryName name = true) (ds : Str)
    (hd : ∀ c ∈ ds, isDigit c = true) : simplePath (name ++ '.' :: ds) ∧ name ++ '.' :: ds ≠ name := by
  obtain ⟨h1, h2, h3, _⟩ := (ordinaryName_iff name).mp hn
  refine ⟨simplePath_of_chars _ (by simp) ?_ ?_, ?_⟩
  · cases name with
    | nil => exact absurd rfl h1
    | cons c cs => simpa using h2
  · intro c hc
    rcases List.mem_append.mp hc with hc | hc
    · exact h3 c hc
    · rcases List.mem_cons.mp hc with rfl | hc
      · decide
      · exact (isDigit_ordinaryChar c (hd c hc)).1
  · intro e
    have := congrArg List.length e
    simp at this

theorem digit_suffix_cases (name ds : Str) :
    (∃ i, i < 101 ∧ ds = setw_fill0 2 i) ∨ ∀ i, i < 101 → name ++ '.' :: ds ≠ make_fn name i := by
  by_cases h : ∃ i, i < 101 ∧ ds = setw_fill0 2 i
  · exact Or.inl h
  · refine Or.inr (fun i hi e => h ⟨i, hi, ?_⟩)
    rw [make_fn_eq] at e
    have := List.append_cancel_left e
    exact (List.cons.inj this).2

theorem two_digits_inj (i j : Nat) (hi : i < 100) (hj : j < 100)
    (h : two_digits i = two_digits j) : i = j := by
  rw [← two_digits_eq i hi, ← two_digits_eq j hj] at h
  exact setw_fill0_inj i (by omega) j (by omega) h

theorem setw_fill0_100_ne : ∀ i, i < 100 → setw_fill0 2 100 ≠ two_digits i := by
  intro i hi h
  rw [← two_digits_eq i hi] at h
  have := setw_fill0_inj 100 (by omega) i (by omega) h
  omega

theorem fs_three_backups_digit_suffix (ds : Str) (_h1 : ds ≠ [])
    (h2 : ∀ c ∈ ds, isDigit c = true) (h3 : ∀ i, 1 ≤ i → i ≤ 3 → ds ≠ two_digits i) :
    stat fs_three_backups (rotation_log ++ '.' :: ds) = none := by
  have hsp := (simplePath_digit_suffix rotation_log (by decide!) ds h2).1
  have hne := (simplePath_digit_suffix rotation_log (by decide!) ds h2).2
  have hk : ∀ (i : Nat) (s : String), 1 ≤ i → i ≤ 3 →
      s.toList = rotation_log ++ '.' :: two_digits i →
      (false, [rotation_log ++ '.' :: ds]) ≠ ((false, [s.toList]) : Key) := by
    intro i s hi1 hi2 hs e
    rw [hs] at e
    have e2 := List.append_cancel_left (List.cons.inj (Prod.mk.inj e).2).1
    exact h3 i hi1 hi2 (List.cons.inj e2).2
  rw [stat_simple _ _ hsp, List.lookup_eq_none_iff]
  intro e he
  simp only [fs_three_backups, List.mem_cons, List.mem_singleton, List.not_mem_nil, or_false] at he
  rw [bne_iff_ne]
  rcases he with rfl | rfl | rfl | rfl
  · intro e
    exact hne (List.cons.inj (Prod.mk.inj e).2).1
  · exact hk 1 "rotation.log.01" (by omega) (by omega) (by decide!)
  · exact hk 2 "rotation.log.02" (by omega) (by omega) (by decide!)
  · exact hk 3 "rotation.log.03" (by omega) (by omega) (by decide!)

theorem lookup_map_const (key : Nat → Key) (v : Inode) (k : Key) :
    ∀ l : List Nat, (l.map (fun i => (key i, v))).lookup k =
      if ∃ i ∈ l, key i = k then some v else none := by
  intro l
  induction l with
  | nil => simp
  | cons x t ih =>
    rw [List.map_cons, List.lookup_cons]
    by_cases h : key x = k
    · have hb : (k == key x) = true := by rw [h]; exact beq_self_eq_true _
      rw [hb, if_pos ⟨x, List.mem_cons_self _ _, h⟩]
    · have hb : (k == key x) = false := by
        rw [beq_eq_false_iff_ne]; exact fun e => h e.symm
      rw [hb, ih]
      by_cases h2 : ∃ i ∈ t, key i = k
      · obtain ⟨i, hi, e⟩ := h2
        rw [if_pos ⟨i, hi, e⟩, if_pos ⟨i, List.mem_cons_of_mem _ hi, e⟩]
      · rw [if_neg h2, if_neg]
        rintro ⟨i, hi, e⟩
        rcases List.mem_cons.mp hi with rfl | hi
        · exact h e
        · exact h2 ⟨i, hi, e⟩

theorem fs_full_lookup (i : Nat) (hi : i ≤ 100) :
    fs_full.lookup (false, [make_fn rotation_log i]) =
      if 1 ≤ i ∧ i ≤ 99 then some (regular "old") else none := by
  have hne : ((false, [make_fn rotation_log i]) == (cwd_entry "rotation.log" (regular "main")).1)
      = false := by
    rw [beq_eq_false_iff_ne]
    intro e
    exact make_fn_ne_name rotation_log i (List.cons.inj (Prod.mk.inj e).2).1
  unfold fs_full
  rw [List.lookup_cons, hne,
    lookup_map_const (fun j => (false, [make_fn rotation_log (j + 1)])) (regular "old")]
  by_cases h : 1 ≤ i ∧ i ≤ 99
  · rw [if_pos h, if_pos ⟨i - 1, List.mem_range.mpr (by omega), by
      rw [show i - 1 + 1 = i from by omega]⟩]
  · rw [if_neg h, if_neg]
    rintro ⟨j, hj, e⟩
    have hj2 := List.mem_range.mp hj
    have := make_fn_inj rotation_log (j + 1) i (by omega) (by omega)
      (List.cons.inj (Prod.mk.inj e).2).1
    omega

theorem fs_full_WF : fs_full.WF := by
  have hn : ordinaryName rotation_log = true := by decide!
  unfold FS.WF fs_full
  rw [List.map_cons, List.nodup_cons, List.map_map]
  constructor
  · intro h
    obtain ⟨j, _, e⟩ := List.mem_map.mp h
    exact make_fn_ne_name rotation_log (j + 1) (List.cons.inj (Prod.mk.inj e).2).1
  · apply List.Nodup.map_on _ (List.nodup_range 99)
    intro a ha b hb e
    have ha2 := List.mem_range.mp ha
    have hb2 := List.mem_range.mp hb
    have := make_fn_inj rotation_log (a + 1) (b + 1) (by omega) (by omega)
      (List.cons.inj (Prod.mk.inj e).2).1
    omega

theorem fs_full_stat : ∀ i, i ≤ 100 →
    stat fs_full (make_fn rotation_log i) =
      if 1 ≤ i ∧ i ≤ 99 then some (regular "old") else none := by
  intro i hi
  rw [stat_simple _ _ (simplePath_make_fn rotation_log (by decide!) i (by omega))]
  exact fs_full_lookup i hi

/-! ## The renames of a rotation, one by one -/

theorem do_rotation_log_fst (info : rotation_info) :
    ∀ (depth f s : Nat) (fs : FS),
      (do_rotation_log info depth f s fs).map Prod.fst = do_rotation info depth f s fs := by
  intro depth
  induction depth with
  | zero => intro f s fs; rfl
  | succ d ih =>
    intro f s fs
    unfold do_rotation_log do_rotation
    by_cases h1 : make_fn info.main f ∉ info.rotation_file_list
    · rw [if_pos h1, if_pos h1]; rfl
    · rw [if_neg h1, if_neg h1]
      by_cases h2 : make_fn info.main s ∈ info.rotation_file_list
      · rw [if_pos h2, if_pos h2, ← ih s (uint32_t (s + 1)) fs]
        cases do_rotation_log info d s (uint32_t (s + 1)) fs <;> rfl
      · rw [if_neg h2, if_neg h2]; rfl

/-- The first `std::rename` of the cascade is the one of the last backup of the listed
run, made in the file system as it was at the start. -/
theorem do_rotation_log_head (name : Str) (hn : ordinaryName name = true) (info : rotation_info)
    (hmain : info.main = name) (g : Nat) (hg : g ≤ 99)
    (hout : make_fn name (g + 1) ∉ info.rotation_file_list) :
    ∀ (n f depth : Nat) (fs : FS), f + n = g → n < depth →
      (∀ i, f ≤ i → i ≤ g → make_fn name i ∈ info.rotation_file_list) →
      ∃ fs2 log, do_rotation_log info depth f (f + 1) fs =
        some (fs2, ⟨fs, make_fn name g, make_fn name (g + 1)⟩ :: log) := by
  intro n
  induction n with
  | zero =>
    intro f depth fs hfg hd hin
    have hfg2 : f = g := by omega
    subst hfg2
    obtain ⟨d, rfl⟩ : ∃ d, depth = d + 1 := ⟨depth - 1, by omega⟩
    refine ⟨rename fs (make_fn name f) (make_fn name (f + 1)), [], ?_⟩
    unfold do_rotation_log
    rw [hmain, if_neg (not_not.mpr (hin f le_rfl le_rfl)), if_neg hout,
      c_str_make_fn name hn f (by omega), c_str_make_fn name hn (f + 1) (by omega)]
  | succ n ih =>
    intro f depth fs hfg hd hin
    obtain ⟨d, rfl⟩ : ∃ d, depth = d + 1 := ⟨depth - 1, by omega⟩
    obtain ⟨fs1, log1, h1⟩ := ih (f + 1) d fs (by omega) (by omega)
      (fun i h1 h2 => hin i (by omega) h2)
    refine ⟨rename fs1 (make_fn name f) (make_fn name (f + 1)),
      log1 ++ [⟨fs1, make_fn name f, make_fn name (f + 1)⟩], ?_⟩
    unfold do_rotation_log
    rw [hmain, if_neg (not_not.mpr (hin f le_rfl (by omega))),
      if_pos (hin (f + 1) (by omega) (by omega)), uint32_t_small _ (by omega), h1,
      c_str_make_fn name hn f (by omega), c_str_make_fn name hn (f + 1) (by omega)]
    rfl

/-- The `std::rename` calls of the cascade over a run of backups whose successor slot is
free: each call moves an existing file to a path at which nothing exists at that
moment. -/
theorem do_rotation_log_run (name : Str) (hn : ordinaryName name = true) (info : rotation_info)
    (hmain : info.main = name) (g : Nat) (hg : g ≤ 99)
    (hout : make_fn name (g + 1) ∉ info.rotation_file_list) :
    ∀ (n f depth : Nat) (fs : FS), f + n = g → n < depth →
      (∀ i, f ≤ i → i ≤ g → make_fn name i ∈ info.rotation_file_list) →
      (∀ i, f ≤ i → i ≤ g →
        ∃ ino, stat fs (make_fn name i) = some ino ∧ S_ISDIR ino.st_mode = false) →
      stat fs (make_fn name (g + 1)) = none →
      ∃ fs2 log, do_rotation_log info depth f (f + 1) fs = some (fs2, log) ∧
        (∀ c ∈ log, stat c.before c.new = none ∧ (stat c.before c.old).isSome = true) ∧
        log.map (fun c => (c.old, c.new)) =
          (List.range' f (n + 1)).reverse.map
            (fun i => (make_fn name i, make_fn name (i + 1))) := by
  intro n
  induction n with
  | zero =>
    intro f depth fs hfg hd hin hfile htgt
    have hfg2 : f = g := by omega
    subst hfg2
    obtain ⟨d, rfl⟩ : ∃ d, depth = d + 1 := ⟨depth - 1, by omega⟩
    obtain ⟨ino, hino, _⟩ := hfile f le_rfl le_rfl
    refine ⟨rename fs (make_fn name f) (make_fn name (f + 1)),
      [⟨fs, make_fn name f, make_fn name (f + 1)⟩], ?_, ?_, ?_⟩
    · unfold do_rotation_log
      rw [hmain, if_neg (not_not.mpr (hin f le_rfl le_rfl)), if_neg hout,
        c_str_make_fn name hn f (by omega), c_str_make_fn name hn (f + 1) (by omega)]
    · intro c hc
      rw [List.mem_singleton] at hc
      subst hc
      exact ⟨htgt, by rw [hino]; rfl⟩
    · rfl
  | succ n ih =>
    intro f depth fs hfg hd hin hfile htgt
    obtain ⟨d, rfl⟩ : ∃ d, depth = d + 1 := ⟨depth - 1, by omega⟩
    obtain ⟨ino, hino, hdir⟩ := hfile f le_rfl (by omega)
    have hsf := simplePath_make_fn name hn f (by omega)
    obtain ⟨fs1, log1, hlog, hfree, hnames⟩ :=
      ih (f + 1) d fs (by omega) (by omega)
        (fun i h1 h2 => hin i (by omega) h2) (fun i h1 h2 => hfile i (by omega) h2) htgt
    obtain ⟨fs1b, hrun, _, _, hgone, hrest⟩ :=
      do_rotation_run name hn info hmain g hg hout n (f + 1) d fs (by omega) (by omega)
        (fun i h1 h2 => hin i (by omega) h2) (fun i h1 h2 => hfile i (by omega) h2)
        (fun t ht => by rw [htgt] at ht; cases ht)
    have hsame : fs1b = fs1 := by
      have := do_rotation_log_fst info d (f + 1) (f + 1 + 1) fs
      rw [hlog, hrun] at this
      exact (Option.some.inj this).symm
    subst hsame
    have hsrc : stat fs1b (make_fn name f) = some ino := by
      rw [hrest _ hsf, hino]
      intro i h1 h2 e
      have := make_fn_inj name f i (by omega) (by omega) e; omega
    refine ⟨rename fs1b (make_fn name f) (make_fn name (f + 1)),
      log1 ++ [⟨fs1b, make_fn name f, make_fn name (f + 1)⟩], ?_, ?_, ?_⟩
    · unfold do_rotation_log
      rw [hmain, if_neg (not_not.mpr (hin f le_rfl (by omega))),
        if_pos (hin (f + 1) (by omega) (by omega)), uint32_t_small _ (by omega), hlog,
        c_str_make_fn name hn f (by omega), c_str_make_fn name hn (f + 1) (by omega)]
      rfl
    · intro c hc
      rcases List.mem_append.mp hc with hc | hc
      · exact hfree c hc
      · rw [List.mem_singleton] at hc
        subst hc
        exact ⟨hgone, by rw [hsrc]; rfl⟩
    · rw [List.map_append, hnames, List.range'_succ f (n + 1), List.reverse_cons,
        List.map_append]
      rfl

theorem fs_full_hundred_WF : fs_full_hundred.WF := by
  unfold FS.WF fs_full_hundred
  rw [List.map_cons, List.nodup_cons]
  refine ⟨?_, fs_full_WF⟩
  intro h
  obtain ⟨e, he, hk⟩ := List.mem_map.mp h
  have hl := fs_full_lookup 100 le_rfl
  rw [if_neg (by omega), List.lookup_eq_none_iff] at hl
  have := hl e he
  rw [hk] at this
  revert this
  decide!

theorem fs_full_hundred_stat : ∀ i, i ≤ 100 →
    stat fs_full_hundred (make_fn rotation_log i) =
      if i = 100 then some (regular "hundred")
      else if 1 ≤ i then some (regular "old") else none := by
  intro i hi
  have hk : (cwd_entry "rotation.log.100" (regular "hundred")).1 =
      (false, [make_fn rotation_log 100]) := by decide!
  rw [stat_simple _ _ (simplePath_make_fn rotation_log (by decide!) i (by omega))]
  unfold fs_full_hundred
  rw [List.lookup_cons, hk]
  by_cases h : i = 100
  · subst h
    rw [beq_self_eq_true, if_pos rfl]
    rfl
  · have hb : ((false, [make_fn rotation_log i]) == ((false, [make_fn rotation_log 100]) : Key))
        = false := by
      rw [beq_eq_false_iff_ne]
      intro e
      exact h (make_fn_inj rotation_log i 100 (by omega) (by omega)
        (List.cons.inj (Prod.mk.inj e).2).1)
    rw [hb, if_neg h, fs_full_lookup i hi]
    by_cases h1 : 1 ≤ i
    · rw [if_pos ⟨h1, by omega⟩, if_pos h1]
    · rw [if_neg (fun c => h1 c.1), if_neg h1]

/-! ## The decimal rendering of an index is injective -/


theorem digitChar_value : ∀ d, d < 10 → (Nat.digitChar d).toNat - 48 = d := by decide

theorem digitsValue_toDigitsCore :
    ∀ (fuel n : Nat) (ds : Str), n < fuel →
      List.foldl (fun acc c => 10 * acc + (c.toNat - 48)) 0 (Nat.toDigitsCore 10 fuel n ds) =
        List.foldl (fun acc c => 10 * acc + (c.toNat - 48)) n ds := by
  intro fuel
  induction fuel with
  | zero => intro n ds h; omega
  | succ k ih =>
    intro n ds h
    unfold Nat.toDigitsCore
    simp only
    split_ifs with h0
    · have hn : n % 10 = n := Nat.mod_eq_of_lt (by omega)
      rw [List.foldl_cons, digitChar_value (n % 10) (Nat.mod_lt _ (by omega)), hn]
      simp
    · rw [ih (n / 10) _ (by omega), List.foldl_cons,
        digitChar_value (n % 10) (Nat.mod_lt _ (by omega))]
      congr 1
      omega

theorem digitsValue_toDigits (n : Nat) : digitsValue (Nat.toDigits 10 n) = n := by
  unfold digitsValue Nat.toDigits
  rw [digitsValue_toDigitsCore (n + 1) n [] (by omega)]
  rfl

theorem digitsValue_zeros (k : Nat) (ds : Str) :
    digitsValue (List.replicate k '0' ++ ds) = digitsValue ds := by
  unfold digitsValue
  rw [List.foldl_append]
  congr 1
  induction k with
  | zero => rfl
  | succ k ih => rw [List.replicate_succ, List.foldl_cons]; exact ih

theorem digitsValue_setw_fill0 (w n : Nat) : digitsValue (setw_fill0 w n) = n := by
  unfold setw_fill0
  rw [digitsValue_zeros, digitsValue_toDigits]

theorem make_fn_injective (base : Str) (i j : Nat) (h : make_fn base i = make_fn base j) :
    i = j := by
  rw [make_fn_eq, make_fn_eq] at h
  have h2 := (List.cons.inj (List.append_cancel_left h)).2
  rw [← digitsValue_setw_fill0 2 i, ← digitsValue_setw_fill0 2 j, h2]

/-! ## Termination of the cascade and of the pruning loop -/

theorem do_rotation_mono (info : rotation_info) :
    ∀ (d f s : Nat) (fs fs1 : FS), do_rotation info d f s fs = some fs1 →
      do_rotation info (d + 1) f s fs = some fs1 := by
  intro d
  induction d with
  | zero => intro f s fs fs1 h; cases h
  | succ d ih =>
    intro f s fs fs1 h
    unfold do_rotation at h ⊢
    by_cases h1 : make_fn info.main f ∉ info.rotation_file_list
    · rw [if_pos h1] at h ⊢; exact h
    · rw [if_neg h1] at h ⊢
      by_cases h2 : make_fn info.main s ∈ info.rotation_file_list
      · rw [if_pos h2] at h ⊢
        cases hr : do_rotation info d s (uint32_t (s + 1)) fs with
        | none => rw [hr] at h; cases h
        | some x => rw [hr] at h; rw [ih s _ fs x hr]; exact h
      · rw [if_neg h2] at h ⊢; exact h

theorem do_rotation_mono_le (info : rotation_info) (d e f s : Nat) (fs fs1 : FS) (hde : d ≤ e)
    (h : do_rotation info d f s fs = some fs1) : do_rotation info e f s fs = some fs1 := by
  induction hde with
  | refl => exact h
  | step _ ih => exact do_rotation_mono info _ f s fs fs1 ih

/-- When the cascade runs out of depth, every call of the descent found its first file
listed. -/
theorem do_rotation_none (info : rotation_info) :
    ∀ (d f : Nat) (fs : FS), f < 4294967296 →
      do_rotation info d f (uint32_t (f + 1)) fs = none →
      ∀ j, j < d → make_fn info.main (uint32_t (f + j)) ∈ info.rotation_file_list := by
  intro d
  induction d with
  | zero => intro f fs _ _ j hj; omega
  | succ d ih =>
    intro f fs hf h j hj
    unfold do_rotation at h
    by_cases h1 : make_fn info.main f ∉ info.rotation_file_list
    · rw [if_pos h1] at h; cases h
    · rw [if_neg h1] at h
      by_cases h2 : make_fn info.main (uint32_t (f + 1)) ∈ info.rotation_file_list
      · rw [if_pos h2] at h
        cases hr : do_rotation info d (uint32_t (f + 1)) (uint32_t (uint32_t (f + 1) + 1)) fs with
        | some x => rw [hr] at h; cases h
        | none =>
          have hlt : uint32_t (f + 1) < 4294967296 := by unfold uint32_t; omega
          have hrec := ih (uint32_t (f + 1)) fs hlt hr
          cases j with
          | zero =>
            have : uint32_t (f + 0) = f := by unfold uint32_t; omega
            rw [this]
            exact not_not.mp h1
          | succ j =>
            have : uint32_t (f + (j + 1)) = uint32_t (uint32_t (f + 1) + j) := by
              unfold uint32_t; omega
            rw [this]
            exact hrec j (by omega)
      · rw [if_neg h2] at h; cases h

/-- The cascade makes at most one recursive call per listed name, when fewer than `2^32`
names are listed. -/
theorem do_rotation_terminates (info : rotation_info) (fs : FS)
    (hlen : info.rotation_file_list.length < 4294967296) :
    ∃ fs1, do_rotation info (info.rotation_file_list.length + 1) 1 2 fs = some fs1 := by
  cases h : do_rotation info (info.rotation_file_list.length + 1) 1 2 fs with
  | some x => exact ⟨x, rfl⟩
  | none =>
    exfalso
    have hall := do_rotation_none info (info.rotation_file_list.length + 1) 1 fs (by omega) h
    have hinj : Set.InjOn (fun j => make_fn info.main (uint32_t (1 + j)))
        (Finset.range (info.rotation_file_list.length + 1) : Set Nat) := by
      intro a ha b hb e
      have ha2 : a < info.rotation_file_list.length + 1 := by simpa using ha
      have hb2 : b < info.rotation_file_list.length + 1 := by simpa using hb
      have := make_fn_injective _ _ _ e
      unfold uint32_t at this
      omega
    have hmaps : ∀ j ∈ Finset.range (info.rotation_file_list.length + 1),
        (fun j => make_fn info.main (uint32_t (1 + j))) j ∈ info.rotation_file_list.toFinset := by
      intro j hj
      rw [List.mem_toFinset]
      exact hall j (by simpa using hj)
    have h1 := Finset.card_le_card_of_injOn _ hmaps hinj
    have h2 := List.toFinset_card_le info.rotation_file_list
    rw [Finset.card_range] at h1
    omega

/-- When every name `make_fn(main, s)` with `s < 2^32` is listed, the cascade never
returns, whatever depth it is given. -/
theorem do_rotation_all_listed (info : rotation_info)
    (hall : ∀ s, s < 4294967296 → make_fn info.main s ∈ info.rotation_file_list) :
    ∀ (d f : Nat) (fs : FS), f < 4294967296 →
      do_rotation info d f (uint32_t (f + 1)) fs = none := by
  intro d
  induction d with
  | zero => intro f fs _; rfl
  | succ d ih =>
    intro f fs hf
    have hlt : uint32_t (f + 1) < 4294967296 := by unfold uint32_t; omega
    unfold do_rotation
    rw [if_neg (not_not.mpr (hall f hf)), if_pos (hall _ hlt), ih _ fs hlt]
    rfl

theorem prune_loop_length (r : Nat) :
    ∀ (n : Nat) (L : List Str) (fs : FS),
      (prune_loop r n L fs).2.length = max (min L.length r) (L.length - n) := by
  intro n
  induction n with
  | zero =>
    intro L fs
    simp [prune_loop]
  | succ n ih =>
    intro L fs
    unfold prune_loop
    by_cases hlen : L.length > r
    · rw [if_pos hlen]
      cases hb : L.getLast? with
      | none =>
        rw [List.getLast?_eq_none_iff] at hb
        subst hb; simp at hlen
      | some back =>
        simp only
        rw [ih, List.length_dropLast]
        omega
    · rw [if_neg hlen]
      simp only
      omega

theorem prune_loop_fuel (r : Nat) :
    ∀ (n : Nat) (L : List Str) (fs : FS), L.length ≤ n →
      prune_loop r n L fs = prune_loop r L.length L fs := by
  intro n
  induction n with
  | zero =>
    intro L fs h
    have : L = [] := List.length_eq_zero.mp (by omega)
    subst this; rfl
  | succ n ih =>
    intro L fs h
    cases L with
    | nil => simp [prune_loop]
    | cons x t =>
      have e : (x :: t).length = t.length + 1 := rfl
      rw [e]
      unfold prune_loop
      by_cases hlen : (x :: t).length > r
      · rw [if_pos hlen, if_pos hlen]
        cases hb : (x :: t).getLast? with
        | none => rfl
        | some back =>
          simp only
          have hd : (x :: t).dropLast.length = t.length := by simp
          rw [ih _ _ (by rw [hd]; simpa using h), hd]
      · rw [if_neg hlen, if_neg hlen]

theorem directory_list_length (fs : FS) (path mask : Str) (Filter : Nat) :
    (Filez.directory_list fs path Filter mask).length ≤ fs.length + 2 := by
  unfold Filez.directory_list
  split_ifs
  · cases hr : readdir fs (c_str path) with
    | none => simp
    | some ents =>
      simp only [List.length_map]
      have h1 := List.length_filter_le (Filez.listed Filter mask) ents
      have h2 : ents.length ≤ fs.length + 2 := by
        unfold readdir at hr
        cases hs : stat fs (c_str path) with
        | none => rw [hs] at hr; cases hr
        | some ino =>
          rw [hs] at hr
          simp only at hr
          split_ifs at hr
          cases hr
          simp only [List.length_cons]
          have := List.length_filterMap_le
            (fun e : Key × Inode => (childName (pathKey (c_str path)) e.1).map
              (fun n => (⟨n, IFTODT e.2.st_mode⟩ : dirent))) fs
          omega
      omega
  · simp

theorem get_rotation_info_length (fs : FS) (name : Str) (info : rotation_info)
    (h : get_rotation_info fs name = .ok info) :
    info.rotation_file_list.length ≤ fs.length + 2 := by
  unfold get_rotation_info at h
  cases h1 : Filez.dirname_r name with
  | error e => rw [h1, Except_bind_error] at h; cases h
  | ok d =>
    rw [h1, Except_bind_ok] at h
    cases h2 : Filez.basename_r name with
    | error e => rw [h2, Except_bind_error] at h; cases h
    | ok b =>
      rw [h2, Except_bind_ok] at h
      obtain ⟨_, _, a3⟩ := set_counts_fields _ _ h
      rw [a3]
      have := directory_list_length fs d (wild name) Filez.LT_Files
      have hp : (std_sort (Filez.directory_list fs d Filez.LT_Files (wild name))).length =
          (Filez.directory_list fs d Filez.LT_Files (wild name)).length :=
        (List.perm_insertionSort _ _).length_eq
      simp only at hp ⊢
      omega

theorem rotate_diverges_in_cascade (cfg : Config) (fs : FS) (h : rotate cfg fs = .diverges) :
    ∃ info, get_rotation_info fs cfg.filename = .ok info ∧
      do_rotation info do_rotation_depth 1 2 fs = none := by
  by_cases hc : cfg.rotation_count = 0
  · rw [rotate_disabled cfg fs hc] at h; cases h
  · cases h1 : get_rotation_info fs cfg.filename with
    | error e => rw [rotate_throws cfg fs e hc h1] at h; cases h
    | ok info =>
      refine ⟨info, rfl, ?_⟩
      by_cases hno : info.main = [] ∨
          (cfg.rotation_size > 0 ∧ info.current_log_size < cfg.rotation_size)
      · rw [rotate_not_due cfg fs info hc h1 hno] at h; cases h
      · cases hrot : do_rotation info do_rotation_depth 1 2 fs with
        | none => rfl
        | some fs1 =>
          exfalso
          unfold rotate at h
          rw [if_neg hc, h1] at h
          simp only [] at h
          rw [if_neg hno] at h
          split_ifs at h
          · rw [hrot] at h
            simp only [] at h
            split at h <;> cases h

theorem every_index_listed_list (main : Str) :
    (every_index_listed main).rotation_file_list =
      List.map (make_fn main) (List.range 4294967296) := by
  unfold every_index_listed
  simp only

theorem every_index_listed_main (main : Str) : (every_index_listed main).main = main := by
  unfold every_index_listed
  simp only

theorem every_index_listed_mem (main : Str) (s : Nat) (hs : s < 4294967296) :
    make_fn (every_index_listed main).main s ∈ (every_index_listed main).rotation_file_list := by
  rw [every_index_listed_list, every_index_listed_main, List.mem_map]
  exact ⟨s, List.mem_range.mpr hs, rfl⟩

theorem every_index_listed_length (main : Str) :
    (every_index_listed main).rotation_file_list.length = 4294967296 := by
  rw [every_index_listed_list, List.length_map, List.length_range]

/-! ## A directory on which the cascade never returns -/


theorem digitChar_isDigit : ∀ d, d < 10 → isDigit (Nat.digitChar d) = true := by decide

theorem toDigitsCore_digits :
    ∀ (fuel n : Nat) (ds : Str), (∀ c ∈ ds, isDigit c = true) →
      ∀ c ∈ Nat.toDigitsCore 10 fuel n ds, isDigit c = true := by
  intro fuel
  induction fuel with
  | zero => intro n ds h; exact h
  | succ k ih =>
    intro n ds h
    have hd := digitChar_isDigit (n % 10) (Nat.mod_lt _ (by omega))
    have hcons : ∀ c ∈ Nat.digitChar (n % 10) :: ds, isDigit c = true := by
      intro c hc
      rcases List.mem_cons.mp hc with rfl | hc
      · exact hd
      · exact h c hc
    unfold Nat.toDigitsCore
    simp only
    split_ifs
    · exact hcons
    · exact ih _ _ hcons

theorem toDigitsCore_length :
    ∀ (fuel n : Nat) (ds : Str), (Nat.toDigitsCore 10 fuel n ds).length ≤ fuel + ds.length := by
  intro fuel
  induction fuel with
  | zero => intro n ds; simp [Nat.toDigitsCore]
  | succ k ih =>
    intro n ds
    unfold Nat.toDigitsCore
    simp only
    split_ifs
    · simp; omega
    · have := ih (n / 10) (Nat.digitChar (n % 10) :: ds)
      simp only [List.length_cons] at this
      omega

theorem setw_fill0_digits (s : Nat) : ∀ c ∈ setw_fill0 2 s, isDigit c = true := by
  intro c hc
  unfold setw_fill0 at hc
  rcases List.mem_append.mp hc with h | h
  · rw [List.eq_of_mem_replicate h]; decide
  · exact toDigitsCore_digits _ _ [] (fun _ h => by cases h) c h

theorem setw_fill0_length (s : Nat) :
    2 ≤ (setw_fill0 2 s).length ∧ (setw_fill0 2 s).length ≤ s + 3 := by
  have h := toDigitsCore_length (s + 1) s []
  unfold setw_fill0 Nat.toDigits
  simp only [List.length_append, List.length_replicate, List.length_nil] at h ⊢
  omega

/-- Every rendering of an index ends in two decimal digits. -/
theorem setw_fill0_last_two (s : Nat) :
    ∃ pre d1 d2, setw_fill0 2 s = pre ++ [d1, d2] ∧ isDigit d1 = true ∧ isDigit d2 = true ∧
      pre.length ≤ s + 1 := by
  have hl := setw_fill0_length s
  have hd := setw_fill0_digits s
  generalize setw_fill0 2 s = l at hl hd
  rcases List.eq_nil_or_concat l with rfl | ⟨l1, d2, rfl⟩
  · simp at hl
  · rcases List.eq_nil_or_concat l1 with rfl | ⟨pre, d1, rfl⟩
    · simp at hl
    · refine ⟨pre, d1, d2, by simp, hd d1 (by simp), hd d2 (by simp), ?_⟩
      simp at hl
      omega

theorem parse_count_any_index (name : Str) (s : Nat)
    (hl : name.length + s + 4 < 18446744073709551616) :
    ∃ i, parse_count (make_fn name s) = .ok i := by
  obtain ⟨pre, d1, d2, he, h1, h2, hp⟩ := setw_fill0_last_two s
  obtain ⟨i, hi, hi2⟩ := (two_digits_iff [d1, d2]).mp ⟨d1, d2, h1, h2, rfl⟩
  have hstr : make_fn name s = (name ++ '.' :: pre) ++ [d1, d2] := by
    rw [make_fn_eq, he]; simp
  have hlen : (make_fn name s).length = (name ++ '.' :: pre).length + 2 := by
    rw [hstr]; simp only [List.length_append, List.length_cons, List.length_nil]
  have hpl : (name ++ '.' :: pre).length = name.length + 1 + pre.length := by simp; omega
  have hs : size_t ((make_fn name s).length + 18446744073709551616 - rotate_field_width) =
      (name ++ '.' :: pre).length := by
    rw [hlen, hpl]; unfold size_t rotate_field_width; omega
  have hsub : substr (make_fn name s) (name ++ '.' :: pre).length = .ok (setw_fill0 2 i) := by
    unfold substr
    rw [if_neg (by rw [hlen]; omega), hstr, List.drop_left, hi2]
  have h3 := stoi_two_digits i hi
  unfold parse_count
  rw [hs, hsub]
  cases hst : stoi (setw_fill0 2 i) with
  | error e => rw [hst] at h3; cases h3
  | ok v =>
    refine ⟨int_to_uint32 v, ?_⟩
    show (stoi (setw_fill0 2 i) >>= fun v => (pure (int_to_uint32 v) : Except Exn Nat)) = _
    rw [hst]
    rfl

theorem matchToks_star (ts : List GlobTok) (x y : Str) (h : matchToks ts y = true) :
    matchToks (.star :: ts) (x ++ y) = true := by
  unfold matchToks
  rw [List.any_eq_true]
  exact ⟨y, (List.mem_tails _ _).mpr (List.suffix_append x y), h⟩

theorem tokenize_star_bracket :
    tokenize ((c_str (wild star_bracket)).length + 1) (c_str (wild star_bracket)) =
      [.star, .set false [.chr '.', .chr '[', .range '0' '9'], .set false [.range '0' '9']] := by
  decide!

theorem fnmatch_star_bracket (s : Nat) :
    fnmatch (c_str (wild star_bracket)) (make_fn star_bracket s) = 0 := by
  obtain ⟨pre, d1, d2, he, h1, h2, _⟩ := setw_fill0_last_two s
  have hstr : make_fn star_bracket s = (star_bracket ++ '.' :: pre) ++ [d1, d2] := by
    rw [make_fn_eq, he]; simp
  have hm : ∀ d, isDigit d = true → BracketItem.mem d (.range '0' '9') = true := by
    intro d hd
    simp only [isDigit, Bool.and_eq_true, decide_eq_true_eq] at hd
    simp only [BracketItem.mem, Bool.and_eq_true, decide_eq_true_eq]
    exact hd
  have h : matchToks [.set false [.chr '.', .chr '[', .range '0' '9'],
      .set false [.range '0' '9']] [d1, d2] = true := by
    simp [matchToks, hm d1 h1, hm d2 h2]
  unfold fnmatch
  rw [tokenize_star_bracket, hstr, matchToks_star _ _ _ h]
  rfl

theorem mem_directory_list_dot (fs : FS) (mask : Str) (hm : mask ≠ []) (e : Str) :
    e ∈ Filez.directory_list fs ['.'] Filez.LT_Files mask ↔
      ∃ ino, ((false, [e]), ino) ∈ fs ∧ e.head? ≠ some '.' ∧ fnmatch (c_str mask) e = 0 ∧
        S_ISDIR ino.st_mode = false := by
  rw [directory_list_dot]
  simp only [List.mem_map, List.mem_filter, List.mem_filterMap, Option.map_eq_some']
  constructor
  · rintro ⟨d, ⟨⟨⟨k, ino⟩, hmem, n, hch, rfl⟩, hl⟩, rfl⟩
    simp only at hch hl ⊢
    rw [childName_cwd] at hch
    subst hch
    rw [listed_files _ _ _ hm] at hl
    exact ⟨ino, hmem, hl⟩
  · rintro ⟨ino, hmem, hl⟩
    refine ⟨⟨e, IFTODT ino.st_mode⟩, ⟨⟨((false, [e]), ino), hmem, e,
      (childName_cwd _ _).mpr rfl, rfl⟩, ?_⟩, rfl⟩
    rw [listed_files _ _ _ hm]
    exact hl

theorem rotate_diverges (cfg : Config) (fs : FS) (info : rotation_info)
    (hc : cfg.rotation_count ≠ 0)
    (h1 : get_rotation_info fs cfg.filename = .ok info)
    (hmain : info.main ≠ [])
    (hsize : cfg.rotation_size ≤ info.current_log_size)
    (hrot : do_rotation info do_rotation_depth 1 2 fs = none) :
    rotate cfg fs = .diverges := by
  unfold rotate
  rw [if_neg hc, h1]
  simp only []
  rw [if_neg (by rintro (h | ⟨_, h⟩); exact hmain h; omega), if_pos hsize, hrot]

theorem mem_fs_every_index (k : Key) (ino : Inode) :
    (k, ino) ∈ fs_every_index ↔
      (k = (false, [star_bracket]) ∧ ino = regular "main") ∨
        ∃ s, s < 4294967296 ∧ k = (false, [make_fn star_bracket s]) ∧ ino = regular "old" := by
  unfold fs_every_index
  rw [List.mem_cons, List.mem_map]
  constructor
  · rintro (h | ⟨s, hs, h⟩)
    · exact Or.inl ⟨(Prod.mk.inj h).1, (Prod.mk.inj h).2⟩
    · exact Or.inr ⟨s, List.mem_range.mp hs, (Prod.mk.inj h).1.symm, (Prod.mk.inj h).2.symm⟩
  · rintro (⟨h1, h2⟩ | ⟨s, hs, h1, h2⟩)
    · exact Or.inl (by rw [h1, h2])
    · exact Or.inr ⟨s, List.mem_range.mpr hs, by rw [h1, h2]⟩

theorem inventory_fs_every_index (e : Str) :
    e ∈ Filez.directory_list fs_every_index ['.'] Filez.LT_Files (wild star_bracket) ↔
      ∃ s, s < 4294967296 ∧ e = make_fn star_bracket s := by
  rw [mem_directory_list_dot _ _ (wild_ne_nil _)]
  constructor
  · rintro ⟨ino, hmem, _, hf, _⟩
    rcases (mem_fs_every_index _ _).mp hmem with ⟨h1, _⟩ | ⟨s, hs, h1, _⟩
    · have he : e = star_bracket := (List.cons.inj (Prod.mk.inj h1).2).1
      subst he
      revert hf
      decide!
    · exact ⟨s, hs, (List.cons.inj (Prod.mk.inj h1).2).1⟩
  · rintro ⟨s, hs, rfl⟩
    refine ⟨regular "old", (mem_fs_every_index _ _).mpr (Or.inr ⟨s, hs, rfl, rfl⟩), ?_,
      fnmatch_star_bracket s, by decide⟩
    rw [make_fn_eq]
    have : star_bracket = '*' :: ['['] := rfl
    rw [this]
    simp

theorem get_rotation_info_fs_every_index :
    ∃ info, get_rotation_info fs_every_index star_bracket = .ok info ∧
      info.main = star_bracket ∧
      ∀ s, s < 4294967296 → make_fn info.main s ∈ info.rotation_file_list := by
  have hsp : simplePath star_bracket := ⟨by decide, by decide, by decide, by decide⟩
  have hparse : ∀ e ∈ std_sort
      (Filez.directory_list fs_every_index ['.'] Filez.LT_Files (wild star_bracket)),
      ∃ i, parse_count e = .ok i := by
    intro e he
    rw [mem_std_sort, inventory_fs_every_index] at he
    obtain ⟨s, hs, rfl⟩ := he
    exact parse_count_any_index star_bracket s (by
      have : star_bracket.length = 2 := rfl
      omega)
  have hstat : stat fs_every_index (c_str star_bracket) = some (regular "main") := by
    rw [c_str_eq _ hsp.2.2.2, stat_simple _ _ hsp]
    unfold fs_every_index
    rw [List.lookup_cons, beq_self_eq_true]
  have hfe : Filez.fexists fs_every_index star_bracket = (true, regular "main") := by
    rw [fexists_of_stat _ _ _ hstat]
    rfl
  obtain ⟨info, h1, h2, _, h4⟩ := set_counts_ok
    { rotation_info.reset with
      main := if (Filez.fexists fs_every_index star_bracket).1 then star_bracket else [],
      current_log_size :=
        if (Filez.fexists fs_every_index star_bracket).1
        then (Filez.fexists fs_every_index star_bracket).2.st_size else 0,
      rotation_file_list :=
        std_sort (Filez.directory_list fs_every_index ['.'] Filez.LT_Files (wild star_bracket)) }
    hparse
  refine ⟨info, ?_, ?_, ?_⟩
  · unfold get_rotation_info
    rw [dirname_r_plain star_bracket hsp.2.2.1, Except_bind_ok,
      basename_r_plain star_bracket hsp.2.2.1 hsp.1, Except_bind_ok]
    exact h1
  · rw [h2, hfe]; rfl
  · intro s hs
    rw [h2, h4, hfe, mem_std_sort, inventory_fs_every_index]
    exact ⟨s, hs, rfl⟩

theorem rotate_fs_every_index :
    rotate ⟨star_bracket, 1, 0⟩ fs_every_index = .diverges := by
  obtain ⟨info, h1, h2, h3⟩ := get_rotation_info_fs_every_index
  exact rotate_diverges ⟨star_bracket, 1, 0⟩ fs_every_index info (by decide) h1
    (by rw [h2]; decide) (Nat.zero_le _)
    (do_rotation_all_listed info h3 do_rotation_depth 1 fs_every_index (by omega))


/-! ## The list of an inventory -/
theorem get_rotation_info_list (fs : FS) (name dir : Str) (info : rotation_info)
    (hdir : Filez.dirname_r name = .ok dir) (h : get_rotation_info fs name = .ok info) :
    info.rotation_file_list =
      std_sort (Filez.directory_list fs dir Filez.LT_Files (wild name)) := by
  unfold get_rotation_info at h
  rw [hdir, Except_bind_ok] at h
  cases h2 : Filez.basename_r name with
  | error e => rw [h2, Except_bind_error] at h; cases h
  | ok b =>
    rw [h2, Except_bind_ok] at h
    exact (set_counts_fields _ _ h).2.2

theorem std_sort_perm (L : List Str) : (std_sort L).Perm L := List.perm_insertionSort _ _
/-! # The claims -/

/-- Counterexample to C1 as stated, at two inputs with retention count 1, the main file
present, threshold 0 and all renames and deletes succeeding.  First, the hidden base path
`.rotation.log` with backups 01 and 02: `directory_list` skips names starting with `.`, so
nothing is pruned and two backups remain, more than the retention count.  Second, the base
path `rotation.log` with a file at index 00: the pruning loop deletes the last name of the
sorted inventory `[.00, .01]`, which is the backup just made, so `rotation.log.01` does not
exist afterwards and the content of the main file is lost. -/
theorem C1_counterexample :
    rotate ⟨".rotation.log".toList, 1, 0⟩ fs_hidden_two =
      .returns [cwd_entry ".rotation.log.01" (regular "main"),
        cwd_entry ".rotation.log.02" (regular "two")] ∧
    rotate ⟨rotation_log, 1, 0⟩ fs_index_zero =
      .returns [cwd_entry "rotation.log.00" (regular "zero")] := by decide!

/-- Claim C1, amended to ordinary file names and to directories without an index `00`.  Let
the base path be an ordinary file name of the working directory (not empty, no leading `.`,
no `/`, NUL or `fnmatch` pattern character), `retentionCount > 0`, the main file present
with a size at or above the threshold, nothing at `basePath.00`, and no directory at any
`basePath.NN` up to index 100 (so every rename and delete succeeds).  Then `rotate()`
returns, and afterwards the main path does not exist, `basePath.01` is the former main
file (same content), and at most `retentionCount` backups `basePath.NN` exist. -/
theorem C1_rotation_postcondition (name : Str) (fs : FS) (r size : Nat)
    (hn : ordinaryName name = true) (hwf : fs.WF) (hr : 0 < r)
    (hmain : (Filez.fexists fs name).1 = true)
    (hdue : size ≤ (Filez.fexists fs name).2.st_size)
    (hnd : ∀ i, i ≤ 100 → noDirAt fs (make_fn name i) = true)
    (h00 : stat fs (make_fn name 0) = none) :
    ∃ fs2, rotate ⟨name, r, size⟩ fs = .returns fs2 ∧
      stat fs2 name = none ∧
      stat fs2 (make_fn name 1) = stat fs name ∧
      (present fs2 name).length ≤ r := by
  obtain ⟨ino, hino, hreg, he⟩ := main_of_fexists fs name hn hmain
  rw [he] at hdue
  obtain ⟨g, fs2, fs3, hg, hpres, hnext, hwf2, hname2, hone2, hshift2, hrest2, hrot, hwf3, hstat3⟩ :=
    rotate_ordinary name hn fs hwf r size (by omega) ino hino hreg hdue
      (fun i hi => (noDirAt_iff _ _).mp (hnd i (by omega)))
      (fun _ => (noDirAt_iff _ _).mp (hnd 100 le_rfl))
  have hsn := simplePath_name name hn
  have h0 : 0 ∉ present fs2 name := by
    rw [mem_present]
    rintro ⟨_, h⟩
    rw [hrest2 _ (simplePath_make_fn name hn 0 (by omega)) (make_fn_ne_name name 0)
      (fun j h1 h2 e => by
        have := make_fn_inj name _ _ (by omega) (by omega) e; omega), h00] at h
    cases h
  have h1 : 1 ∈ present fs2 name := (mem_present fs2 name 1).mpr ⟨by omega, by rw [hone2]; rfl⟩
  obtain ⟨rest, hrest⟩ := head_of_sorted _ (present_sorted fs2 name) h0 h1
  refine ⟨fs3, hrot, ?_, ?_, ?_⟩
  · rw [hstat3 name hsn, if_neg, hname2]
    rw [← List.map_drop, List.mem_map]
    rintro ⟨j, _, e⟩
    exact make_fn_ne_name name _ e
  · rw [hstat3 _ (simplePath_make_fn name hn 1 (by omega)), if_neg, hone2, hino]
    obtain ⟨r2, rfl⟩ : ∃ r2, r = r2 + 1 := ⟨r - 1, by omega⟩
    rw [hrest, List.map_cons, List.drop_succ_cons, ← List.map_drop, List.mem_map]
    rintro ⟨j, hj, e⟩
    have hj2 : j ∈ rest := List.mem_of_mem_drop hj
    have hj3 : j < 100 := ((mem_present fs2 name j).mp (by rw [hrest]; exact List.mem_cons_of_mem _ hj2)).1
    have := make_fn_inj name j 1 (by omega) (by omega) e
    subst this
    have hnd2 := (present_sorted fs2 name).nodup
    rw [hrest] at hnd2
    exact (List.nodup_cons.mp hnd2).1 hj2
  · rw [present_pruned name hn fs2 fs3 r hstat3]
    exact (List.length_take_le r _)

/-- Witness for C1: the example program's strategy (keep 3 rotations) on a directory with
the backups 01 to 06. -/
theorem C1_rotation_postcondition_witness :
    ∃ fs2, rotate ⟨rotation_log, 3, 0⟩ fs_six_backups = .returns fs2 ∧
      stat fs2 rotation_log = none ∧
      stat fs2 (make_fn rotation_log 1) = stat fs_six_backups rotation_log ∧
      (present fs2 rotation_log).length ≤ 3 :=
  C1_rotation_postcondition rotation_log fs_six_backups 3 0 (by decide!) (by decide!) (by decide)
    (by decide!) (by decide!) (by decide!) (by decide!)

/-- Counterexample to C2 as stated.  The base path `.rotation.log` is a plain file name of
the working directory and its backups are exactly `.rotation.log.01`; with retention count
5 the rotation is due.  `directory_list` skips every entry whose name starts with `.`, so
the inventory is empty, nothing is shifted, and the main file is renamed over backup 01:
afterwards there is no backup 02 and the former content of backup 01 is gone. -/
theorem C2_counterexample :
    rotate ⟨".rotation.log".toList, 5, 0⟩ fs_hidden =
      .returns [cwd_entry ".rotation.log.01" (regular "main")] := by decide!

/-- Claim C2, amended to ordinary file names.  Cascade correctness: let the base path be an
ordinary file name of the working directory (not empty, no leading `.`, no `/`, NUL or
`fnmatch` pattern character), `k + 1 ≤ retentionCount < 100`, the main file present and at
or above the size threshold, the backups present exactly `.01 … .k` (nothing stands at any
other index up to 100, so every rename succeeds).  Then `rotate()` returns, and afterwards
the backups present are exactly `.01 … .(k+1)`, backup `i+1` is the former backup `i`,
backup 1 is the former main file, and the main path is gone. -/
theorem C2_cascade_correct (name : Str) (fs : FS) (r size k : Nat)
    (hn : ordinaryName name = true) (hwf : fs.WF) (hk : k + 1 ≤ r) (hr : r < 100)
    (hmain : (Filez.fexists fs name).1 = true)
    (hdue : size ≤ (Filez.fexists fs name).2.st_size)
    (hin : ∀ i, 1 ≤ i → i ≤ k → fileAt fs (make_fn name i) = true)
    (hout : ∀ i, i ≤ 100 → ¬(1 ≤ i ∧ i ≤ k) → stat fs (make_fn name i) = none) :
    ∃ fs2, rotate ⟨name, r, size⟩ fs = .returns fs2 ∧
      (∀ i, i < 100 → ((stat fs2 (make_fn name i)).isSome = true ↔ 1 ≤ i ∧ i ≤ k + 1)) ∧
      (∀ i, 1 ≤ i → i ≤ k → stat fs2 (make_fn name (i + 1)) = stat fs (make_fn name i)) ∧
      stat fs2 (make_fn name 1) = stat fs name ∧
      stat fs2 name = none := by
  obtain ⟨ino, hino, hreg, he⟩ := main_of_fexists fs name hn hmain
  rw [he] at hdue
  obtain ⟨fs3, h1, _, h3, h4, h5, h6, _, _⟩ := rotate_exact name hn fs hwf r size (by omega) ino
    hino hreg hdue k (by omega) (fun i a b => (fileAt_iff _ _).mp (hin i a b))
    (fun i a b => hout i (by omega) b)
    (fun t ht => by rw [hout 100 le_rfl (by omega)] at ht; cases ht)
  have hmin : min r (min (k + 1) 99) = k + 1 := by omega
  rw [hmin] at h4 h6
  exact ⟨fs3, h1, h4, fun i a b => h6 i a (by omega), by rw [h5, hino], h3⟩

/-- Witness for C2: backups {1,2,3}, retention count 5. -/
theorem C2_cascade_correct_witness :
    ∃ fs2, rotate ⟨rotation_log, 5, 0⟩ fs_three_backups = .returns fs2 ∧
      (∀ i, i < 100 → ((stat fs2 (make_fn rotation_log i)).isSome = true ↔ 1 ≤ i ∧ i ≤ 3 + 1)) ∧
      (∀ i, 1 ≤ i → i ≤ 3 →
        stat fs2 (make_fn rotation_log (i + 1)) = stat fs_three_backups (make_fn rotation_log i)) ∧
      stat fs2 (make_fn rotation_log 1) = stat fs_three_backups rotation_log ∧
      stat fs2 rotation_log = none :=
  C2_cascade_correct rotation_log fs_three_backups 5 0 3 (by decide!) (by decide!) (by decide)
    (by decide) (by decide!) (by decide!) (by decide!) (by decide!)

/-- Counterexample to C3 as stated, at two inputs with the rotation due.  First, the
hidden base path `.rotation.log` with the backups exactly 01 and 02 and retention count 3,
so that the claim promises the backups 01, 02, 03: `directory_list` skips names starting
with `.`, the inventory is empty, and the main file replaces backup 01; only 01 and 02
exist afterwards.  Second, the base path `app[1].log` with the backup exactly 01 and
retention count 2: the glob mask is built from the unescaped name, `[1]` is read as a
bracket expression, and the mask matches `app1.log.NN` but not `app[1].log.01`; again the
main file replaces backup 01 and there is no backup 02. -/
theorem C3_counterexample :
    rotate ⟨".rotation.log".toList, 3, 0⟩ fs_hidden_two =
      .returns [cwd_entry ".rotation.log.01" (regular "main"),
        cwd_entry ".rotation.log.02" (regular "two")] ∧
    rotate ⟨"app[1].log".toList, 2, 0⟩ fs_bracket =
      .returns [cwd_entry "app[1].log.01" (regular "main")] := by decide!

/-- Claim C3, amended to ordinary file names.  Pruning correctness: let the base path be an
ordinary file name of the working directory (not empty, no leading `.`, no `/`, NUL or
`fnmatch` pattern character), `0 ≤ k < 99`, `retentionCount = r ≥ 1`, the main file present
and at or above the size threshold, the backups present exactly `.01 … .k` (nothing stands
at any other index up to 100, so every rename and delete succeeds).  Then `rotate()`
returns and the backups present afterwards are exactly `.01 … .min(k+1, r)`: the pruning
loop deletes exactly the highest indices in excess of `r`, and nothing when `k + 1 ≤ r`.
The survivors are the former main file at index 1 and the former backup `i` at `i + 1`. -/
theorem C3_pruning_correct (name : Str) (fs : FS) (r size k : Nat)
    (hn : ordinaryName name = true) (hwf : fs.WF) (hk : k < 99) (hr : 1 ≤ r)
    (hmain : (Filez.fexists fs name).1 = true)
    (hdue : size ≤ (Filez.fexists fs name).2.st_size)
    (hin : ∀ i, 1 ≤ i → i ≤ k → fileAt fs (make_fn name i) = true)
    (hout : ∀ i, i ≤ 100 → ¬(1 ≤ i ∧ i ≤ k) → stat fs (make_fn name i) = none) :
    ∃ fs2, rotate ⟨name, r, size⟩ fs = .returns fs2 ∧
      (∀ i, i < 100 →
        ((stat fs2 (make_fn name i)).isSome = true ↔ 1 ≤ i ∧ i ≤ min (k + 1) r)) ∧
      stat fs2 (make_fn name 1) = stat fs name ∧
      (∀ i, 1 ≤ i → i + 1 ≤ min (k + 1) r →
        stat fs2 (make_fn name (i + 1)) = stat fs (make_fn name i)) := by
  obtain ⟨ino, hino, hreg, he⟩ := main_of_fexists fs name hn hmain
  rw [he] at hdue
  obtain ⟨fs3, h1, _, _, h4, h5, h6, _, _⟩ := rotate_exact name hn fs hwf r size (by omega) ino
    hino hreg hdue k (by omega) (fun i a b => (fileAt_iff _ _).mp (hin i a b))
    (fun i a b => hout i (by omega) b)
    (fun t ht => by rw [hout 100 le_rfl (by omega)] at ht; cases ht)
  have hmin : min r (min (k + 1) 99) = min (k + 1) r := by omega
  rw [hmin] at h4 h6
  exact ⟨fs3, h1, h4, by rw [h5, hino], h6⟩

/-- Witness for C3: backups {1..6}, retention count 4, leaves exactly {1,2,3,4}. -/
theorem C3_pruning_correct_witness :
    ∃ fs2, rotate ⟨rotation_log, 4, 0⟩ fs_six_backups = .returns fs2 ∧
      (∀ i, i < 100 →
        ((stat fs2 (make_fn rotation_log i)).isSome = true ↔ 1 ≤ i ∧ i ≤ min (6 + 1) 4)) ∧
      stat fs2 (make_fn rotation_log 1) = stat fs_six_backups rotation_log ∧
      (∀ i, 1 ≤ i → i + 1 ≤ min (6 + 1) 4 →
        stat fs2 (make_fn rotation_log (i + 1)) = stat fs_six_backups (make_fn rotation_log i)) :=
  C3_pruning_correct rotation_log fs_six_backups 4 0 6 (by decide!) (by decide!) (by decide)
    (by decide) (by decide!) (by decide!) (by decide!) (by decide!)

/-- Claim C4. With `retentionCount == 0`, `rotate()` returns at once and leaves the file
system exactly as it was, for every base path, every size threshold and every content of
the file system: nothing is renamed, deleted or created. -/
theorem C4_disabled_rotation_is_a_no_op (name : Str) (size : Nat) (fs : FS) :
    rotate ⟨name, 0, size⟩ fs = .returns fs :=
  rotate_disabled _ fs rfl

/-- Counterexample to C5 as stated, at two inputs with the main file present, retention
count 1 and threshold 0, so the claim promises that the main path is absent afterwards.
First, a directory stands at `rotation.log.01`: the final `rename` fails, its return code
is dropped, and the main file is still there.  Second, the base path `x[` with a file
`x.5` beside it: the glob mask `x[.[0-9][0-9]` reads `[.[0-9]` as one bracket expression
and matches `x.5`, `std::stoi(".5")` throws `std::invalid_argument` out of
`get_rotation_info`, and nothing is renamed. -/
theorem C5_counterexample :
    ((Filez.fexists fs_directory_at_one rotation_log).1 = true ∧
      rotate ⟨rotation_log, 1, 0⟩ fs_directory_at_one = .returns fs_directory_at_one) ∧
    ((Filez.fexists fs_open_bracket "x[".toList).1 = true ∧
      rotate ⟨"x[".toList, 1, 0⟩ fs_open_bracket = .throws .invalid_argument fs_open_bracket) := by
  decide!

/-- Claim C5, amended by the conditions under which the rename can happen.  Rotation
trigger decision, for every configuration with `retentionCount > 0`.  For every base path:
when the main file does not exist, or when the threshold is positive and the size of the
main file is below it, `rotate()` leaves the whole file system unchanged.  For every base
path without NUL and `fnmatch` pattern characters (with or without a directory part,
hidden or not): if the main file exists and no directory stands at `basePath.01`, then
`rotate()` returns and the main path is absent afterwards if and only if the threshold is
0 or the size of the main file is at or above it; so it rotates when the size equals the
threshold and always when the threshold is 0. -/
theorem C5_trigger_decision (name : Str) (fs : FS) (r size : Nat) (hr : 0 < r) :
    (((Filez.fexists fs name).1 = false ∨
        (0 < size ∧ (Filez.fexists fs name).2.st_size < size)) →
      (rotate ⟨name, r, size⟩ fs).fs? = some fs) ∧
    (patternFree name = true → (Filez.fexists fs name).1 = true →
      noDirAt fs (make_fn name 1) = true →
      ∃ fs2, rotate ⟨name, r, size⟩ fs = .returns fs2 ∧
        (stat fs2 name = none ↔ (size = 0 ∨ size ≤ (Filez.fexists fs name).2.st_size))) := by
  refine ⟨rotate_unchanged name fs r size, ?_⟩
  intro hpf hmain hnd
  by_cases hdue : size ≤ (Filez.fexists fs name).2.st_size
  · obtain ⟨fs2, h1, h2⟩ := rotate_main_gone name fs r size (by omega) hpf hmain hdue hnd
    exact ⟨fs2, h1, fun _ => Or.inr hdue, fun _ => h2⟩
  · obtain ⟨hc, _⟩ := (patternFree_iff name).mp hpf
    have hcs : c_str name = name := c_str_eq name (fun h => (hc _ h).1 rfl)
    obtain ⟨ino, hino, hreg, he⟩ := fexists_true fs name hmain
    rw [hcs] at hino
    have hdir : S_ISDIR ino.st_mode = false := not_dir_of_IFREG _ hreg
    obtain ⟨_, _, _, hneeds⟩ := stat_some fs name ino hino
    have hslash : name.getLast? ≠ some '/' := by
      intro hs
      rw [hneeds (needsDir_of_trailing_slash name hs)] at hdir
      cases hdir
    obtain ⟨info, hinfo, _⟩ := get_rotation_info_patternFree fs name hpf hslash
    obtain ⟨_, hsz⟩ := get_rotation_info_fields fs name info hinfo
    rw [hmain] at hsz
    simp only [if_true] at hsz
    refine ⟨fs, rotate_not_due ⟨name, r, size⟩ fs info (by show r ≠ 0; omega) hinfo
      (Or.inr ⟨by show 0 < size; omega, by rw [hsz]; show _ < size; omega⟩), ?_⟩
    rw [hino]
    constructor
    · intro h; cases h
    · intro h; exfalso; omega

/-- Witness for C5: the example directory with three backups and retention count 5; with
threshold 100 the main file (4 bytes) stays and nothing changes, with threshold 4 it is
renamed away. -/
theorem C5_trigger_decision_witness :
    (rotate ⟨rotation_log, 5, 100⟩ fs_three_backups).fs? = some fs_three_backups ∧
    ∃ fs2, rotate ⟨rotation_log, 5, 4⟩ fs_three_backups = .returns fs2 ∧
      (stat fs2 rotation_log = none ↔
        (4 = 0 ∨ 4 ≤ (Filez.fexists fs_three_backups rotation_log).2.st_size)) :=
  ⟨(C5_trigger_decision rotation_log fs_three_backups 5 100 (by decide)).1 (Or.inr (by decide!)),
    (C5_trigger_decision rotation_log fs_three_backups 5 4 (by decide)).2 (by decide!)
      (by decide!) (by decide!)⟩

/-- Counterexample to C6 as stated, at three inputs.  First, a FIFO named
`rotation.log.01` is listed as a backup of `rotation.log` although it is not a regular
file: with `LT_Files`, `directory_list` keeps every entry whose `d_type` is not `DT_DIR`.
Second, the regular file `.rotation.log.01` is not listed as a backup of `.rotation.log`:
`directory_list` skips every entry whose name starts with `.` unless `LT_Hidden` is
passed.  Third, for the base path `logs/rotation.log` the regular file
`logs/rotation.log.01` is not listed: the mask is built from the whole path, not from the
base name, and `fnmatch` compares it with the bare entry name. -/
theorem C6_counterexample :
    ((get_rotation_info fs_fifo_backup rotation_log).map rotation_info.rotation_file_list =
        .ok ["rotation.log.01".toList] ∧
      Filez.getFileType fs_fifo_backup "rotation.log.01".toList = .FT_Fifo) ∧
    ((get_rotation_info fs_hidden ".rotation.log".toList).map rotation_info.rotation_file_list =
        .ok [] ∧
      Filez.getFileType fs_hidden ".rotation.log.01".toList = .FT_Regular) ∧
    ((get_rotation_info fs_subdirectory "logs/rotation.log".toList).map
        rotation_info.rotation_file_list = .ok [] ∧
      Filez.getFileType fs_subdirectory "logs/rotation.log.01".toList = .FT_Regular) := by
  decide!

/-- Claim C6, amended to ordinary file names and to entries that are not directories.  For
every base path that is an ordinary file name of the working directory (not empty, no
leading `.`, no `/`, NUL or `fnmatch` pattern character) and every content of the file
system, `get_rotation_info` returns, and `rotation_file_list` contains, each once, exactly
the entries of the working directory that are not directories and whose name is the base
name followed by `.` and exactly two decimal digits.  A name with extra trailing
characters or with fewer or more digits, and a directory, is not listed; no such entry is
missing. -/
theorem C6_inventory_exact (name : Str) (fs : FS)
    (hn : ordinaryName name = true) (hwf : fs.WF) :
    ∃ info, get_rotation_info fs name = .ok info ∧
      info.rotation_file_list.Nodup ∧
      ∀ e, e ∈ info.rotation_file_list ↔
        ((∃ d1 d2, isDigit d1 = true ∧ isDigit d2 = true ∧ e = name ++ ['.', d1, d2]) ∧
          fileAt fs e = true) := by
  obtain ⟨info, h1, _, _, h4⟩ := get_rotation_info_ordinary fs hwf name hn
  refine ⟨info, h1, ?_, ?_⟩
  · rw [h4]
    exact (List.perm_insertionSort _ _).nodup_iff.mpr (nodup_inventory fs hwf _)
  · intro e
    rw [h4, mem_std_sort, mem_inventory_stat fs hwf name hn]
    constructor
    · rintro ⟨i, hi, rfl, ino, h5, h6⟩
      obtain ⟨d1, d2, a, b, c⟩ := (two_digits_iff (setw_fill0 2 i)).mpr ⟨i, hi, rfl⟩
      exact ⟨⟨d1, d2, a, b, by rw [make_fn_eq, c]⟩, (fileAt_iff _ _).mpr ⟨ino, h5, h6⟩⟩
    · rintro ⟨⟨d1, d2, a, b, rfl⟩, h5⟩
      obtain ⟨i, hi, c⟩ := (two_digits_iff [d1, d2]).mp ⟨d1, d2, a, b, rfl⟩
      have e2 : name ++ ['.', d1, d2] = make_fn name i := by rw [make_fn_eq, ← c]
      obtain ⟨ino, h6, h7⟩ := (fileAt_iff _ _).mp h5
      exact ⟨i, hi, e2, ino, by rw [← e2]; exact h6, h7⟩

/-- Witness for C6: a directory with two backups, two look-alike names and a directory at
index 07. -/
theorem C6_inventory_exact_witness :
    ∃ info, get_rotation_info fs_mixed rotation_log = .ok info ∧
      info.rotation_file_list.Nodup ∧
      ∀ e, e ∈ info.rotation_file_list ↔
        ((∃ d1 d2, isDigit d1 = true ∧ isDigit d2 = true ∧ e = rotation_log ++ ['.', d1, d2]) ∧
          fileAt fs_mixed e = true) :=
  C6_inventory_exact rotation_log fs_mixed (by decide!) (by decide!)

/-- Claim C7, which the code breaks.  For the base path `app.log/` (a file name with a
trailing separator) `dirname_r` strips the separator, finds no other one and calls
`erase(npos)`, which throws `std::out_of_range`; the exception leaves `get_rotation_info`
and `rotate` (retention count 1), whatever the file system holds. -/
theorem C7_trailing_separator_throws :
    Filez.dirname_r "app.log/".toList = .error .out_of_range ∧
      ∀ (fs : FS) (size : Nat),
        get_rotation_info fs "app.log/".toList = .error .out_of_range ∧
        rotate ⟨"app.log/".toList, 1, size⟩ fs = .throws .out_of_range fs := by
  have h : Filez.dirname_r "app.log/".toList = .error .out_of_range := by decide!
  refine ⟨h, fun fs size => ?_⟩
  have h2 : get_rotation_info fs "app.log/".toList = .error .out_of_range := by
    unfold get_rotation_info
    rw [h, Except_bind_error]
  exact ⟨h2, rotate_throws _ fs _ (fun e => by cases e) h2⟩

/-- Counterexample to C8 as stated.  The hidden base path `.rotation.log`, retention count
2, threshold 0, no backups at the start; the main file is written with `first`, rotated,
written with `second`, rotated.  The claim promises `.rotation.log.02` with the content
`first`.  The inventory skips hidden entries, so the second rotation shifts nothing and
renames the main file over backup 01: only backup 01 exists, with the content `second`. -/
theorem C8_counterexample :
    rotations ⟨".rotation.log".toList, 2, 0⟩ ["first".toList, "second".toList] [] =
      some [cwd_entry ".rotation.log.01" (regular "second")] := by decide!

/-- Claim C8, amended to ordinary file names.  Newest-first invariant over a run of
rotations: let the base path be an ordinary file name of the working directory (not empty,
no leading `.`, no `/`, NUL or `fnmatch` pattern character), `1 ≤ r < 100` the retention
count, and the directory at the start without any file `basePath.NN` up to index 100.  For
every sequence of `n` main-file contents, each at or above the size threshold and each
followed by a call of `rotate()`, every call returns, and afterwards for every `i` with
`1 ≤ i ≤ min(n, r)` the file `basePath.<i>` exists and holds the content that was rotated
out `i` rotations ago (index 1 the most recent one). -/
theorem C8_newest_first (name : Str) (fs : FS) (r size : Nat) (contents : List Str)
    (hn : ordinaryName name = true) (hwf : fs.WF) (hr1 : 1 ≤ r) (hr2 : r < 100)
    (hempty : ∀ i, i ≤ 100 → stat fs (make_fn name i) = none)
    (hdue : ∀ c ∈ contents, size ≤ c.length) :
    ∃ fs2, rotations ⟨name, r, size⟩ contents fs = some fs2 ∧
      ∀ i, 1 ≤ i → i ≤ min contents.length r →
        ∃ t, stat fs2 (make_fn name i) = some t ∧ contents.reverse[i - 1]? = some t.data := by
  have h0 : backups_hold fs name r [] := by
    refine ⟨hwf, ?_, ?_, ?_⟩
    · intro i hi
      rw [hempty i (by omega)]
      simp
      omega
    · intro i h1 h2
      simp at h2
      omega
    · intro t ht
      rw [hempty 100 le_rfl] at ht
      cases ht
  obtain ⟨fs2, h1, _, _, h3, _⟩ := backups_hold_run name hn r size hr1 hr2 contents fs [] h0 hdue
  refine ⟨fs2, h1, ?_⟩
  intro i a b
  obtain ⟨t, ht, _, hh⟩ := h3 i a (by simpa using b)
  exact ⟨t, ht, by simpa using hh⟩

/-- Witness for C8: three rotations of `rotation.log` with retention count 2, starting from
an empty directory. -/
theorem C8_newest_first_witness :
    ∃ fs2, rotations ⟨rotation_log, 2, 0⟩ ["first".toList, "second".toList, "third".toList] [] =
        some fs2 ∧
      ∀ i, 1 ≤ i → i ≤ min ["first".toList, "second".toList, "third".toList].length 2 →
        ∃ t, stat fs2 (make_fn rotation_log i) = some t ∧
          ["first".toList, "second".toList, "third".toList].reverse[i - 1]? = some t.data :=
  C8_newest_first rotation_log [] 2 0 ["first".toList, "second".toList, "third".toList]
    (by decide!) (by decide!) (by decide) (by decide) (by decide!) (by decide!)

/-- Counterexample to C9 as stated.  The hidden base path `.rotation.log` has the backups
01 and 03, so the run from index 1 has length 1; retention count 10, rotation due.  The
inventory skips hidden entries and is empty, so backup 01 is not shifted to 02: the main
file is renamed over it and its former content is gone. -/
theorem C9_counterexample :
    rotate ⟨".rotation.log".toList, 10, 0⟩ fs_hidden_gap =
      .returns [cwd_entry ".rotation.log.01" (regular "main"),
        cwd_entry ".rotation.log.03" (regular "three")] := by decide!

/-- Claim C9, amended to ordinary file names.  Gap behaviour: let the base path be an
ordinary file name of the working directory (not empty, no leading `.`, no `/`, NUL or
`fnmatch` pattern character), the main file present and at or above the threshold, no
directory at any `basePath.NN` up to index 100 (every rename succeeds), the retention
count above the number of existing backups (nothing is pruned), and let `g ≥ 0` be the
length of the maximal run of present indices `1..g` (index `g+1` absent).  Then `rotate()`
returns, and afterwards the former backup `i` is at `i+1` for `1 ≤ i ≤ g`, the former main
file is at index 1, and every backup with an index above `g+1` is where and what it was. -/
theorem C9_gap_behaviour (name : Str) (fs : FS) (r size g : Nat)
    (hn : ordinaryName name = true) (hwf : fs.WF)
    (hmain : (Filez.fexists fs name).1 = true)
    (hdue : size ≤ (Filez.fexists fs name).2.st_size)
    (hnd : ∀ i, i ≤ 100 → noDirAt fs (make_fn name i) = true)
    (hr : (present fs name).length + 1 ≤ r)
    (hg : g ≤ 99)
    (hrun : ∀ i, 1 ≤ i → i ≤ g → fileAt fs (make_fn name i) = true)
    (hgap : g < 99 → stat fs (make_fn name (g + 1)) = none) :
    ∃ fs2, rotate ⟨name, r, size⟩ fs = .returns fs2 ∧
      (∀ i, 1 ≤ i → i ≤ g → stat fs2 (make_fn name (i + 1)) = stat fs (make_fn name i)) ∧
      stat fs2 (make_fn name 1) = stat fs name ∧
      (∀ i, g + 1 < i → i < 100 → stat fs2 (make_fn name i) = stat fs (make_fn name i)) := by
  obtain ⟨ino, hino, hreg, he⟩ := main_of_fexists fs name hn hmain
  rw [he] at hdue
  obtain ⟨g2, fs2, fs3, hg2, hpres, hnext, hwf2, hname2, hone2, hshift2, hrest2, hrot, hwf3, hstat3⟩ :=
    rotate_ordinary name hn fs hwf r size (by omega) ino hino hreg hdue
      (fun i hi => (noDirAt_iff _ _).mp (hnd i (by omega)))
      (fun _ => (noDirAt_iff _ _).mp (hnd 100 le_rfl))
  have hgg : g2 = g := by
    rcases Nat.lt_trichotomy g2 g with h | h | h
    · have h1 := hnext (by omega)
      obtain ⟨t, ht, _⟩ := (fileAt_iff _ _).mp (hrun (g2 + 1) (by omega) (by omega))
      rw [h1] at ht; cases ht
    · exact h
    · have h1 := hpres (g + 1) (by omega) (by omega)
      rw [hgap (by omega)] at h1
      cases h1
  subst hgg
  -- nothing is pruned
  have hsub : present fs2 name ⊆ (g2 + 1) :: present fs name := by
    intro i hi
    obtain ⟨hi1, hi2⟩ := (mem_present fs2 name i).mp hi
    by_cases e1 : i = g2 + 1
    · rw [e1]; exact List.mem_cons_self _ _
    · apply List.mem_cons_of_mem
      rw [mem_present]
      refine ⟨hi1, ?_⟩
      by_cases e2 : 1 ≤ i ∧ i ≤ g2
      · exact hpres i e2.1 e2.2
      · rw [hrest2 _ (simplePath_make_fn name hn i (by omega)) (make_fn_ne_name name i)
          (fun j h1 h2 e => by
            have := make_fn_inj name _ _ (by omega) (by omega) e; omega)] at hi2
        exact hi2
  have hlen : (present fs2 name).length ≤ r := by
    have := (List.subperm_of_subset (present_sorted fs2 name).nodup hsub).length_le
    simp only [List.length_cons] at this
    omega
  have hdrop : ((present fs2 name).map (make_fn name)).drop r = [] :=
    List.drop_eq_nil_of_le (by simpa using hlen)
  have hsame : ∀ p, simplePath p → stat fs3 p = stat fs2 p := by
    intro p hp
    rw [hstat3 p hp, hdrop]
    simp
  refine ⟨fs3, hrot, ?_, ?_, ?_⟩
  · intro i h1 h2
    rw [hsame _ (simplePath_make_fn name hn (i + 1) (by omega))]
    exact hshift2 i h1 h2
  · rw [hsame _ (simplePath_make_fn name hn 1 (by omega)), hone2, hino]
  · intro i h1 h2
    rw [hsame _ (simplePath_make_fn name hn i (by omega))]
    exact hrest2 _ (simplePath_make_fn name hn i (by omega)) (make_fn_ne_name name i)
      (fun j h3 h4 e => by
        have := make_fn_inj name _ _ (by omega) (by omega) e; omega)

/-- Witness for C9: backups {1,3} become {1,2,3}, with the former 1 at 2 and 3 untouched. -/
theorem C9_gap_behaviour_witness :
    ∃ fs2, rotate ⟨rotation_log, 5, 0⟩ fs_gap = .returns fs2 ∧
      (∀ i, 1 ≤ i → i ≤ 1 →
        stat fs2 (make_fn rotation_log (i + 1)) = stat fs_gap (make_fn rotation_log i)) ∧
      stat fs2 (make_fn rotation_log 1) = stat fs_gap rotation_log ∧
      (∀ i, 1 + 1 < i → i < 100 →
        stat fs2 (make_fn rotation_log i) = stat fs_gap (make_fn rotation_log i)) :=
  C9_gap_behaviour rotation_log fs_gap 5 0 1 (by decide!) (by decide!) (by decide!) (by decide!)
    (by decide!) (by decide!) (by decide) (by decide!) (by decide!)

/-- Claim C10. Filename convention round trip: for every base string and every index `i`
with `0 ≤ i ≤ 99`, `make_fn base i` is `base + "." +` the two-character zero-padded decimal
rendering of `i`; parsing that name the way `get_rotation_info` does (`substr(length-2)`,
then `stoi`) returns `i`; and distinct indices in `0..99` give distinct names.  The name is
a `std::string`, so its length is below `2^64`. -/
theorem C10_filename_round_trip (base : Str) (i : Nat) (hi : i ≤ 99)
    (hlen : (make_fn base i).length < 18446744073709551616) :
    make_fn base i = base ++ ['.'] ++ two_digits i ∧
      parse_count (make_fn base i) = .ok i ∧
      ∀ j, j ≤ 99 → j ≠ i → make_fn base j ≠ make_fn base i := by
  have h2 := (setw_fill0_lt_100 i (by omega)).1
  have hl : base.length + 3 < 18446744073709551616 := by
    rw [make_fn_eq] at hlen
    simp only [List.length_append, List.length_cons, h2] at hlen
    omega
  refine ⟨?_, parse_count_make_fn base hl i (by omega), ?_⟩
  · rw [make_fn_eq, two_digits_eq i (by omega)]; simp
  · intro j hj hne e
    exact hne (make_fn_inj base j i (by omega) (by omega) e)

/-- Witness for C10: the name of backup 7 of `rotation.log`. -/
theorem C10_filename_round_trip_witness :
    make_fn "rotation.log".toList 7 = "rotation.log".toList ++ ['.'] ++ two_digits 7 ∧
      parse_count (make_fn "rotation.log".toList 7) = .ok 7 ∧
      ∀ j, j ≤ 99 → j ≠ 7 → make_fn "rotation.log".toList j ≠ make_fn "rotation.log".toList 7 :=
  C10_filename_round_trip "rotation.log".toList 7 (by decide) (by decide)

/-- Claim C11, which the code breaks.  Let `p` be a non-empty path without separator and
`n ≥ 0`.  Then `dirname_r(p)` is `"."`, but `dirname_r` of `p` followed by `n + 1`
separators strips the separators, finds no other one and calls `erase(npos)`, which
throws `std::out_of_range`: the call does not return, so the two results differ.  The
half of the claim about `basename_r` holds: both calls return `p`. -/
theorem C11_trailing_separator_stripping (p : Str) (n : Nat) (hp : p ≠ []) (hs : '/' ∉ p)
    (hl : p.length < npos) :
    Filez.dirname_r p = .ok ['.'] ∧
    Filez.dirname_r (p ++ List.replicate (n + 1) '/') = .error .out_of_range ∧
    Filez.basename_r p = .ok p ∧
    Filez.basename_r (p ++ List.replicate (n + 1) '/') = .ok p := by
  have hpop : pop_trailing_slashes (p ++ List.replicate (n + 1) '/') = p := by
    rw [pop_trailing_slashes_append, pop_trailing_slashes_plain p hs]
  have hne : p ++ List.replicate (n + 1) '/' ≠ [] := by simp [hp]
  have hlast : find_last_of p '/' = npos := by simp [find_last_of, hs]
  have hm : '/' ∈ p ++ List.replicate (n + 1) '/' := by simp [List.replicate_succ]
  refine ⟨dirname_r_plain p hs, ?_, basename_r_plain p hs hp, ?_⟩
  · unfold Filez.dirname_r
    rw [if_neg (by
      rintro (h | h)
      · exact hne h
      · have hlen : (p ++ List.replicate (n + 1) '/').length =
          p.length + (n + 1) := by simp
        unfold find_first_of at h
        rw [if_pos hm, List.indexOf_append_of_not_mem hs] at h
        simp [List.replicate_succ] at h
        omega)]
    simp only [hpop, if_neg hp, hlast, erase, if_pos hl]
  · have h1 : find_first_not_of (p ++ List.replicate (n + 1) '/') '/' ≠ npos := by
      cases p with
      | nil => exact absurd rfl hp
      | cons c cs =>
        have hc : c ≠ '/' := fun e => hs (e ▸ List.mem_cons_self _ _)
        have ht : List.takeWhile (fun d => d == '/') (c :: cs ++ List.replicate (n + 1) '/') = [] :=
          List.takeWhile_cons_of_neg (by simpa using hc)
        simp [find_first_not_of, hc, ht, npos]
    have h2 : size_t (find_last_of p '/' + 1) = 0 := by rw [hlast]; decide
    unfold Filez.basename_r
    rw [if_neg hne, if_neg h1]
    simp only [hpop, if_neg hp, h2, substr]
    simp

/-- Witness for C11: the path `app.log` followed by one separator. -/
theorem C11_trailing_separator_stripping_witness :
    Filez.dirname_r "app.log".toList = .ok ['.'] ∧
    Filez.dirname_r ("app.log".toList ++ List.replicate (0 + 1) '/') = .error .out_of_range ∧
    Filez.basename_r "app.log".toList = .ok "app.log".toList ∧
    Filez.basename_r ("app.log".toList ++ List.replicate (0 + 1) '/') = .ok "app.log".toList :=
  C11_trailing_separator_stripping "app.log".toList 0 (by decide) (by decide) (by decide)

/-- Counterexample to C12 as stated, at three inputs with the rotation due.  First, the
hidden base path `.rotation.log` with backup 01: the inventory skips hidden entries, the
cascade renames nothing, and the one `std::rename` made, of the main file to
`.rotation.log.01`, targets a path at which a file exists; afterwards the content `one` is
stored nowhere.  Second, the base path `rotation.log` with backup 01 and a directory at
index 02: the directory is not listed, `std::rename` of backup 01 to index 02 fails on
it, and the rename of the main file then targets `rotation.log.01`, where backup 01 still
is; its content is lost.  Third, the backups 01 to 99 and a file `rotation.log.100`: the
first `std::rename` of the cascade moves backup 99 to `rotation.log.100`, where a file
exists. -/
theorem C12_counterexample :
    ((get_rotation_info fs_hidden ".rotation.log".toList).map
        (fun info => rotate_renames info fs_hidden) =
      .ok (some ([cwd_entry ".rotation.log.01" (regular "main")],
        [⟨fs_hidden, ".rotation.log".toList, ".rotation.log.01".toList⟩])) ∧
      stat fs_hidden ".rotation.log.01".toList = some (regular "one")) ∧
    ((get_rotation_info fs_directory_at_two rotation_log).map
        (fun info => rotate_renames info fs_directory_at_two) =
      .ok (some ([cwd_entry "rotation.log.01" (regular "main"),
          cwd_entry "rotation.log.02" directory],
        [⟨fs_directory_at_two, "rotation.log.01".toList, "rotation.log.02".toList⟩,
         ⟨fs_directory_at_two, "rotation.log".toList, "rotation.log.01".toList⟩])) ∧
      stat fs_directory_at_two "rotation.log.01".toList = some (regular "one")) ∧
    (∃ info fs2 log, get_rotation_info fs_full_hundred rotation_log = .ok info ∧
      rotate_renames info fs_full_hundred =
        some (fs2, ⟨fs_full_hundred, make_fn rotation_log 99, make_fn rotation_log 100⟩ :: log) ∧
      stat fs_full_hundred (make_fn rotation_log 100) = some (regular "hundred")) := by
  refine ⟨by decide!, by decide!, ?_⟩
  have hn : ordinaryName rotation_log = true := by decide!
  have hsome : ∀ i, 1 ≤ i → i ≤ 100 →
      (stat fs_full_hundred (make_fn rotation_log i)).isSome = true := by
    intro i h1 h2
    rw [fs_full_hundred_stat i h2]
    split_ifs <;> rfl
  have hnd : ∀ i, i ≤ 100 → ∀ t, stat fs_full_hundred (make_fn rotation_log i) = some t →
      S_ISDIR t.st_mode = false := by
    intro i hi t ht
    rw [fs_full_hundred_stat i hi] at ht
    split_ifs at ht <;> cases ht <;> decide
  obtain ⟨g, _, _, hg, _, hnext, _, _, _, _, _, _, _, _, info, fs1, _, hinfo, hm, hin, hout,
      hdo, _⟩ :=
    rotate_ordinary_full rotation_log hn fs_full_hundred fs_full_hundred_WF 1 0 (by omega)
      (regular "main") (by decide!) (by decide) (by omega)
      (fun i hi => hnd i (by omega)) (fun _ => hnd 100 le_rfl)
  have hg99 : g = 99 := by
    by_contra hne
    have h1 := hnext (by omega)
    have h2 := hsome (g + 1) (by omega) (by omega)
    rw [h1] at h2; cases h2
  subst hg99
  obtain ⟨fs2, log, hlog⟩ := do_rotation_log_head rotation_log hn info hm 99 le_rfl hout 98 1
    do_rotation_depth fs_full_hundred (by omega) (by unfold do_rotation_depth; omega) hin
  refine ⟨info, rename fs2 (c_str info.main) (c_str (make_fn info.main 1)),
    log ++ [⟨fs2, c_str info.main, c_str (make_fn info.main 1)⟩], hinfo, ?_,
    by rw [fs_full_hundred_stat 100 le_rfl]; rfl⟩
  unfold rotate_renames
  rw [hlog]
  rfl

/-- Claim C12, amended to the base paths and directories on which the inventory sees every
backup.  Let the base path be an ordinary file name of the working directory (not empty,
no leading `.`, no `/`, NUL or `fnmatch` pattern character), `retentionCount > 0`, the
main file present and at or above the threshold, the backups `basePath.NN` any set of
files (contiguous or with gaps), no directory at any `basePath.NN` and nothing at
`basePath.100`.  Then the `std::rename` calls of `rotate()` are the cascade renames
`g → g+1, …, 1 → 2` over the run `1..g` of present indices and the rename of the main
file to index 1, in this order; each of them moves an existing file to a path at which
nothing exists at the moment of the call; and every content stored in the working
directory before the call is stored under some name after the renames, in the file system
on which the pruning then runs. -/
theorem C12_no_backup_overwritten (name : Str) (fs : FS) (r size : Nat)
    (hn : ordinaryName name = true) (hwf : fs.WF) (hr : 0 < r)
    (hmain : (Filez.fexists fs name).1 = true)
    (hdue : size ≤ (Filez.fexists fs name).2.st_size)
    (hnd : ∀ i, i < 100 → noDirAt fs (make_fn name i) = true)
    (h100 : stat fs (make_fn name 100) = none) :
    ∃ info fs2 log info2 g,
      get_rotation_info fs name = .ok info ∧
      rotate_renames info fs = some (fs2, log) ∧
      log.map (fun c => (c.old, c.new)) =
        (List.range' 1 g).reverse.map (fun i => (make_fn name i, make_fn name (i + 1))) ++
          [(name, make_fn name 1)] ∧
      (∀ c ∈ log, stat c.before c.new = none ∧ (stat c.before c.old).isSome = true) ∧
      (∀ p, simplePath p → ∀ t, stat fs p = some t → ∃ q, simplePath q ∧ stat fs2 q = some t) ∧
      get_rotation_info fs2 name = .ok info2 ∧
      rotate ⟨name, r, size⟩ fs =
        .returns (prune_loop r info2.rotation_file_list.length info2.rotation_file_list fs2).1 := by
  obtain ⟨ino, hino, hreg, he⟩ := main_of_fexists fs name hn hmain
  rw [he] at hdue
  have hsn := simplePath_name name hn
  have hcs : c_str name = name := c_str_eq name hsn.2.2.2
  obtain ⟨g, fs2, fs3, hg, hpres, hnext, _, _, hone2, hshift2, hrest2, hrot, _, _, info, fs1,
      info2, hinfo, hm, hin, hout, hdo, hmain1, hone, hfs2, hinfo2, hfs3⟩ :=
    rotate_ordinary_full name hn fs hwf r size (by omega) ino hino hreg hdue
      (fun i hi => (noDirAt_iff _ _).mp (hnd i hi))
      (fun _ t ht => by rw [h100] at ht; cases ht)
  have hfile : ∀ i, 1 ≤ i → i ≤ g →
      ∃ t, stat fs (make_fn name i) = some t ∧ S_ISDIR t.st_mode = false := by
    intro i h1 h2
    obtain ⟨t, ht⟩ := Option.isSome_iff_exists.mp (hpres i h1 h2)
    by_cases e : i = 100
    · subst e; rw [h100] at ht; cases ht
    · exact ⟨t, ht, (noDirAt_iff _ _).mp (hnd i (by omega)) t ht⟩
  have hfree : stat fs (make_fn name (g + 1)) = none := by
    by_cases e : g < 99
    · exact hnext e
    · have : g = 99 := by omega
      subst this; exact h100
  -- the calls of the cascade
  have hcasc : ∃ log, do_rotation_log info do_rotation_depth 1 2 fs = some (fs1, log) ∧
      (∀ c ∈ log, stat c.before c.new = none ∧ (stat c.before c.old).isSome = true) ∧
      log.map (fun c => (c.old, c.new)) =
        (List.range' 1 g).reverse.map (fun i => (make_fn name i, make_fn name (i + 1))) := by
    by_cases hg0 : g = 0
    · subst hg0
      have h1 : make_fn info.main 1 ∉ info.rotation_file_list := by rw [hm]; exact hout
      have hd : do_rotation_depth = 4294967296 + 1 := rfl
      have h2 : do_rotation_log info do_rotation_depth 1 2 fs = some (fs, []) := by
        rw [hd]; unfold do_rotation_log; rw [if_pos h1]
      have h3 : fs1 = fs := by
        rw [hd, do_rotation_unlisted info _ 1 2 fs h1] at hdo
        exact (Option.some.inj hdo).symm
      subst h3
      exact ⟨[], h2, fun c hc => (by cases hc), rfl⟩
    · obtain ⟨fs1b, log, hlog, hprop, hnames⟩ :=
        do_rotation_log_run name hn info hm g hg hout (g - 1) 1 do_rotation_depth fs (by omega)
          (by unfold do_rotation_depth; omega) hin hfile hfree
      have hsame : fs1b = fs1 := by
        have := do_rotation_log_fst info do_rotation_depth 1 2 fs
        rw [hlog, hdo] at this
        exact Option.some.inj this
      subst hsame
      rw [show g - 1 + 1 = g from by omega] at hnames
      exact ⟨log, hlog, hprop, hnames⟩
  obtain ⟨log, hlog, hprop, hnames⟩ := hcasc
  refine ⟨info, fs2, log ++ [⟨fs1, name, make_fn name 1⟩], info2, g, hinfo, ?_, ?_, ?_, ?_,
    hinfo2, by rw [hrot, hfs3]⟩
  · unfold rotate_renames
    rw [hlog, hm, hcs, c_str_make_fn name hn 1 (by omega), hfs2]
    rfl
  · rw [List.map_append, hnames]
    rfl
  · intro c hc
    rcases List.mem_append.mp hc with hc | hc
    · exact hprop c hc
    · rw [List.mem_singleton] at hc
      subst hc
      exact ⟨hone, by rw [hmain1]; rfl⟩
  · intro p hp t ht
    by_cases e1 : p = name
    · subst e1
      rw [hino] at ht
      exact ⟨make_fn p 1, simplePath_make_fn p hn 1 (by omega), by rw [hone2, ← ht]⟩
    · by_cases e2 : ∃ i, 1 ≤ i ∧ i ≤ g + 1 ∧ p = make_fn name i
      · obtain ⟨i, h1, h2, rfl⟩ := e2
        by_cases e3 : i = g + 1
        · subst e3; rw [hfree] at ht; cases ht
        · exact ⟨make_fn name (i + 1), simplePath_make_fn name hn (i + 1) (by omega),
            by rw [hshift2 i h1 (by omega), ht]⟩
      · refine ⟨p, hp, ?_⟩
        rw [hrest2 p hp e1 (fun i h1 h2 e => e2 ⟨i, h1, h2, e⟩), ht]

/-- Witness for C12: the backups 01 and 03 of `rotation.log` (a gap at 02), retention
count 5. -/
theorem C12_no_backup_overwritten_witness :
    ∃ info fs2 log info2 g,
      get_rotation_info fs_gap rotation_log = .ok info ∧
      rotate_renames info fs_gap = some (fs2, log) ∧
      log.map (fun c => (c.old, c.new)) =
        (List.range' 1 g).reverse.map
            (fun i => (make_fn rotation_log i, make_fn rotation_log (i + 1))) ++
          [(rotation_log, make_fn rotation_log 1)] ∧
      (∀ c ∈ log, stat c.before c.new = none ∧ (stat c.before c.old).isSome = true) ∧
      (∀ p, simplePath p → ∀ t, stat fs_gap p = some t →
        ∃ q, simplePath q ∧ stat fs2 q = some t) ∧
      get_rotation_info fs2 rotation_log = .ok info2 ∧
      rotate ⟨rotation_log, 5, 0⟩ fs_gap =
        .returns (prune_loop 5 info2.rotation_file_list.length info2.rotation_file_list fs2).1 :=
  C12_no_backup_overwritten rotation_log fs_gap 5 0 (by decide!) (by decide!) (by decide)
    (by decide!) (by decide!) (by decide!) (by decide!)

/-- Counterexample to C13 as stated.  The base path `rotation.log` has the backups 01 and
03, so the run from index 1 is `{1}` and index 2 is the gap; retention count 2, rotation
due.  The cascade leaves backup 03 alone, but the pruning loop works on the inventory
taken after the renames, `[.01, .02, .03]`, and deletes its last name: backup 03, a file
beyond the gap, does not exist afterwards. -/
theorem C13_counterexample :
    stat fs_gap (make_fn rotation_log 2) = none ∧
    stat fs_gap (make_fn rotation_log 3) = some (regular "three") ∧
    rotate ⟨rotation_log, 2, 0⟩ fs_gap =
      .returns [cwd_entry "rotation.log.01" (regular "main"),
        cwd_entry "rotation.log.02" (regular "one")] := by decide!

/-- Claim C13, amended by what the pruning loop does.  Let the base path be an ordinary
file name of the working directory (not empty, no leading `.`, no `/`, NUL or `fnmatch`
pattern character), `retentionCount > 0`, the main file present and at or above the
threshold, no directory at any `basePath.NN` up to index 100, the indices `1..g` present
and index `g+1` absent.  Then `rotate()` returns, and every backup with an index `j`
above `g+1` is never shifted: afterwards the path `basePath.j` holds what it held before
if the number of backups with an index of at most `j` (before the call) is below
`retentionCount`, and nothing otherwise (the pruning loop has deleted it as one of the
highest-indexed names in excess). -/
theorem C13_beyond_the_gap (name : Str) (fs : FS) (r size g : Nat)
    (hn : ordinaryName name = true) (hwf : fs.WF) (hr : 0 < r)
    (hmain : (Filez.fexists fs name).1 = true)
    (hdue : size ≤ (Filez.fexists fs name).2.st_size)
    (hnd : ∀ i, i ≤ 100 → noDirAt fs (make_fn name i) = true)
    (hg : g < 99)
    (hrun : ∀ i, 1 ≤ i → i ≤ g → fileAt fs (make_fn name i) = true)
    (hgap : stat fs (make_fn name (g + 1)) = none) :
    ∃ fs2, rotate ⟨name, r, size⟩ fs = .returns fs2 ∧
      ∀ j, g + 1 < j → j < 100 →
        stat fs2 (make_fn name j) =
          if ((present fs name).filter (fun i => decide (i ≤ j))).length < r
          then stat fs (make_fn name j) else none := by
  obtain ⟨ino, fs2, fs3, _, _, _, _, hone, hshift, hrest, hrot, _, hstat3⟩ :=
    rotate_run name hn fs hwf r size g (by omega) hmain hdue hnd (by omega) hrun (fun _ => hgap)
  refine ⟨fs3, hrot, fun j hj1 hj2 => ?_⟩
  have hsp := simplePath_make_fn name hn j (by omega)
  have hsame : stat fs2 (make_fn name j) = stat fs (make_fn name j) :=
    hrest _ hsp (make_fn_ne_name name j)
      (fun i h1 h2 e => by have := make_fn_inj name _ _ (by omega) (by omega) e; omega)
  rw [hstat3 _ hsp, hsame]
  cases hs : stat fs (make_fn name j) with
  | none => simp
  | some t =>
    have hrunP : ∀ i, 1 ≤ i ∧ i ≤ g → i ∈ present fs name := by
      rintro i ⟨h1, h2⟩
      obtain ⟨t, ht, _⟩ := (fileAt_iff _ _).mp (hrun i h1 h2)
      exact (mem_present fs name i).mpr ⟨by omega, by rw [ht]; rfl⟩
    have hgP : g + 1 ∉ present fs name := by
      intro h
      have := ((mem_present fs name _).mp h).2
      rw [hgap] at this; cases this
    have hmem : ∀ i, i ∈ present fs2 name ↔ i ∈ present fs name ∨ i = g + 1 := by
      intro i
      by_cases hi : 1 ≤ i ∧ i ≤ g
      · rw [present_after_cascade name hn fs fs2 g hg ino hrun hone hshift hrest i (fun _ => hrunP i hi)]
        constructor
        · rintro (⟨h, _⟩ | h)
          · exact Or.inl h
          · exact Or.inr h
        · rintro (h | h)
          · exact Or.inl ⟨h, by omega⟩
          · exact Or.inr h
      · rw [present_after_cascade name hn fs fs2 g hg ino hrun hone hshift hrest i
          (fun h => absurd h hi)]
        constructor
        · rintro (⟨h, _⟩ | h)
          · exact Or.inl h
          · exact Or.inr h
        · rintro (h | h)
          · exact Or.inl ⟨h, fun e => hgP (e ▸ h)⟩
          · exact Or.inr h
    have hj2P : j ∈ present fs2 name :=
      (hmem j).mpr (Or.inl ((mem_present fs name j).mpr ⟨hj2, by rw [hs]; rfl⟩))
    have hcount := length_filter_insert (present fs name) (present fs2 name)
      (present_sorted fs name).nodup (present_sorted fs2 name).nodup (g + 1) j hgP (by omega) hmem
    have hdrop : make_fn name j ∈ ((present fs2 name).map (make_fn name)).drop r ↔
        j ∈ (present fs2 name).drop r := by
      rw [← List.map_drop, List.mem_map]
      constructor
      · rintro ⟨i, hi, e⟩
        have hi2 := ((mem_present fs2 name i).mp (List.mem_of_mem_drop hi)).1
        have := make_fn_inj name i j (by omega) (by omega) e
        exact this ▸ hi
      · intro h; exact ⟨j, h, rfl⟩
    have hiff := hdrop.trans (mem_drop_ascending j _ r (present_sorted fs2 name) hj2P)
    rw [hcount] at hiff
    by_cases hc : ((present fs name).filter (fun i => decide (i ≤ j))).length < r
    · rw [if_pos hc, if_neg (fun h => by have := hiff.mp h; omega)]
    · rw [if_neg hc, if_pos (hiff.mpr (by omega))]

/-- Witness for C13: the backups 01 and 03 of `rotation.log` with retention count 2, where
backup 03 is deleted, as two backups have an index of at most 3. -/
theorem C13_beyond_the_gap_witness :
    ∃ fs2, rotate ⟨rotation_log, 2, 0⟩ fs_gap = .returns fs2 ∧
      ∀ j, 1 + 1 < j → j < 100 →
        stat fs2 (make_fn rotation_log j) =
          if ((present fs_gap rotation_log).filter (fun i => decide (i ≤ j))).length < 2
          then stat fs_gap (make_fn rotation_log j) else none :=
  C13_beyond_the_gap rotation_log fs_gap 2 0 1 (by decide!) (by decide!) (by decide)
    (by decide!) (by decide!) (by decide!) (by decide) (by decide!) (by decide!)

/-- Counterexample to C14 as stated, at `retentionCount = 99` and `k = 99`.  The base path
`rotation.log` has exactly the backups 01 to 99; the rotation is due.  The cascade renames
backup 99 to `make_fn(main, 100)`, the three-digit name `rotation.log.100`, which the
two-digit mask of the inventory never lists; so nothing is pruned, and afterwards the
former backup 99 is stored under a name with three digits and there are 100 files named
`rotation.log.` + digits, more than the retention count. -/
theorem C14_counterexample :
    make_fn rotation_log 100 = "rotation.log.100".toList ∧
    (∀ i, i ≤ 100 → stat fs_full (make_fn rotation_log i) =
        if 1 ≤ i ∧ i ≤ 99 then some (regular "old") else none) ∧
    ∃ fs2, rotate ⟨rotation_log, 99, 0⟩ fs_full = .returns fs2 ∧
      stat fs2 (make_fn rotation_log 100) = some (regular "old") ∧
      ∀ i, 1 ≤ i → i ≤ 99 → (stat fs2 (make_fn rotation_log i)).isSome = true := by
  have hn : ordinaryName rotation_log = true := by decide!
  have hfile : ∀ i, 1 ≤ i → i ≤ 99 → fileAt fs_full (make_fn rotation_log i) = true := by
    intro i h1 h2
    rw [fileAt_iff, fs_full_stat i (by omega), if_pos ⟨h1, h2⟩]
    exact ⟨_, rfl, by decide⟩
  have hnd : ∀ i, i ≤ 100 → noDirAt fs_full (make_fn rotation_log i) = true := by
    intro i hi
    rw [noDirAt_iff, fs_full_stat i hi]
    intro t ht
    split_ifs at ht
    cases ht; decide
  obtain ⟨ino, fs2, fs3, _, _, _, _, hone, hshift, hrest, hrot, _, hstat3⟩ :=
    rotate_run rotation_log hn fs_full fs_full_WF 99 0 99 (by omega) (by decide!) (by omega) hnd
      le_rfl hfile (fun h => absurd h (by omega))
  have hsome : ∀ i, 1 ≤ i → i ≤ 100 → (stat fs2 (make_fn rotation_log i)).isSome = true := by
    intro i h1 h2
    by_cases e : i = 1
    · subst e; rw [hone]; rfl
    · have := hshift (i - 1) (by omega) (by omega)
      rw [show i - 1 + 1 = i from by omega] at this
      rw [this, fs_full_stat (i - 1) (by omega), if_pos ⟨by omega, by omega⟩]
      rfl
  have hzero : 0 ∉ present fs2 rotation_log := by
    intro h
    have h2 := ((mem_present _ _ _).mp h).2
    rw [hrest _ (simplePath_make_fn rotation_log hn 0 (by omega)) (make_fn_ne_name _ 0)
      (fun j h1 h2 e => by
        have := make_fn_inj rotation_log _ _ (by omega) (by omega) e; omega),
      fs_full_stat 0 (by omega)] at h2
    cases h2
  have hlen : (present fs2 rotation_log).length ≤ 99 := by
    have hsub : present fs2 rotation_log ⊆ List.range' 1 99 := by
      intro i hi
      have h1 := ((mem_present _ _ _).mp hi).1
      have h0 : i ≠ 0 := fun e => hzero (e ▸ hi)
      rw [List.mem_range'_1]; omega
    have := (List.subperm_of_subset (present_sorted fs2 rotation_log).nodup hsub).length_le
    simpa using this
  have hdrop : ((present fs2 rotation_log).map (make_fn rotation_log)).drop 99 = [] :=
    List.drop_eq_nil_of_le (by simpa using hlen)
  have hsame : ∀ p, simplePath p → stat fs3 p = stat fs2 p := by
    intro p hp
    rw [hstat3 p hp, hdrop]
    simp
  refine ⟨by decide!, fs_full_stat, fs3, hrot, ?_, fun i h1 h2 => ?_⟩
  · rw [hsame _ (simplePath_make_fn rotation_log hn 100 (by omega)),
      hshift 99 (by omega) le_rfl, fs_full_stat 99 (by omega)]
    rfl
  · rw [hsame _ (simplePath_make_fn rotation_log hn i (by omega))]
    exact hsome i h1 (by omega)

/-- Claim C14, amended to at most 98 backups at the start.  Let the base path be an
ordinary file name of the working directory (not empty, no leading `.`, no `/`, NUL or
`fnmatch` pattern character), `retentionCount = r < 100`, `k ≤ r` and `k < 99`, the main
file present and at or above the threshold, and let the files named `basePath + "."` +
decimal digits (of any width) be exactly the backups `.01 … .k`.  Then `rotate()` returns,
the former backup `i` is stored at `basePath.(i+1)` for every `i` with `i + 1 ≤ min(k+1, r)`,
and afterwards the files named `basePath + "."` + decimal digits are exactly
`.01 … .min(k+1, r)`, all with two digits and at most `r` in number. -/
theorem C14_two_digit_retention (name : Str) (fs : FS) (r size k : Nat)
    (hn : ordinaryName name = true) (hwf : fs.WF) (hr : r < 100) (hkr : k ≤ r) (hk : k < 99)
    (hmain : (Filez.fexists fs name).1 = true)
    (hdue : size ≤ (Filez.fexists fs name).2.st_size)
    (hin : ∀ i, 1 ≤ i → i ≤ k → fileAt fs (make_fn name i) = true)
    (hout : ∀ ds : Str, ds ≠ [] → (∀ c ∈ ds, isDigit c = true) →
      (∀ i, 1 ≤ i → i ≤ k → ds ≠ two_digits i) → stat fs (name ++ '.' :: ds) = none) :
    ∃ fs2, rotate ⟨name, r, size⟩ fs = .returns fs2 ∧
      (∀ i, 1 ≤ i → i + 1 ≤ min (k + 1) r →
        stat fs2 (make_fn name (i + 1)) = stat fs (make_fn name i)) ∧
      (∀ ds : Str, ds ≠ [] → (∀ c ∈ ds, isDigit c = true) →
        ((stat fs2 (name ++ '.' :: ds)).isSome = true ↔
          ∃ i, 1 ≤ i ∧ i ≤ min (k + 1) r ∧ ds = two_digits i)) ∧
      ((List.range' 1 (min (k + 1) r)).map two_digits).length ≤ r := by
  have hlenr : ((List.range' 1 (min (k + 1) r)).map two_digits).length ≤ r := by
    simp
  -- the state at the start, index by index
  have hnone : ∀ i, i < 101 → ¬(1 ≤ i ∧ i ≤ k) → stat fs (make_fn name i) = none := by
    intro i hi hnot
    rw [make_fn_eq]
    apply hout
    · intro e
      have := congrArg List.length e
      by_cases h100 : i = 100
      · subst h100; rw [setw_fill0_100] at this; simp at this
      · rw [(setw_fill0_lt_100 i (by omega)).1] at this; simp at this
    · exact setw_fill0_chars i hi
    · intro j h1 h2 e
      by_cases h100 : i = 100
      · subst h100; exact setw_fill0_100_ne j (by omega) e
      · rw [two_digits_eq i (by omega)] at e
        have := two_digits_inj i j (by omega) (by omega) e
        omega
  by_cases hr0 : r = 0
  · subst hr0
    have hk0 : k = 0 := by omega
    subst hk0
    refine ⟨fs, rotate_disabled _ fs rfl, fun i h1 h2 => by simp at h2, fun ds h1 h2 => ?_, hlenr⟩
    rw [hout ds h1 h2 (fun i h3 h4 => by omega)]
    constructor
    · intro h; cases h
    · rintro ⟨j, hj1, hj2, _⟩
      omega
  have hnd : ∀ i, i ≤ 100 → noDirAt fs (make_fn name i) = true := by
    intro i hi
    rw [noDirAt_iff]
    intro t ht
    by_cases e : 1 ≤ i ∧ i ≤ k
    · obtain ⟨t2, ht2, hd⟩ := (fileAt_iff _ _).mp (hin i e.1 e.2)
      rw [ht2] at ht; cases ht; exact hd
    · rw [hnone i (by omega) e] at ht; cases ht
  obtain ⟨ino, hino, hreg, he⟩ := main_of_fexists fs name hn hmain
  obtain ⟨fs3, hrot, _, _, hpres, _, hshift, _, hother⟩ :=
    rotate_exact name hn fs hwf r size hr0 ino hino hreg (by rw [he] at hdue; exact hdue) k
      (by omega) (fun i h1 h2 => (fileAt_iff _ _).mp (hin i h1 h2))
      (fun i hi hnot => hnone i (by omega) hnot)
      ((noDirAt_iff _ _).mp (hnd 100 le_rfl))
  obtain ⟨_, fs2b, fs3b, _, _, _, _, _, _, hrest, hrotb, _, hstat3⟩ :=
    rotate_run name hn fs hwf r size k hr0 hmain hdue hnd (by omega) hin
      (fun _ => hnone (k + 1) (by omega) (by omega))
  have hsame : fs3b = fs3 := Outcome.returns.inj (hrotb.symm.trans hrot)
  subst hsame
  have hmin : min r (min (k + 1) 99) = min (k + 1) r := by omega
  rw [hmin] at hpres hshift
  have h100 : stat fs3b (make_fn name 100) = none := by
    have hsp := simplePath_make_fn name hn 100 (by omega)
    rw [hstat3 _ hsp, hrest _ hsp (make_fn_ne_name name 100)
      (fun i h1 h2 e => by have := make_fn_inj name _ _ (by omega) (by omega) e; omega),
      hnone 100 (by omega) (by omega)]
    simp
  refine ⟨fs3b, hrot, hshift, fun ds h1 h2 => ?_, hlenr⟩
  obtain ⟨hsp, hne⟩ := simplePath_digit_suffix name hn ds h2
  rcases digit_suffix_cases name ds with ⟨i, hi, rfl⟩ | hno
  · rw [← make_fn_eq]
    by_cases e100 : i = 100
    · subst e100
      rw [h100]
      constructor
      · intro h; cases h
      · rintro ⟨j, _, hj, e⟩
        exact absurd e (setw_fill0_100_ne j (by omega))
    · rw [hpres i (by omega), two_digits_eq i (by omega)]
      constructor
      · intro h; exact ⟨i, h.1, h.2, rfl⟩
      · rintro ⟨j, hj1, hj2, e⟩
        have := two_digits_inj i j (by omega) (by omega) e
        subst this; exact ⟨hj1, hj2⟩
  · rw [hother _ hsp hne hno, hout ds h1 h2 (fun i hi1 hi2 e => by
      apply hno i (by omega)
      rw [make_fn_eq, two_digits_eq i (by omega), e])]
    constructor
    · intro h; cases h
    · rintro ⟨j, hj1, hj2, e⟩
      exfalso
      apply hno j (by omega)
      rw [make_fn_eq, two_digits_eq j (by omega), e]

/-- Witness for C14: the backups 01, 02, 03 of `rotation.log` with retention count 3. -/
theorem C14_two_digit_retention_witness :
    ∃ fs2, rotate ⟨rotation_log, 3, 0⟩ fs_three_backups = .returns fs2 ∧
      (∀ i, 1 ≤ i → i + 1 ≤ min (3 + 1) 3 →
        stat fs2 (make_fn rotation_log (i + 1)) = stat fs_three_backups (make_fn rotation_log i)) ∧
      (∀ ds : Str, ds ≠ [] → (∀ c ∈ ds, isDigit c = true) →
        ((stat fs2 (rotation_log ++ '.' :: ds)).isSome = true ↔
          ∃ i, 1 ≤ i ∧ i ≤ min (3 + 1) 3 ∧ ds = two_digits i)) ∧
      ((List.range' 1 (min (3 + 1) 3)).map two_digits).length ≤ 3 :=
  C14_two_digit_retention rotation_log fs_three_backups 3 0 3 (by decide!) (by decide!)
    (by decide) (by decide) (by decide) (by decide!) (by decide!) (by decide!)
    fs_three_backups_digit_suffix

/-- Claim C15.  Let `dirname_r` return for the base path and let the inventory (the list
that `directory_list` returns for the mask of the base path) be non-empty and consist of
pairwise distinct names of the form `basePath + "." + two digits`.  Then
`get_rotation_info` returns with a `rotation_file_list` that is a rearrangement of the
inventory; `first_count` and `last_count` are indices of names of the inventory, every
index of the inventory lies between them, and `first_count ≤ last_count`; and
`contiguous` is true if and only if every integer from `first_count` to `last_count` is
the index of a name of the inventory, which holds if and only if
`last_count - first_count + 1` is the number of names of the inventory.  The same two
equivalences hold read on the returned `rotation_file_list`. -/
theorem C15_contiguous_flag (fs : FS) (name dir : Str)
    (hdir : Filez.dirname_r name = .ok dir) (hlen : name.length + 3 < 18446744073709551616)
    (hne : Filez.directory_list fs dir Filez.LT_Files (wild name) ≠ [])
    (hform : ∀ e ∈ Filez.directory_list fs dir Filez.LT_Files (wild name),
      ∃ i, i < 100 ∧ e = make_fn name i)
    (hnd : (Filez.directory_list fs dir Filez.LT_Files (wild name)).Nodup) :
    ∃ info, get_rotation_info fs name = .ok info ∧
      info.rotation_file_list.Perm (Filez.directory_list fs dir Filez.LT_Files (wild name)) ∧
      make_fn name info.first_count ∈ Filez.directory_list fs dir Filez.LT_Files (wild name) ∧
      make_fn name info.last_count ∈ Filez.directory_list fs dir Filez.LT_Files (wild name) ∧
      (∀ i, make_fn name i ∈ Filez.directory_list fs dir Filez.LT_Files (wild name) →
        info.first_count ≤ i ∧ i ≤ info.last_count) ∧
      info.first_count ≤ info.last_count ∧
      (info.contiguous = true ↔
        ∀ j, info.first_count ≤ j → j ≤ info.last_count →
          make_fn name j ∈ Filez.directory_list fs dir Filez.LT_Files (wild name)) ∧
      (info.contiguous = true ↔
        info.last_count - info.first_count + 1 =
          (Filez.directory_list fs dir Filez.LT_Files (wild name)).length) ∧
      (info.contiguous = true ↔
        ∀ j, info.first_count ≤ j → j ≤ info.last_count →
          make_fn name j ∈ info.rotation_file_list) ∧
      (info.contiguous = true ↔
        info.last_count - info.first_count + 1 = info.rotation_file_list.length) := by
  obtain ⟨info, I, hget, hI, hp, hlt, hlenI, _, hcounts⟩ :=
    get_rotation_info_two_digit fs name dir hdir hlen hform hnd
  have hperm : info.rotation_file_list.Perm
      (Filez.directory_list fs dir Filez.LT_Files (wild name)) := by
    rw [get_rotation_info_list fs name dir info hdir hget]
    exact std_sort_perm _
  have hIne : I ≠ [] := by
    intro h
    rw [h, List.length_nil] at hlenI
    exact hne (List.length_eq_zero.mp hlenI.symm)
  obtain ⟨a, ha⟩ : ∃ a, I.head? = some a := by
    cases I with
    | nil => exact absurd rfl hIne
    | cons x t => exact ⟨x, rfl⟩
  obtain ⟨b, hb⟩ : ∃ b, I.getLast? = some b := by
    cases h : I.getLast? with
    | none => exact absurd (List.getLast?_eq_none_iff.mp h) hIne
    | some b => exact ⟨b, rfl⟩
  obtain ⟨hf, hl, hc⟩ := hcounts a b ha hb
  obtain ⟨hbd, hab, haI, hbI⟩ := ascending_bounds I hp a b ha hb
  have hlenL : info.rotation_file_list.length = I.length := by rw [hI, List.length_map]
  have hmem : ∀ j, (make_fn name j ∈ info.rotation_file_list ↔ j ∈ I) := by
    intro j
    rw [hI, List.mem_map]
    constructor
    · rintro ⟨i, hi, e⟩
      exact (make_fn_injective name i j e) ▸ hi
    · intro h; exact ⟨j, h, rfl⟩
  have hinv : ∀ j, (make_fn name j ∈ Filez.directory_list fs dir Filez.LT_Files (wild name) ↔
      j ∈ I) := fun j => (hperm.mem_iff).symm.trans (hmem j)
  have hiff : info.contiguous = true ↔ b - a + 1 = I.length := by rw [hc]; simp
  refine ⟨info, hget, hperm, ?_, ?_, ?_, by rw [hf, hl]; exact hab, ?_, ?_, ?_, ?_⟩
  · rw [hf]; exact (hinv a).mpr haI
  · rw [hl]; exact (hinv b).mpr hbI
  · intro i hi
    rw [hf, hl]
    exact hbd i ((hinv i).mp hi)
  · rw [hiff, ← no_gap_iff I hp a b ha hb, hf, hl]
    constructor
    · intro h j h1 h2; exact (hinv j).mpr (h j h1 h2)
    · intro h j h1 h2; exact (hinv j).mp (h j h1 h2)
  · rw [hiff, hf, hl, hlenI]
  · rw [hiff, ← no_gap_iff I hp a b ha hb, hf, hl]
    constructor
    · intro h j h1 h2; exact (hmem j).mpr (h j h1 h2)
    · intro h j h1 h2; exact (hmem j).mp (h j h1 h2)
  · rw [hiff, hf, hl, hlenL]

/-- Witness for C15: the backups 01 and 03 of `rotation.log`; index 02 is missing and
`contiguous` is false. -/
theorem C15_contiguous_flag_witness :
    ∃ info, get_rotation_info fs_gap rotation_log = .ok info ∧
      info.rotation_file_list.Perm
        (Filez.directory_list fs_gap ['.'] Filez.LT_Files (wild rotation_log)) ∧
      make_fn rotation_log info.first_count ∈
        Filez.directory_list fs_gap ['.'] Filez.LT_Files (wild rotation_log) ∧
      make_fn rotation_log info.last_count ∈
        Filez.directory_list fs_gap ['.'] Filez.LT_Files (wild rotation_log) ∧
      (∀ i, make_fn rotation_log i ∈
          Filez.directory_list fs_gap ['.'] Filez.LT_Files (wild rotation_log) →
        info.first_count ≤ i ∧ i ≤ info.last_count) ∧
      info.first_count ≤ info.last_count ∧
      (info.contiguous = true ↔
        ∀ j, info.first_count ≤ j → j ≤ info.last_count →
          make_fn rotation_log j ∈
            Filez.directory_list fs_gap ['.'] Filez.LT_Files (wild rotation_log)) ∧
      (info.contiguous = true ↔
        info.last_count - info.first_count + 1 =
          (Filez.directory_list fs_gap ['.'] Filez.LT_Files (wild rotation_log)).length) ∧
      (info.contiguous = true ↔
        ∀ j, info.first_count ≤ j → j ≤ info.last_count →
          make_fn rotation_log j ∈ info.rotation_file_list) ∧
      (info.contiguous = true ↔
        info.last_count - info.first_count + 1 = info.rotation_file_list.length) :=
  C15_contiguous_flag fs_gap rotation_log ['.'] (by decide!) (by decide) (by decide!)
    (fun e he => by
      obtain ⟨i, hi, rfl, _⟩ :=
        (mem_inventory fs_gap (by decide!) rotation_log (by decide!) e).mp he
      exact ⟨i, hi, rfl⟩)
    (nodup_inventory fs_gap (by decide!) _)

/-- Claim C16.  Let `dirname_r` return for the base path and let every name of the
inventory (the list that `directory_list` returns for the mask of the base path, in a
directory whose entries are distinct) have the form `basePath + "." + two digits`.  Then
`get_rotation_info` returns with a `rotation_file_list` that is a rearrangement of the
inventory in ascending lexicographic order, and that is the list of the names
`make_fn(basePath, i)` for a strictly ascending list `I` of indices below 100; `I` holds
exactly the indices of the names of the inventory, each index being what the inventory's
parse reads back from its name; `first_count` and `last_count` belong to `I` when it is
not empty, every index of `I` lies between them, and `first_count ≤ last_count`. -/
theorem C16_sorted_by_index (fs : FS) (name dir : Str) (hwf : fs.WF)
    (hdir : Filez.dirname_r name = .ok dir) (hlen : name.length + 3 < 18446744073709551616)
    (hform : ∀ e ∈ Filez.directory_list fs dir Filez.LT_Files (wild name),
      ∃ i, i < 100 ∧ e = make_fn name i) :
    ∃ info I, get_rotation_info fs name = .ok info ∧
      info.rotation_file_list.Perm (Filez.directory_list fs dir Filez.LT_Files (wild name)) ∧
      info.rotation_file_list.Pairwise (fun a b => a ≤ b) ∧
      (∀ i, i ∈ I ↔
        make_fn name i ∈ Filez.directory_list fs dir Filez.LT_Files (wild name)) ∧
      I.length = (Filez.directory_list fs dir Filez.LT_Files (wild name)).length ∧
      info.rotation_file_list = I.map (make_fn name) ∧
      I.Pairwise (· < ·) ∧
      (∀ i ∈ I, i < 100 ∧ parse_count (make_fn name i) = .ok i) ∧
      (I ≠ [] → info.first_count ∈ I ∧ info.last_count ∈ I) ∧
      (∀ i ∈ I, info.first_count ≤ i ∧ i ≤ info.last_count) ∧
      info.first_count ≤ info.last_count := by
  obtain ⟨info, I, hget, hI, hp, hlt, hlenI, hnil, hcounts⟩ :=
    get_rotation_info_two_digit fs name dir hdir hlen hform
      (nodup_directory_list fs hwf dir (wild name))
  have hperm : info.rotation_file_list.Perm
      (Filez.directory_list fs dir Filez.LT_Files (wild name)) := by
    rw [get_rotation_info_list fs name dir info hdir hget]
    exact std_sort_perm _
  have hsorted : info.rotation_file_list.Pairwise (fun a b => a ≤ b) := by
    rw [hI, List.pairwise_map]
    refine hp.imp_of_mem ?_
    intro a b ha hb hab
    exact make_fn_le name a b (hlt a ha) (hlt b hb) (Nat.le_of_lt hab)
  have hmem : ∀ i, i ∈ I ↔
      make_fn name i ∈ Filez.directory_list fs dir Filez.LT_Files (wild name) := by
    intro i
    rw [← hperm.mem_iff, hI, List.mem_map]
    constructor
    · intro h; exact ⟨i, h, rfl⟩
    · rintro ⟨j, hj, e⟩
      exact (make_fn_injective name j i e) ▸ hj
  refine ⟨info, I, hget, hperm, hsorted, hmem, hlenI, hI, hp,
    fun i hi => ⟨hlt i hi, parse_count_make_fn name hlen i (hlt i hi)⟩, ?_⟩
  cases hh : I.head? with
  | none =>
    have hn : I = [] := List.head?_eq_none_iff.mp hh
    obtain ⟨h1, h2, _⟩ := hnil hn
    subst hn
    exact ⟨fun h => absurd rfl h, fun i hi => (by cases hi), by rw [h1, h2]⟩
  | some a =>
    cases hl : I.getLast? with
    | none => rw [List.getLast?_eq_none_iff] at hl; subst hl; cases hh
    | some b =>
      obtain ⟨hf, hla, _⟩ := hcounts a b hh hl
      obtain ⟨hbd, hab, ha, hb⟩ := ascending_bounds I hp a b hh hl
      rw [hf, hla]
      exact ⟨fun _ => ⟨ha, hb⟩, hbd, hab⟩

/-- Witness for C16: the backups 01 to 06 of `rotation.log`. -/
theorem C16_sorted_by_index_witness :
    ∃ info I, get_rotation_info fs_six_backups rotation_log = .ok info ∧
      info.rotation_file_list.Perm
        (Filez.directory_list fs_six_backups ['.'] Filez.LT_Files (wild rotation_log)) ∧
      info.rotation_file_list.Pairwise (fun a b => a ≤ b) ∧
      (∀ i, i ∈ I ↔
        make_fn rotation_log i ∈
          Filez.directory_list fs_six_backups ['.'] Filez.LT_Files (wild rotation_log)) ∧
      I.length =
        (Filez.directory_list fs_six_backups ['.'] Filez.LT_Files (wild rotation_log)).length ∧
      info.rotation_file_list = I.map (make_fn rotation_log) ∧
      I.Pairwise (· < ·) ∧
      (∀ i ∈ I, i < 100 ∧ parse_count (make_fn rotation_log i) = .ok i) ∧
      (I ≠ [] → info.first_count ∈ I ∧ info.last_count ∈ I) ∧
      (∀ i ∈ I, info.first_count ≤ i ∧ i ≤ info.last_count) ∧
      info.first_count ≤ info.last_count :=
  C16_sorted_by_index fs_six_backups rotation_log ['.'] (by decide!) (by decide!) (by decide)
    (fun e he => by
      obtain ⟨i, hi, rfl, _⟩ :=
        (mem_inventory fs_six_backups (by decide!) rotation_log (by decide!) e).mp he
      exact ⟨i, hi, rfl⟩)

/-- Claim C17, which the code breaks.  `fexists` and `dexists` test one bit of `st_mode`
(`st_mode & S_IFREG`, `st_mode & S_IFDIR`) where `getFileType` compares the whole type
field (`S_ISREG`, `S_ISDIR`).  For a socket (`S_IFSOCK = 0140000` holds both bits) `stat`
succeeds and `fexists` and `dexists` both return true, though `getFileType` returns
`FT_Socket`; for a block device (`S_IFBLK = 0060000`) `dexists` returns true, though
`getFileType` returns `FT_BlkDev`.  The other half of each equivalence holds on every
input: a regular file passes `fexists`, a directory passes `dexists`, and both return
false when `stat` fails. -/
theorem C17_type_queries_misclassify :
    ((Filez.fexists fs_special "log.sock".toList).1 = true ∧
      (Filez.dexists fs_special "log.sock".toList).1 = true ∧
      Filez.getFileType fs_special "log.sock".toList = .FT_Socket) ∧
    ((Filez.dexists fs_special "sda".toList).1 = true ∧
      Filez.getFileType fs_special "sda".toList = .FT_BlkDev) ∧
    (∀ (fs : FS) (name : Str),
      (Filez.getFileType fs name = .FT_Regular → (Filez.fexists fs name).1 = true) ∧
      (Filez.getFileType fs name = .FT_Directory → (Filez.dexists fs name).1 = true) ∧
      (stat fs (c_str name) = none →
        (Filez.fexists fs name).1 = false ∧ (Filez.dexists fs name).1 = false)) := by
  refine ⟨by decide!, by decide!, fun fs name => ?_⟩
  cases hs : stat fs (c_str name) with
  | none => simp [Filez.getFileType, Filez.fexists, Filez.dexists, Filez.exists, hs]
  | some ino =>
    have he : Filez.exists fs name = (true, ino) := by simp [Filez.exists, hs]
    refine ⟨fun h => ?_, fun h => ?_, fun h => by cases h⟩
    · have hr : S_ISREG ino.st_mode = true := by
        by_contra hc
        simp only [Filez.getFileType, he, if_true, if_neg hc] at h
        split_ifs at h
      have := fexists_of_regular _ hr
      simp [Filez.fexists, he, this]
    · have hr : S_ISDIR ino.st_mode = true := by
        by_contra hc
        simp only [Filez.getFileType, he, if_true, if_neg hc] at h
        split_ifs at h
      have := dexists_of_directory _ hr
      simp [Filez.dexists, he, this]

/-- Counterexample to C18 as stated, at two inputs.  First, `rotate()` itself on the base
path `*[` (retention count 1, threshold 0) in a working directory that holds the main file
and a backup `make_fn("*[", s)` for every `s` from 0 to `2^32 - 1`: the unescaped glob mask
`*[.[0-9][0-9]` reads `[.[0-9]` as one bracket expression and matches every one of these
names, all are listed, and the cascade `do_rotation(1,2)` never returns.  Each call finds
`make_fn(main, f)` and `make_fn(main, s)` listed and recurses, and after `s = 2^32 - 1` the
`uint32_t` index wraps to 0, so the descent repeats itself.  Second, the cascade alone on
the finite list of the `2^32` names `make_fn(main, s)` for the main file `a`: no nesting
depth is enough, in particular not one recursive call per listed name. -/
theorem C18_counterexample :
    rotate ⟨star_bracket, 1, 0⟩ fs_every_index = .diverges ∧
    (every_index_listed ['a']).rotation_file_list.length = 4294967296 ∧
    (∀ depth : Nat, do_rotation (every_index_listed ['a']) depth 1 2 [] = none) ∧
    do_rotation (every_index_listed ['a'])
      ((every_index_listed ['a']).rotation_file_list.length + 1) 1 2 [] = none := by
  have hnone : ∀ depth : Nat, do_rotation (every_index_listed ['a']) depth 1 2 [] = none :=
    fun depth => do_rotation_all_listed _ (every_index_listed_mem ['a']) depth 1 [] (by omega)
  exact ⟨rotate_fs_every_index, every_index_listed_length ['a'], hnone, hnone _⟩

/-- Claim C18, amended to backup lists with fewer than `2^32` names.  For every backup list
with fewer than `2^32` names the cascade `do_rotation(1,2)` returns with at most one
recursive call per listed name (a nesting depth of the number of names plus one is
enough, and the depth at which the model of `rotate` gives up is never reached).  For
every list and retention count, the pruning loop shortens the in-memory list by one name
per iteration, has met its exit condition after at most `size()` iterations, and does
nothing on further ones.  Hence `rotate()` ends, by returning or by an exception, on every
configuration and every file system with fewer than `2^32 - 2` files. -/
theorem C18_termination (cfg : Config) (fs : FS) (info : rotation_info) (L : List Str)
    (hlen : info.rotation_file_list.length < 4294967296)
    (hfs : fs.length + 2 < 4294967296) :
    (∃ fs1, do_rotation info (info.rotation_file_list.length + 1) 1 2 fs = some fs1 ∧
      do_rotation info do_rotation_depth 1 2 fs = some fs1) ∧
    ((∀ n, (prune_loop cfg.rotation_count n L fs).2.length =
        max (min L.length cfg.rotation_count) (L.length - n)) ∧
      (prune_loop cfg.rotation_count L.length L fs).2.length ≤ cfg.rotation_count ∧
      ∀ n, L.length ≤ n →
        prune_loop cfg.rotation_count n L fs = prune_loop cfg.rotation_count L.length L fs) ∧
    rotate cfg fs ≠ .diverges := by
  refine ⟨?_, ⟨fun n => prune_loop_length _ n L fs, ?_, fun n hn => prune_loop_fuel _ n L fs hn⟩, ?_⟩
  · obtain ⟨fs1, h1⟩ := do_rotation_terminates info fs hlen
    exact ⟨fs1, h1, do_rotation_mono_le info _ do_rotation_depth 1 2 fs fs1
      (by unfold do_rotation_depth; omega) h1⟩
  · rw [prune_loop_length]
    omega
  · intro hdiv
    obtain ⟨info2, hinfo2, hnone⟩ := rotate_diverges_in_cascade cfg fs hdiv
    have hl := get_rotation_info_length fs cfg.filename info2 hinfo2
    obtain ⟨fs1, h1⟩ := do_rotation_terminates info2 fs (by omega)
    have h2 := do_rotation_mono_le info2 _ do_rotation_depth 1 2 fs fs1
      (by unfold do_rotation_depth; omega) h1
    rw [hnone] at h2
    cases h2

/-- Witness for C18: the example program's strategy on the directory with six backups, a
list of two names for the cascade and one of three names for the pruning loop. -/
theorem C18_termination_witness :
    (∃ fs1, do_rotation ⟨rotation_log, 4, [make_fn rotation_log 1, make_fn rotation_log 2],
          2, 1, true⟩
        ((rotation_info.mk rotation_log 4 [make_fn rotation_log 1, make_fn rotation_log 2]
          2 1 true).rotation_file_list.length + 1) 1 2 fs_six_backups = some fs1 ∧
      do_rotation ⟨rotation_log, 4, [make_fn rotation_log 1, make_fn rotation_log 2],
          2, 1, true⟩ do_rotation_depth 1 2 fs_six_backups = some fs1) ∧
    ((∀ n, (prune_loop (Config.mk rotation_log 3 5120).rotation_count n
          [make_fn rotation_log 1, make_fn rotation_log 2, make_fn rotation_log 3]
          fs_six_backups).2.length =
        max (min [make_fn rotation_log 1, make_fn rotation_log 2,
          make_fn rotation_log 3].length (Config.mk rotation_log 3 5120).rotation_count)
          ([make_fn rotation_log 1, make_fn rotation_log 2, make_fn rotation_log 3].length - n)) ∧
      (prune_loop (Config.mk rotation_log 3 5120).rotation_count
          [make_fn rotation_log 1, make_fn rotation_log 2, make_fn rotation_log 3].length
          [make_fn rotation_log 1, make_fn rotation_log 2, make_fn rotation_log 3]
          fs_six_backups).2.length ≤ (Config.mk rotation_log 3 5120).rotation_count ∧
      ∀ n, [make_fn rotation_log 1, make_fn rotation_log 2, make_fn rotation_log 3].length ≤ n →
        prune_loop (Config.mk rotation_log 3 5120).rotation_count n
            [make_fn rotation_log 1, make_fn rotation_log 2, make_fn rotation_log 3]
            fs_six_backups =
          prune_loop (Config.mk rotation_log 3 5120).rotation_count
            [make_fn rotation_log 1, make_fn rotation_log 2, make_fn rotation_log 3].length
            [make_fn rotation_log 1, make_fn rotation_log 2, make_fn rotation_log 3]
            fs_six_backups) ∧
    rotate ⟨rotation_log, 3, 5120⟩ fs_six_backups ≠ .diverges :=
  C18_termination ⟨rotation_log, 3, 5120⟩ fs_six_backups
    ⟨rotation_log, 4, [make_fn rotation_log 1, make_fn rotation_log 2], 2, 1, true⟩
    [make_fn rotation_log 1, make_fn rotation_log 2, make_fn rotation_log 3]
    (by decide) (by decide)

/-- Claim C19, which the code breaks.  For the path `/app.log`, and for every entry of the
root directory named by `/` and a non-empty name without separator, `dirname_r` returns
normally and the returned parent directory is the empty string: the last separator is at
position 0 and `erase(0)` leaves nothing.  Handed to `directory_list`, the empty string
names no directory (`stat("")` fails), so the scan returns nothing on every file system,
also where the scan of `/` lists the main file and its backup. -/
theorem C19_dirname_r_of_root_entry :
    Filez.dirname_r "/app.log".toList = .ok [] ∧
    (∀ name : Str, name ≠ [] → '/' ∉ name → Filez.dirname_r ('/' :: name) = .ok []) ∧
    (∀ (fs : FS) (Filter : Nat) (mask : Str), Filez.directory_list fs [] Filter mask = []) ∧
    Filez.directory_list fs_root [] Filez.LT_Normal [] = [] ∧
    Filez.directory_list fs_root ['/'] Filez.LT_Normal [] =
      ["app.log".toList, "app.log.01".toList] := by
  refine ⟨by decide!, dirname_r_root_entry, fun fs Filter mask => ?_, by decide!, by decide!⟩
  simp [Filez.directory_list, Filez.dexists, Filez.exists, c_str, stat]
